import Mathlib

/-!
# petrossordinas/decimal: a verification development

Shallow embedding of `decimal.go`.  The Go program does all of its arithmetic
on `float64`, so the embedding starts with an executable model of IEEE-754
binary64 (round to nearest, ties to even), of the Go conversions between
integers and floats, and of the `math` functions the package calls
(`Pow10`, `Modf`, `Round`, `Trunc`, `Max`).

Modelling choices:

* every floating-point operation is rounded on its own, as the Go compiler
  does on amd64 (no fused multiply-add);
* a conversion from `float64` to an integer type whose value does not fit is
  implementation dependent in Go; the model returns what amd64 returns;
* `math.Pow10` is the table lookup of the Go standard library, the table
  entries being the decimal constants rounded to binary64;
* a Go `string` is the list of its bytes, one `Char` per byte; a slice is a
  list, `make` panics beyond the allocation limit of the runtime on
  linux/amd64, and an allocation within the limit succeeds (the memory of the
  machine is not modelled); a run-time panic is `none`;
* `fmt.Sprintf` with a `%.Nf` verb prints what `strconv.FormatFloat` gives:
  the exact binary value rounded to `N` decimals, ties to even; `%v` prints
  the shortest decimal that reads back as the same `float64`;
* `json.Unmarshal` into a `float64` accepts one JSON number (or `null`)
  between optional white space and stores what `strconv.ParseFloat` returns,
  the nearest `float64`; a number out of range is an error.  Of an error only
  its presence is modelled, not its text.

The file has three parts: the definitions, the theory of the binary64 model
(rounding error, exactness, the error analysis of the two factories, of `Add`,
of `Split`, of `ToString` and of the way back through `UnmarshalJSON`), and the
theorems about the claims of the specification.
-/

namespace Decimal

/-! ## Machine integers -/

/-- Two's-complement wrap of an integer into the `int64` range. -/
def wrapInt64 (x : Int) : Int := (x + 2 ^ 63) % 2 ^ 64 - 2 ^ 63

/-- Wrap of an integer into the `uint` (64 bit) range. -/
def wrapUint64 (x : Int) : Nat := (x % 2 ^ 64).toNat

/-! ## IEEE-754 binary64 -/

/-- A binary64 value.  `fin neg m e` is `(-1)^neg * m * 2^e`, with `m < 2^53`,
`-1074 ≤ e ≤ 971` and `2^52 ≤ m` unless `e = -1074` (subnormals and zero). -/
inductive F64 where
  | nan : F64
  | inf (neg : Bool) : F64
  | fin (neg : Bool) (m : Nat) (e : Int) : F64
deriving DecidableEq, Repr

namespace F64

/-- Auxiliary for `ilog2`: the recursion is on the fuel. -/
def log2Aux : Nat → Nat → Nat
  | 0, _ => 0
  | fuel + 1, n => if n < 2 then 0 else log2Aux fuel (n / 2) + 1

/-- Position of the leading bit: `2 ^ ilog2 n ≤ n < 2 ^ (ilog2 n + 1)` for `0 < n`. -/
def ilog2 (n : Nat) : Nat := log2Aux n n

/-- Exponent of the unit in the last place for the positive rational `n / d`:
the `e ≥ -1074` with `2^52 ≤ n / (d * 2^e) < 2^53` (or `-1074` for subnormals). -/
def ulpExp (n d : Nat) : Int :=
  let e0 : Int := (ilog2 n : Int) - (ilog2 d : Int) - 52
  let e1 : Int := if n * 2 ^ (-e0).toNat < 2 ^ 52 * (d * 2 ^ e0.toNat) then e0 - 1 else e0
  max e1 (-1074)

/-- Round the positive rational `n / d`, with the sign `neg`, to the nearest
binary64, ties to even; overflow gives an infinity. -/
def roundRat (neg : Bool) (n d : Nat) : F64 :=
  if n = 0 then fin neg 0 (-1074)
  else
    let e := ulpExp n d
    let N := n * 2 ^ (-e).toNat
    let D := d * 2 ^ e.toNat
    let q := N / D
    let r := N % D
    let q1 := if D < 2 * r ∨ (2 * r = D ∧ q % 2 = 1) then q + 1 else q
    if q1 = 2 ^ 53 then (if 971 < e + 1 then inf neg else fin neg (2 ^ 52) (e + 1))
    else if 971 < e then inf neg
    else fin neg q1 e

/-- Round `(-1)^neg * n * 2^e` to binary64. -/
def roundScaled (neg : Bool) (n : Nat) (e : Int) : F64 :=
  roundRat neg (n * 2 ^ e.toNat) (2 ^ (-e).toNat)

/-- Round an integer times a power of two to binary64; an exact zero is `+0`. -/
def roundInt (i : Int) (e : Int) : F64 :=
  roundScaled (decide (i < 0)) i.natAbs e

/-- Positive zero. -/
def zero : F64 := fin false 0 (-1074)

/-- Go `float64(x)` for an integer `x` (of type `int64` or `uint`). -/
def ofInt (x : Int) : F64 := roundInt x 0

/-- Go `float64(c)` for an exact decimal constant `n / d`, `0 < d`. -/
def ofRat (neg : Bool) (n d : Nat) : F64 := roundRat neg n d

/-- The sign `±1` of a sign bit. -/
def sgn (s : Bool) : ℚ := if s then -1 else 1

/-- The exact value of a finite binary64 (`0` for NaN and the infinities). -/
def toRat : F64 → ℚ
  | fin neg m e => sgn neg * ((m : ℚ) * (2 : ℚ) ^ e)
  | _ => 0

/-- Whether the value is a finite binary64: neither NaN nor an infinity, the
significand below `2^53` and the exponent in range. -/
def isFinite : F64 → Bool
  | fin _ m e => decide (m < 2 ^ 53) && decide (-1074 ≤ e) && decide (e ≤ 971)
  | _ => false

/-- `Rnd X r`: the value `r` is a correct rounding of the exact result `X`, as
far as the error analysis needs it: relative error `2^-53` (plus `2^-1075` in
the subnormal range), zero stays zero and the sign is kept. -/
def Rnd (X r : ℚ) : Prop :=
  |r - X| ≤ |X| * (2 : ℚ) ^ (-53 : ℤ) + (2 : ℚ) ^ (-1075 : ℤ)
    ∧ (X = 0 → r = 0) ∧ (0 ≤ X → 0 ≤ r) ∧ (X ≤ 0 → r ≤ 0)

/-- Signed significand of a finite value. -/
def sig (neg : Bool) (m : Nat) : Int := if neg then -(m : Int) else (m : Int)

/-- Unary minus. -/
def neg : F64 → F64
  | nan => nan
  | inf s => inf (!s)
  | fin s m e => fin (!s) m e

/-- Go `x + y` on `float64`. -/
def add : F64 → F64 → F64
  | nan, _ => nan
  | _, nan => nan
  | inf s, inf t => if s = t then inf s else nan
  | inf s, fin _ _ _ => inf s
  | fin _ _ _, inf t => inf t
  | fin s m e, fin t n g =>
    let k := min e g
    let i := sig s m * 2 ^ (e - k).toNat + sig t n * 2 ^ (g - k).toNat
    if i = 0 then fin (s && t) 0 (-1074) else roundInt i k

/-- Go `x - y` on `float64`. -/
def sub (x y : F64) : F64 := add x (neg y)

/-- Go `x * y` on `float64`. -/
def mul : F64 → F64 → F64
  | nan, _ => nan
  | _, nan => nan
  | inf s, inf t => inf (xor s t)
  | inf s, fin t n _ => if n = 0 then nan else inf (xor s t)
  | fin s m _, inf t => if m = 0 then nan else inf (xor s t)
  | fin s m e, fin t n g => roundScaled (xor s t) (m * n) (e + g)

/-- Go `x / y` on `float64`. -/
def div : F64 → F64 → F64
  | nan, _ => nan
  | _, nan => nan
  | inf _, inf _ => nan
  | inf s, fin t _ _ => inf (xor s t)
  | fin s _ _, inf t => fin (xor s t) 0 (-1074)
  | fin s m e, fin t n g =>
    if n = 0 then (if m = 0 then nan else inf (xor s t))
    else
      let k := min e g
      roundRat (xor s t) (m * 2 ^ (e - k).toNat) (n * 2 ^ (g - k).toNat)

/-- Go `x < 0` on `float64` (false for NaN and for both zeros). -/
def ltZero : F64 → Bool
  | nan => false
  | inf s => s
  | fin s m _ => s && decide (m ≠ 0)

/-- Go `math.Trunc`: the integer part, toward zero, keeping the sign. -/
def trunc : F64 → F64
  | nan => nan
  | inf s => inf s
  | fin s m e => if 0 ≤ e then fin s m e else roundScaled s (m / 2 ^ (-e).toNat) 0

/-- Go `math.Modf`: integer part and fractional part, both with the sign of
the argument; `Modf(±Inf) = ±Inf, NaN`. -/
def modf (x : F64) : F64 × F64 :=
  match x with
  | nan => (nan, nan)
  | inf s => (inf s, nan)
  | fin s m e =>
    if 0 ≤ e then (fin s m e, fin s 0 (-1074))
    else (roundScaled s (m / 2 ^ (-e).toNat) 0, roundScaled s (m % 2 ^ (-e).toNat) e)

/-- Go `math.Round`: nearest integer, halves away from zero. -/
def round : F64 → F64
  | nan => nan
  | inf s => inf s
  | fin s m e =>
    if 0 ≤ e then fin s m e
    else
      let d := 2 ^ (-e).toNat
      roundScaled s (if d ≤ 2 * (m % d) then m / d + 1 else m / d) 0

/-- Go `math.Max` (`Max(x, NaN) = NaN`, `Max(+0, -0) = +0`). -/
def max : F64 → F64 → F64
  | nan, _ => nan
  | _, nan => nan
  | inf false, _ => inf false
  | _, inf false => inf false
  | inf true, y => y
  | x, inf true => x
  | fin s m e, fin t n g =>
    if m = 0 ∧ n = 0 then fin (s && t) 0 (-1074)
    else
      let k := min e g
      if sig s m * 2 ^ (e - k).toNat < sig t n * 2 ^ (g - k).toNat then fin t n g else fin s m e

/-- The integer part of a finite value, toward zero. -/
def truncInt (s : Bool) (m : Nat) (e : Int) : Int :=
  sig s (if 0 ≤ e then m * 2 ^ e.toNat else m / 2 ^ (-e).toNat)

/-- Go `int64(x)` for a `float64`: truncation toward zero.  When the value
does not fit the result is implementation dependent; this is what amd64
gives (`-2^63`). -/
def toInt64 : F64 → Int
  | fin s m e =>
    let i := truncInt s m e
    if -2 ^ 63 ≤ i ∧ i < 2 ^ 63 then i else -2 ^ 63
  | _ => -2 ^ 63

/-- Go `uint(x)` for a `float64`: truncation toward zero.  When the value
does not fit the result is implementation dependent; this is what amd64
gives. -/
def toUint64 : F64 → Nat
  | fin s m e =>
    let i := truncInt s m e
    if i < 2 ^ 63 then wrapUint64 (if -2 ^ 63 ≤ i then i else -2 ^ 63)
    else if i < 2 ^ 64 then i.toNat else 2 ^ 63
  | _ => 2 ^ 63

/-- Entry `i` of Go's `pow10tab` (`1e00 … 1e31`), each the constant rounded to binary64. -/
def pow10tab (i : Nat) : F64 := ofRat false (10 ^ i) 1

/-- Entry `i` of Go's `pow10postab32` (`1e00, 1e32, 1e64, …`). -/
def pow10postab32 (i : Nat) : F64 := ofRat false (10 ^ (32 * i)) 1

/-- Entry `i` of Go's `pow10negtab32` (`1e-00, 1e-32, 1e-64, …`). -/
def pow10negtab32 (i : Nat) : F64 := ofRat false 1 (10 ^ (32 * i))

/-- Go `math.Pow10`. -/
def pow10 (n : Int) : F64 :=
  if 0 ≤ n ∧ n ≤ 308 then mul (pow10postab32 (n.toNat / 32)) (pow10tab (n.toNat % 32))
  else if -323 ≤ n ∧ n ≤ 0 then div (pow10negtab32 ((-n).toNat / 32)) (pow10tab ((-n).toNat % 32))
  else if 0 < n then inf false
  else zero

end F64

/-! ## Go strings and `fmt.Sprintf` -/

/-- Go `string(b)` for a byte `b`: the UTF-8 encoding of the code point `b`. -/
def byteToString (b : Nat) : List Char :=
  if b < 128 then [Char.ofNat b]
  else [Char.ofNat (192 + b / 64), Char.ofNat (128 + b % 64)]

/-- Decimal digits of a natural number. -/
def natDigits (n : Nat) : List Char := Nat.toDigits 10 n

/-- Go `fmt.Sprintf("%d", x)`. -/
def sprintfD (x : Int) : List Char :=
  if x < 0 then '-' :: natDigits x.natAbs else natDigits x.natAbs

/-- Go `fmt.Sprintf("%0" + fmt.Sprintf("%d", precision) + "d", x)`.  After the
percent sign every leading `0` is a flag, so precision `0` gives the plain
`%0d`; otherwise the digits of the precision are the width, and zero padding
fills the width, the sign included.  A width with a proper prefix above `10^6`
is refused by `fmt`: no verb is found and the argument is reported as extra. -/
def sprintfPad (precision : Nat) (x : Int) : List Char :=
  if precision = 0 then sprintfD x
  else if 10 ^ 6 < precision / 10 then
    "%!(NOVERB)%!(EXTRA int64=".toList ++ sprintfD x ++ [')']
  else
    let ds := natDigits x.natAbs
    let prec := if x < 0 then precision - 1 else precision
    let body := List.replicate (prec - ds.length) '0' ++ ds
    let out := if x < 0 then '-' :: body else body
    List.replicate (precision - out.length) ' ' ++ out

/-- Nearest natural number to `n / d` (`0 < d`), ties to even. -/
def roundHalfEven (n d : Nat) : Nat :=
  let q := n / d
  let r := n % d
  if d < 2 * r ∨ (2 * r = d ∧ q % 2 = 1) then q + 1 else q

/-- Pad with `'0'` on the left up to the width `w`. -/
def padZeros (w : Nat) (ds : List Char) : List Char :=
  List.replicate (w - ds.length) '0' ++ ds

/-- Go `strconv.FormatFloat(x, 'f', prec, 64)` for the finite `x = (-1)^s * m * 2^e`:
the exact value rounded to `prec` decimals (ties to even), the sign printed
whenever the sign bit is set, no point when `prec = 0`. -/
def formatFixed (prec : Nat) (s : Bool) (m : Nat) (e : Int) : List Char :=
  let N := roundHalfEven (m * 2 ^ e.toNat * 10 ^ prec) (2 ^ (-e).toNat)
  let body := natDigits (N / 10 ^ prec) ++
    (if prec = 0 then [] else '.' :: padZeros prec (natDigits (N % 10 ^ prec)))
  if s then '-' :: body else body

/-- Auxiliary for `floorLog10`: the least `j` from the start value with
`b ≤ a * 10^j`. -/
def negLog10Aux (a b : Nat) : Nat → Nat → Nat
  | 0, j => j
  | fuel + 1, j => if b ≤ a * 10 ^ j then j else negLog10Aux a b fuel (j + 1)

/-- The decimal exponent `k` of the positive rational `a / b`:
`10^k ≤ a / b < 10^(k+1)`. -/
def floorLog10 (a b : Nat) : Int :=
  if b ≤ a then ((natDigits (a / b)).length : Int) - 1
  else -(negLog10Aux a b 400 1 : Int)

/-- The shortest decimal `D * 10^k` that reads back as the positive binary64
`x = a / b`, searched from `n` digits on: of the two `n`-digit neighbours of
`x` those that round to `x` are kept, and the nearer one is taken (the even
one on a tie). -/
def shortestAux (x : F64) (a b : Nat) (k10 : Int) : Nat → Nat → Nat × Int
  | 0, n => (roundHalfEven (a * 10 ^ (n - 1 - k10).toNat) (b * 10 ^ (k10 - (n - 1)).toNat),
      k10 - (n - 1))
  | fuel + 1, n =>
    let k : Int := k10 - (n - 1)
    let num := a * 10 ^ (-k).toNat
    let den := b * 10 ^ k.toNat
    let lo := num / den
    let r := num % den
    let hi := lo + 1
    let okLo := decide (F64.ofRat false (lo * 10 ^ k.toNat) (10 ^ (-k).toNat) = x)
    let okHi := decide (F64.ofRat false (hi * 10 ^ k.toNat) (10 ^ (-k).toNat) = x)
    if r = 0 then (lo, k)
    else if okLo && okHi then
      (if den < 2 * r ∨ (2 * r = den ∧ lo % 2 = 1) then (hi, k) else (lo, k))
    else if okLo then (lo, k)
    else if okHi then (hi, k)
    else shortestAux x a b k10 fuel (n + 1)

/-- Remove the trailing `'0'` characters. -/
def stripZeros (ds : List Char) : List Char :=
  (ds.reverse.dropWhile (fun c => c = '0')).reverse

/-- Go `strconv.FormatFloat(x, 'e', -1, 64)` from the digits `ds` of the
shortest decimal `0.ds * 10^dp`. -/
def formatE (ds : List Char) (dp : Int) : List Char :=
  let ex := dp - 1
  let es := natDigits ex.natAbs
  ds.take 1 ++ (if 1 < ds.length then '.' :: ds.drop 1 else []) ++
    ['e', if ex < 0 then '-' else '+'] ++ (if es.length < 2 then '0' :: es else es)

/-- Go `fmt.Sprintf("%v", x)` for a `float64`: the shortest decimal that reads
back as `x`, in the `%e` form when the decimal exponent is below `-4` or at
least `6`. -/
def sprintfV : F64 → List Char
  | F64.nan => "NaN".toList
  | F64.inf s => if s then "-Inf".toList else "+Inf".toList
  | F64.fin s m e =>
    let sign : List Char := if s then ['-'] else []
    if m = 0 then sign ++ ['0']
    else
      let a := m * 2 ^ e.toNat
      let b := 2 ^ (-e).toNat
      let (D, k) := shortestAux (F64.roundRat false a b) a b (floorLog10 a b) 17 1
      let ds := stripZeros (natDigits D)
      let dp : Int := (natDigits D).length + k
      if dp - 1 < -4 ∨ 6 ≤ dp - 1 then sign ++ formatE ds dp
      else if dp ≤ 0 then sign ++ '0' :: '.' :: (List.replicate (-dp).toNat '0' ++ ds)
      else
        sign ++ (ds.take dp.toNat ++ List.replicate (dp.toNat - ds.length) '0') ++
          (if dp.toNat < ds.length then '.' :: ds.drop dp.toNat else [])

/-- Go `fmt.Sprintf("%." + fmt.Sprintf("%d", precision) + "f", x)`.  The digits
of the precision are read as the precision of the verb; a number with a proper
prefix above `10^6` is refused by `fmt`: no verb is found and the argument is
reported as extra, printed with `%v`.  Infinities print as `+Inf` and `-Inf`. -/
def sprintfF (precision : Nat) (x : F64) : List Char :=
  if 10 ^ 6 < precision / 10 then
    "%!(NOVERB)%!(EXTRA float64=".toList ++ sprintfV x ++ [')']
  else
    match x with
    | F64.nan => "NaN".toList
    | F64.inf s => if s then "-Inf".toList else "+Inf".toList
    | F64.fin s m e => formatFixed precision s m e

/-! ## `encoding/json`: decoding into a `float64` -/

/-- The white space JSON allows around a value. -/
def isJSONSpace (c : Char) : Bool :=
  c.toNat = 32 || c.toNat = 9 || c.toNat = 13 || c.toNat = 10

/-- A decimal digit. -/
def isDigitChar (c : Char) : Bool := decide (48 ≤ c.toNat) && decide (c.toNat ≤ 57)

/-- The input without the JSON white space at both ends. -/
def trimJSON (data : List Char) : List Char :=
  ((data.dropWhile isJSONSpace).reverse.dropWhile isJSONSpace).reverse

/-- The number written by a list of decimal digits. -/
def digitsValue (ds : List Char) : Nat :=
  ds.foldl (fun n c => 10 * n + (c.toNat - 48)) 0

/-- The exponent part of a JSON number: nothing, or `e`/`E`, an optional sign
and at least one digit, up to the end of the input. -/
def jsonExponent : List Char → Option Int
  | [] => some 0
  | c :: rest =>
    if c = 'e' ∨ c = 'E' then
      let (neg, ds) : Bool × List Char :=
        match rest with
        | '-' :: r => (true, r)
        | '+' :: r => (false, r)
        | r => (false, r)
      if ds ≠ [] ∧ ds.all isDigitChar then
        some (if neg then -(digitsValue ds : Int) else (digitsValue ds : Int))
      else none
    else none

/-- The fraction part of a JSON number: nothing, or a point and at least one
digit; the digits and the rest of the input. -/
def jsonFraction : List Char → Option (List Char × List Char)
  | '.' :: r =>
    if r.takeWhile isDigitChar = [] then none
    else some (r.takeWhile isDigitChar, r.dropWhile isDigitChar)
  | r => some ([], r)

/-- A JSON number after its sign: `(0 | [1-9][0-9]*) (. [0-9]+)? ([eE] [+-]? [0-9]+)?`
on the whole input, with the digits `n` and the decimal exponent `k` of the
value `n * 10^k`. -/
def jsonUnsigned (neg : Bool) (s : List Char) : Option (Bool × Nat × Int) :=
  let ip := s.takeWhile isDigitChar
  if ip = [] ∨ (1 < ip.length ∧ ip.head? = some '0') then none
  else
    match jsonFraction (s.dropWhile isDigitChar) with
    | none => none
    | some (fp, rest) =>
      match jsonExponent rest with
      | none => none
      | some ex => some (neg, digitsValue (ip ++ fp), ex - fp.length)

/-- The JSON number grammar `-? (0 | [1-9][0-9]*) (. [0-9]+)? ([eE] [+-]? [0-9]+)?`
on the whole input: the sign, the digits `n` and the decimal exponent `k` of
the value `± n * 10^k`, or `none` when the input is not a JSON number. -/
def jsonNumber : List Char → Option (Bool × Nat × Int)
  | '-' :: r => jsonUnsigned true r
  | r => jsonUnsigned false r

/-- Go `strconv.ParseFloat` on a decimal `± n * 10^k`: the nearest binary64,
ties to even (an infinity when out of range). -/
def decimalToFloat (v : Bool × Nat × Int) : F64 :=
  F64.ofRat v.1 (v.2.1 * 10 ^ v.2.2.toNat) (10 ^ (-v.2.2).toNat)

/-- Go `json.Unmarshal(data, &floatVal)` for a `float64` variable holding `0`:
the stored value, or `none` for an error.  The input has to be one JSON value
between optional white space; `null` leaves the variable as it is; a number is
stored unless it is out of range; every other value, as well as malformed
input, is an error. -/
def unmarshalFloat64 (data : List Char) : Option F64 :=
  let s := trimJSON data
  if s = "null".toList then some F64.zero
  else
    match jsonNumber s with
    | none => none
    | some v =>
      match decimalToFloat v with
      | F64.fin neg m e => some (F64.fin neg m e)
      | _ => none

/-! ## The `Decimal` type and its operations -/

/-- Go constant `DEFAULT_DECIMAL_POINT = ','`. -/
def DEFAULT_DECIMAL_POINT : Nat := 44

/-- Go constant `DEFAULT_THOUSAND_SEPARATOR = '.'`. -/
def DEFAULT_THOUSAND_SEPARATOR : Nat := 46

end Decimal

/-- Go `type Decimal struct`: `whole`, `fraction` are `int64`, `precision` is
`uint`, the two separators are bytes. -/
structure Decimal where
  whole : Int
  fraction : Int
  precision : Nat
  decimalPoint : Nat
  thousandSeparator : Nat
deriving DecidableEq, Repr

namespace Decimal

open F64

/-- Go `math.Pow10(int(precision) * -1)`: the conversion to `int` and the
product wrap. -/
def pow10Neg (precision : Nat) : F64 := pow10 (wrapInt64 (wrapInt64 precision * -1))

/-- Go `math.Pow10(int(precision))`. -/
def pow10Pos (precision : Nat) : F64 := pow10 (wrapInt64 precision)

/-- The signed rounding bias `sign * (5 * math.Pow10(int(precision+1) * -1))`,
where `sign` is `-1.0` if `w < 0 || f < 0` and `1.0` otherwise. -/
def rounder (w f : F64) (precision : Nat) : F64 :=
  let sign := if ltZero w || ltZero f then ofInt (-1) else ofInt 1
  mul sign (mul (ofInt 5) (pow10Neg (wrapUint64 (precision + 1))))

/-- Go `NewDecimal`. -/
def NewDecimal (amount : Int) (precision : Nat) : Decimal :=
  let floatAmount := mul (ofInt amount) (pow10Neg precision)
  let (w, f) := modf floatAmount
  let rounder := rounder w f precision
  { whole := toInt64 w
    fraction := toInt64 (mul (add f rounder) (pow10Pos precision))
    precision := precision
    decimalPoint := DEFAULT_DECIMAL_POINT
    thousandSeparator := DEFAULT_THOUSAND_SEPARATOR }

/-- Go `NewDecimalFromFloat`. -/
def NewDecimalFromFloat (amount : F64) (precision : Nat) : Decimal :=
  let (w, f) := modf amount
  let nf := mul f (pow10Pos (wrapUint64 (precision + 2)))
  let rnf := round nf
  let f := mul rnf (pow10Neg (wrapUint64 (precision + 2)))
  let rounder := rounder w f precision
  { whole := toInt64 w
    fraction := toInt64 (mul (add f rounder) (pow10Pos precision))
    precision := precision
    decimalPoint := DEFAULT_DECIMAL_POINT
    thousandSeparator := DEFAULT_THOUSAND_SEPARATOR }

/-- Go `Decimal.ToInt`; the `int64` product and sum wrap. -/
def ToInt (d : Decimal) : Int :=
  let w := wrapInt64 (d.whole * toInt64 (pow10Pos d.precision))
  wrapInt64 (w + d.fraction)

/-- Go `Decimal.ToFloat`. -/
def ToFloat (d : Decimal) : F64 :=
  let f := mul (ofInt d.fraction) (pow10Neg d.precision)
  add (ofInt d.whole) f

/-- The loop `for r := whole / 1000; r > 0; r /= 1000 { t++ }` of
`ToStringFormatted`, started at `r` with counter `t`. -/
def countThousands : Nat → Int → Nat → Nat
  | 0, _, t => t
  | fuel + 1, r, t => if 0 < r then countThousands fuel (r.tdiv 1000) (t + 1) else t

/-- The loop `for i := 1; i <= t*3; i += 4 { fs = fs[:i] + sep + fs[i:] }` of
`ToStringFormatted`, started at `i`. -/
def insertSeparators (sep : List Char) (bound : Nat) : Nat → Nat → List Char → List Char
  | 0, _, fs => fs
  | fuel + 1, i, fs =>
    if i ≤ bound then insertSeparators sep bound fuel (i + 4) (fs.take i ++ sep ++ fs.drop i)
    else fs

/-- Go `Decimal.ToStringFormatted`. -/
def ToStringFormatted (d : Decimal) : List Char :=
  let t := countThousands 64 (d.whole.tdiv 1000) 0
  let fs := sprintfD d.whole
  let fs := insertSeparators (byteToString d.thousandSeparator) (t * 3) (t * 3 + 1) 1 fs
  let fs := fs ++ byteToString d.decimalPoint
  fs ++ sprintfPad d.precision d.fraction

/-- The number a Decimal stands for in the data model:
`whole + fraction × 10^-precision`. -/
def value (d : Decimal) : ℚ := (d.whole : ℚ) + (d.fraction : ℚ) / (10 : ℚ) ^ d.precision

/-- Rounding to the nearest integer with ties away from zero, the rounding
rule the specification states for both factories. -/
def roundHalfAway (x : ℚ) : ℤ :=
  if 0 ≤ x then ⌊x + 1 / 2⌋ else -⌊-x + 1 / 2⌋

/-- Go `Decimal.SetDecimalPoint`. -/
def SetDecimalPoint (d : Decimal) (decimalPoint : Nat) : Decimal :=
  { d with decimalPoint := decimalPoint }

/-- Go `Decimal.SetThousandSeparator`. -/
def SetThousandSeparator (d : Decimal) (ts : Nat) : Decimal :=
  { d with thousandSeparator := ts }

/-- Go `Decimal.GetWhole`. -/
def GetWhole (d : Decimal) : Int := d.whole

/-- Go `Decimal.GetFraction`. -/
def GetFraction (d : Decimal) : Int := d.fraction

/-- Go `Decimal.IsZero`. -/
def IsZero (d : Decimal) : Bool := d.whole == 0 && d.fraction == 0

/-- Go `Decimal.IsNegative`. -/
def IsNegative (d : Decimal) : Bool := decide (d.whole < 0) && decide (d.fraction ≤ 0)

/-- The result precision `uint(math.Max(float64(p), float64(q)))` of the
binary operations. -/
def maxPrecision (p q : Nat) : Nat := toUint64 (F64.max (ofInt p) (ofInt q))

/-- Go `Decimal.Add`. -/
def Add (d decimalToAdd : Decimal) : Decimal :=
  let sum := add (ToFloat d) (ToFloat decimalToAdd)
  NewDecimalFromFloat sum (maxPrecision d.precision decimalToAdd.precision)

/-- Go `Decimal.Subtract`. -/
def Subtract (d decimalToSubtract : Decimal) : Decimal :=
  let difference := sub (ToFloat d) (ToFloat decimalToSubtract)
  NewDecimalFromFloat difference (maxPrecision d.precision decimalToSubtract.precision)

/-- Go `Decimal.Multiply`. -/
def Multiply (d factor : Decimal) : Decimal :=
  let product := mul (ToFloat d) (ToFloat factor)
  NewDecimalFromFloat product (maxPrecision d.precision factor.precision)

/-- Go `Decimal.Divide`. -/
def Divide (d divisor : Decimal) : Decimal :=
  let quotient := div (ToFloat d) (ToFloat divisor)
  NewDecimalFromFloat quotient (maxPrecision d.precision divisor.precision)

/-- Go `Decimal.AddInt`. -/
def AddInt (d : Decimal) (intToAdd : Int) : Decimal := Add d (NewDecimal intToAdd 0)

/-- Go `Decimal.SubtractInt`. -/
def SubtractInt (d : Decimal) (intToSubtract : Int) : Decimal :=
  Subtract d (NewDecimal intToSubtract 0)

/-- Go `Decimal.MultiplyByInt`. -/
def MultiplyByInt (d : Decimal) (intToMultiply : Int) : Decimal :=
  Multiply d (NewDecimal intToMultiply 0)

/-- Go `Decimal.DivideByInt`. -/
def DivideByInt (d : Decimal) (inToDivide : Int) : Decimal :=
  Divide d (NewDecimal inToDivide 0)

/-- Go `Decimal.AddFloat`. -/
def AddFloat (d : Decimal) (floatToAdd : F64) : Decimal :=
  Add d (NewDecimalFromFloat floatToAdd d.precision)

/-- Go `Decimal.SubtractFloat`. -/
def SubtractFloat (d : Decimal) (floatToSubtract : F64) : Decimal :=
  Subtract d (NewDecimalFromFloat floatToSubtract d.precision)

/-- Go `Decimal.MultiplyFloat`. -/
def MultiplyFloat (d : Decimal) (floatToMultiply : F64) : Decimal :=
  NewDecimalFromFloat (mul (ToFloat d) floatToMultiply) d.precision

/-- Go `Decimal.DivideByFloat`. -/
def DivideByFloat (d : Decimal) (floatToDivideBy : F64) : Decimal :=
  NewDecimalFromFloat (div (ToFloat d) floatToDivideBy) d.precision

/-- The per-part base amount of `Split`: `float / n`, scaled by `10^precision`,
truncated, scaled back. -/
def splitQuotient (d : Decimal) (toParts : Nat) : F64 :=
  let quotient := div (ToFloat d) (ofInt toParts)
  let quotient := mul quotient (pow10Pos d.precision)
  let quotient := trunc quotient
  mul quotient (pow10Neg d.precision)

/-- The accumulator `sum` of `Split` after `n` rounds of `sum += quotient`. -/
def splitSum (quotient : F64) : Nat → F64
  | 0 => zero
  | n + 1 => add (splitSum quotient n) quotient

/-- The largest length `make([]Decimal, n)` accepts: the runtime refuses a
slice of more than `maxAlloc = 2^48` bytes (linux/amd64), and a `Decimal`
takes 32 bytes (three words and two bytes, padded to a multiple of eight). -/
def maxSliceLen : Nat := 2 ^ 48 / 32

/-- Go `Decimal.Split`.  `none` is a run-time panic: `make([]Decimal, toParts)`
panics (`makeslice: len out of range`) for more than `maxSliceLen` parts, and
`parts[0]` panics (index out of range) on the empty slice that
`make([]Decimal, 0)` returns.  An allocation that the runtime accepts is taken
to succeed. -/
def Split (d : Decimal) (toParts : Nat) : Option (List Decimal) :=
  if maxSliceLen < toParts then none
  else
    let decimalToFloat := ToFloat d
    let quotient := splitQuotient d toParts
    let parts := List.replicate toParts (NewDecimalFromFloat quotient d.precision)
    let sum := splitSum quotient toParts
    let remainder := sub decimalToFloat sum
    match parts with
    | [] => none
    | part0 :: rest => some (AddFloat part0 remainder :: rest)

/-- Go `Decimal.ToString`. -/
def ToString (d : Decimal) : List Char := sprintfF d.precision (ToFloat d)

/-- Go `Decimal.UnmarshalJSON`: the receiver after the call, and whether the
returned error is non-nil. -/
def UnmarshalJSON (d : Decimal) (data : List Char) : Decimal × Bool :=
  match unmarshalFloat64 data with
  | none => (d, true)
  | some floatVal =>
    let dc := NewDecimalFromFloat floatVal d.precision
    ({ d with whole := dc.whole, fraction := dc.fraction }, false)

end Decimal

namespace Decimal
namespace F64

/-! ## Theory of the binary64 model

### The exponent of the unit in the last place -/

theorem log2Aux_spec : ∀ (fuel n : Nat), 0 < n → n ≤ fuel →
    2 ^ log2Aux fuel n ≤ n ∧ n < 2 ^ (log2Aux fuel n + 1) := by
  intro fuel
  induction fuel with
  | zero => intro n h1 h2; omega
  | succ k ih =>
    intro n h1 h2
    unfold log2Aux
    split_ifs with h
    · constructor <;> simp <;> omega
    · have h3 := ih (n / 2) (by omega) (by omega)
      obtain ⟨h4, h5⟩ := h3
      constructor
      · rw [pow_succ]; omega
      · rw [pow_succ]; omega

theorem ilog2_spec (n : Nat) (h : 0 < n) : 2 ^ ilog2 n ≤ n ∧ n < 2 ^ (ilog2 n + 1) :=
  log2Aux_spec n n h le_rfl

/-- The quotient of the two powers of two used to scale by `2^(-e)`. -/
theorem two_pow_toNat_div (e : Int) :
    ((2 : ℚ) ^ (-e).toNat) / (2 : ℚ) ^ e.toNat = (2 : ℚ) ^ (-e) := by
  rcases le_total 0 e with h | h
  · have h1 : (-e).toNat = 0 := by omega
    obtain ⟨k, rfl⟩ := Int.eq_ofNat_of_zero_le h
    rw [h1]
    simp [zpow_neg]
  · have h1 : e.toNat = 0 := by omega
    obtain ⟨k, hk⟩ := Int.eq_ofNat_of_zero_le (show 0 ≤ -e by omega)
    rw [h1, hk]
    simp

/-- Scaled numerator over scaled denominator is the rational scaled by `2^(-e)`. -/
theorem scaled_div (n d : Nat) (e : Int) :
    ((n * 2 ^ (-e).toNat : Nat) : ℚ) / ((d * 2 ^ e.toNat : Nat) : ℚ)
      = (n : ℚ) / d * (2 : ℚ) ^ (-e) := by
  rw [← two_pow_toNat_div]
  push_cast
  field_simp

theorem ulpExp_spec (n d : Nat) (hn : 0 < n) (hd : 0 < d) :
    (n : ℚ) / d < 2 ^ 53 * (2 : ℚ) ^ (ulpExp n d)
    ∧ (2 ^ 52 * (2 : ℚ) ^ (ulpExp n d) ≤ (n : ℚ) / d ∨ ulpExp n d = -1074)
    ∧ -1074 ≤ ulpExp n d := by
  obtain ⟨ha1, ha2⟩ := ilog2_spec n hn
  obtain ⟨hb1, hb2⟩ := ilog2_spec d hd
  set a := ilog2 n
  set b := ilog2 d
  have hdq : (0 : ℚ) < d := by exact_mod_cast hd
  have hnq : (0 : ℚ) < n := by exact_mod_cast hn
  have ha1q : (2 : ℚ) ^ (a : ℤ) ≤ n := by
    rw [zpow_natCast]; exact_mod_cast ha1
  have ha2q : (n : ℚ) < (2 : ℚ) ^ ((a : ℤ) + 1) := by
    have : (n : ℚ) < (2 : ℚ) ^ (a + 1) := by exact_mod_cast ha2
    rw [show ((a : ℤ) + 1) = ((a + 1 : ℕ) : ℤ) by push_cast; ring, zpow_natCast]; exact this
  have hb1q : (2 : ℚ) ^ (b : ℤ) ≤ d := by
    rw [zpow_natCast]; exact_mod_cast hb1
  have hb2q : (d : ℚ) < (2 : ℚ) ^ ((b : ℤ) + 1) := by
    have : (d : ℚ) < (2 : ℚ) ^ (b + 1) := by exact_mod_cast hb2
    rw [show ((b : ℤ) + 1) = ((b + 1 : ℕ) : ℤ) by push_cast; ring, zpow_natCast]; exact this
  have h2 : (0 : ℚ) < 2 := by norm_num
  -- bounds on x = n / d
  have hx_hi : (n : ℚ) / d < (2 : ℚ) ^ ((a : ℤ) - b + 1) := by
    rw [div_lt_iff₀ hdq]
    calc (n : ℚ) < (2 : ℚ) ^ ((a : ℤ) + 1) := ha2q
      _ = (2 : ℚ) ^ ((a : ℤ) - b + 1) * (2 : ℚ) ^ (b : ℤ) := by
          rw [← zpow_add₀ (by norm_num : (2 : ℚ) ≠ 0)]; congr 1; ring
      _ ≤ (2 : ℚ) ^ ((a : ℤ) - b + 1) * d := by
          apply mul_le_mul_of_nonneg_left hb1q (le_of_lt (zpow_pos h2 _))
  have hx_lo : (2 : ℚ) ^ ((a : ℤ) - b - 1) < (n : ℚ) / d := by
    rw [lt_div_iff₀ hdq]
    calc (2 : ℚ) ^ ((a : ℤ) - b - 1) * d < (2 : ℚ) ^ ((a : ℤ) - b - 1) * (2 : ℚ) ^ ((b : ℤ) + 1) := by
          apply mul_lt_mul_of_pos_left hb2q (zpow_pos h2 _)
      _ = (2 : ℚ) ^ (a : ℤ) := by
          rw [← zpow_add₀ (by norm_num : (2 : ℚ) ≠ 0)]; congr 1; ring
      _ ≤ n := ha1q
  unfold ulpExp
  simp only []
  set e0 : ℤ := (a : ℤ) - (b : ℤ) - 52 with he0
  -- the comparison of the definition, read in ℚ
  have hcmp : (n * 2 ^ (-e0).toNat < 2 ^ 52 * (d * 2 ^ e0.toNat)) ↔
      (n : ℚ) / d < 2 ^ 52 * (2 : ℚ) ^ e0 := by
    have hD : (0 : ℚ) < ((d * 2 ^ e0.toNat : Nat) : ℚ) := by positivity
    have key := scaled_div n d e0
    have : (n * 2 ^ (-e0).toNat < 2 ^ 52 * (d * 2 ^ e0.toNat)) ↔
        ((n * 2 ^ (-e0).toNat : Nat) : ℚ) / ((d * 2 ^ e0.toNat : Nat) : ℚ) < 2 ^ 52 := by
      rw [div_lt_iff₀ hD]
      constructor
      · intro h; exact_mod_cast h
      · intro h; exact_mod_cast h
    rw [this, key, zpow_neg, ← div_eq_mul_inv, div_lt_iff₀ (zpow_pos h2 _)]
  have hpow : ∀ (i j : ℤ), (2 : ℚ) ^ (i + j) = (2 : ℚ) ^ i * (2 : ℚ) ^ j := fun i j =>
    zpow_add₀ (by norm_num) i j
  have hx_hi' : (n : ℚ) / d < 2 ^ 53 * (2 : ℚ) ^ e0 := by
    have : (2 : ℚ) ^ ((a : ℤ) - b + 1) = 2 ^ 53 * (2 : ℚ) ^ e0 := by
      rw [show ((a : ℤ) - b + 1) = 53 + e0 by rw [he0]; ring, hpow]; norm_num
    rw [← this]; exact hx_hi
  have hx_lo' : 2 ^ 51 * (2 : ℚ) ^ e0 < (n : ℚ) / d := by
    have : (2 : ℚ) ^ ((a : ℤ) - b - 1) = 2 ^ 51 * (2 : ℚ) ^ e0 := by
      rw [show ((a : ℤ) - b - 1) = 51 + e0 by rw [he0]; ring, hpow]; norm_num
    rw [← this]; exact hx_lo
  -- the normalised exponent e1
  have he1 : ∀ e1 : ℤ, e1 = (if n * 2 ^ (-e0).toNat < 2 ^ 52 * (d * 2 ^ e0.toNat) then e0 - 1 else e0) →
      (n : ℚ) / d < 2 ^ 53 * (2 : ℚ) ^ e1 ∧ 2 ^ 52 * (2 : ℚ) ^ e1 ≤ (n : ℚ) / d := by
    intro e1 h
    split_ifs at h with hc
    · rw [hcmp] at hc
      have h3 : (2 : ℚ) ^ e0 = 2 * (2 : ℚ) ^ e1 := by
        rw [show e0 = 1 + e1 by rw [h]; ring, hpow]; norm_num
      rw [h3] at hc hx_lo'
      constructor <;> linarith
    · rw [hcmp] at hc
      rw [h]
      exact ⟨hx_hi', le_of_not_lt hc⟩
  obtain ⟨h4, h5⟩ := he1 _ rfl
  set e1 : ℤ := (if n * 2 ^ (-e0).toNat < 2 ^ 52 * (d * 2 ^ e0.toNat) then e0 - 1 else e0)
  rcases le_total e1 (-1074) with h | h
  · rw [max_eq_right h]
    refine ⟨?_, Or.inr rfl, le_rfl⟩
    have : (2 : ℚ) ^ e1 ≤ (2 : ℚ) ^ (-1074 : ℤ) := zpow_le_zpow_right₀ (by norm_num) h
    calc (n : ℚ) / d < 2 ^ 53 * (2 : ℚ) ^ e1 := h4
      _ ≤ 2 ^ 53 * (2 : ℚ) ^ (-1074 : ℤ) := by
        apply mul_le_mul_of_nonneg_left this (by norm_num)
  · rw [max_eq_left h]
    exact ⟨h4, Or.inl h5, h⟩

/-! ### The value of `roundRat` -/

theorem sgn_mul_self (s : Bool) : sgn s * sgn s = 1 := by
  cases s <;> simp [sgn]

theorem abs_sgn (s : Bool) : |sgn s| = 1 := by
  cases s <;> simp [sgn]

/-- Value of `roundRat`: the scaled rational is replaced by a natural number at
most one half away, which is the scaled rational itself when that is a natural
number. -/
theorem roundRat_core (s : Bool) (n d : Nat) (hn : 0 < n) (hd : 0 < d)
    (hhi : (n : ℚ) / d ≤ (2 : ℚ) ^ (1023 : ℤ)) :
    isFinite (roundRat s n d) = true ∧
    ∃ q1 : Nat, toRat (roundRat s n d) = sgn s * ((q1 : ℚ) * (2 : ℚ) ^ (ulpExp n d))
      ∧ |(q1 : ℚ) - (n : ℚ) / d * (2 : ℚ) ^ (-(ulpExp n d))| ≤ 1 / 2
      ∧ (∀ k : Nat, (n : ℚ) / d * (2 : ℚ) ^ (-(ulpExp n d)) = k → q1 = k) := by
  obtain ⟨hu1, hu2, hu3⟩ := ulpExp_spec n d hn hd
  have hkey := scaled_div n d (ulpExp n d)
  unfold roundRat
  rw [if_neg (by omega)]
  simp only []
  set e := ulpExp n d with he
  set N := n * 2 ^ (-e).toNat with hN
  set D := d * 2 ^ e.toNat with hD
  have hDpos : 0 < D := by positivity
  have hDq : (0 : ℚ) < (D : ℚ) := by exact_mod_cast hDpos
  have hdm := Nat.div_add_mod N D
  have hr := Nat.mod_lt N hDpos
  set q := N / D with hq
  set r := N % D with hrdef
  have h2 : (0 : ℚ) < 2 := by norm_num
  have h2e : (0 : ℚ) < (2 : ℚ) ^ e := zpow_pos h2 _
  -- N / D in ℚ
  have hND : (N : ℚ) / D = q + (r : ℚ) / D := by
    have : (N : ℚ) = D * q + r := by exact_mod_cast hdm.symm
    rw [this]; field_simp; ring
  have hx : (n : ℚ) / d * (2 : ℚ) ^ (-e) = q + (r : ℚ) / D := by rw [← hkey, hND]
  have hrD1 : (0 : ℚ) ≤ (r : ℚ) / D := div_nonneg (Nat.cast_nonneg _) hDq.le
  have hrD2 : (r : ℚ) / D < 1 := by
    rw [div_lt_one hDq]; exact_mod_cast hr
  -- q < 2^53
  have hxlt : (n : ℚ) / d * (2 : ℚ) ^ (-e) < 2 ^ 53 := by
    rw [zpow_neg, ← div_eq_mul_inv, div_lt_iff₀ h2e]; exact hu1
  have hqlt : q < 2 ^ 53 := by
    have : (q : ℚ) < 2 ^ 53 := by linarith
    exact_mod_cast this
  -- the rounded integer
  set q1 := if D < 2 * r ∨ (2 * r = D ∧ q % 2 = 1) then q + 1 else q with hq1
  have hq1err : |(q1 : ℚ) - (n : ℚ) / d * (2 : ℚ) ^ (-e)| ≤ 1 / 2 := by
    rw [hx, hq1]
    split_ifs with hc
    · have h2r : (D : ℚ) ≤ 2 * r := by
        rcases hc with hc | ⟨hc, _⟩
        · exact_mod_cast hc.le
        · exact_mod_cast hc.ge
      have : (1 : ℚ) / 2 ≤ (r : ℚ) / D := by
        rw [le_div_iff₀ hDq]; linarith
      push_cast
      rw [abs_le]; constructor <;> linarith
    · have h2r : 2 * (r : ℚ) ≤ D := by
        have : ¬ (D < 2 * r) := fun h => hc (Or.inl h)
        exact_mod_cast (not_lt.mp this)
      have : (r : ℚ) / D ≤ 1 / 2 := by
        rw [div_le_iff₀ hDq]; linarith
      rw [abs_le]; constructor <;> linarith
  have hq1exact : ∀ k : Nat, (n : ℚ) / d * (2 : ℚ) ^ (-e) = k → q1 = k := by
    intro k hk
    rw [hx] at hk
    have hr0 : r = 0 := by
      by_contra hne
      have hrpos : (0 : ℚ) < (r : ℚ) / D := by
        have : (0 : ℚ) < r := by exact_mod_cast Nat.pos_of_ne_zero hne
        exact div_pos this hDq
      have h1 : (q : ℚ) < k := by linarith
      have h2 : (k : ℚ) < q + 1 := by linarith
      have h1' : q < k := by exact_mod_cast h1
      have h2' : k < q + 1 := by exact_mod_cast h2
      omega
    rw [hr0] at hk
    have hqk : q = k := by
      have : (q : ℚ) = k := by simpa using hk
      exact_mod_cast this
    rw [hq1, hr0, if_neg (by omega), hqk]
  have hq1le : q1 ≤ 2 ^ 53 := by
    rw [hq1]; split_ifs <;> omega
  -- exponent range
  have hpw : (2 : ℚ) ^ (1023 : ℤ) = 2 ^ 52 * (2 : ℚ) ^ (971 : ℤ) := by
    rw [show (1023 : ℤ) = 52 + 971 by norm_num, zpow_add₀ (by norm_num : (2 : ℚ) ≠ 0)]
    norm_num
  have he971 : e ≤ 971 := by
    rcases hu2 with h | h
    · have h3 : (2 : ℚ) ^ 52 * (2 : ℚ) ^ e ≤ 2 ^ 52 * (2 : ℚ) ^ (971 : ℤ) := by
        rw [← hpw]; exact le_trans h hhi
      have h4 : (2 : ℚ) ^ e ≤ (2 : ℚ) ^ (971 : ℤ) := le_of_mul_le_mul_left h3 (by norm_num)
      exact (zpow_le_zpow_iff_right₀ (by norm_num : (1 : ℚ) < 2)).mp h4
    · omega
  have hcarry : q1 = 2 ^ 53 → e + 1 ≤ 971 := by
    intro hq53
    by_contra hcon
    have he' : e = 971 := by omega
    have h5 : (2 : ℚ) ^ 53 - 1 / 2 ≤ (n : ℚ) / d * (2 : ℚ) ^ (-e) := by
      have := (abs_le.mp hq1err).2
      rw [hq53] at this
      push_cast at this
      linarith
    rw [zpow_neg, ← div_eq_mul_inv, le_div_iff₀ h2e] at h5
    have h6 : ((2 : ℚ) ^ 53 - 1 / 2) * (2 : ℚ) ^ e ≤ 2 ^ 52 * (2 : ℚ) ^ e := by
      have := le_trans h5 hhi
      rw [hpw, ← he'] at this
      exact this
    have h7 : (2 : ℚ) ^ 53 - 1 / 2 ≤ 2 ^ 52 := le_of_mul_le_mul_right h6 h2e
    norm_num at h7
  by_cases hq53 : q1 = 2 ^ 53
  · have hc := hcarry hq53
    rw [if_pos hq53, if_neg (by omega)]
    refine ⟨?_, q1, ?_, hq1err, hq1exact⟩
    · simp only [isFinite, Bool.and_eq_true, decide_eq_true_eq]
      refine ⟨⟨by norm_num, by omega⟩, by omega⟩
    simp only [toRat]
    rw [hq53, zpow_add₀ (by norm_num : (2 : ℚ) ≠ 0)]
    push_cast
    ring
  · rw [if_neg hq53, if_neg (by omega)]
    refine ⟨?_, q1, rfl, hq1err, hq1exact⟩
    simp only [isFinite, Bool.and_eq_true, decide_eq_true_eq]
    refine ⟨⟨by omega, by omega⟩, by omega⟩

/-! ### Rounding error and exactness -/

theorem two_zpow_pos (e : ℤ) : (0 : ℚ) < (2 : ℚ) ^ e := zpow_pos (by norm_num) e

/-- Rounding error of `roundRat`: relative `2^-53`, plus `2^-1075` for subnormals. -/
theorem roundRat_err (s : Bool) (n d : Nat) (hd : 0 < d)
    (hhi : (n : ℚ) / d ≤ (2 : ℚ) ^ (1023 : ℤ)) :
    isFinite (roundRat s n d) = true ∧
    ∃ v : ℚ, 0 ≤ v ∧ toRat (roundRat s n d) = sgn s * v
      ∧ |v - (n : ℚ) / d| ≤ (n : ℚ) / d * (2 : ℚ) ^ (-53 : ℤ) + (2 : ℚ) ^ (-1075 : ℤ) := by
  rcases Nat.eq_zero_or_pos n with h0 | hn
  · subst h0
    refine ⟨by simp [roundRat, isFinite], 0, le_rfl, by simp [roundRat, toRat], ?_⟩
    simp only [Nat.cast_zero, zero_div, sub_zero, abs_zero, zero_mul, zero_add]
    exact (two_zpow_pos _).le
  · obtain ⟨hf, q1, hv, herr, -⟩ := roundRat_core s n d hn hd hhi
    obtain ⟨-, hu2, -⟩ := ulpExp_spec n d hn hd
    set e := ulpExp n d
    have h2e := two_zpow_pos e
    refine ⟨hf, (q1 : ℚ) * (2 : ℚ) ^ e, by positivity, hv, ?_⟩
    have h1 : (q1 : ℚ) * (2 : ℚ) ^ e - (n : ℚ) / d
        = ((q1 : ℚ) - (n : ℚ) / d * (2 : ℚ) ^ (-e)) * (2 : ℚ) ^ e := by
      rw [zpow_neg]; field_simp; ring
    have h3 : |(q1 : ℚ) * (2 : ℚ) ^ e - (n : ℚ) / d| ≤ 1 / 2 * (2 : ℚ) ^ e := by
      rw [h1, abs_mul, abs_of_pos h2e]
      exact mul_le_mul_of_nonneg_right herr h2e.le
    have hxnn : (0 : ℚ) ≤ (n : ℚ) / d := by positivity
    rcases hu2 with h | h
    · have h4 : 1 / 2 * (2 : ℚ) ^ e ≤ (n : ℚ) / d * (2 : ℚ) ^ (-53 : ℤ) := by
        have h5 : (2 : ℚ) ^ (-53 : ℤ) = 1 / 2 ^ 53 := by
          rw [zpow_neg]; norm_num
        rw [h5]
        have : 1 / 2 * (2 : ℚ) ^ e = (2 ^ 52 * (2 : ℚ) ^ e) * (1 / 2 ^ 53) := by ring
        rw [this]
        exact mul_le_mul_of_nonneg_right h (by positivity)
      have := two_zpow_pos (-1075)
      linarith
    · have h4 : 1 / 2 * (2 : ℚ) ^ e = (2 : ℚ) ^ (-1075 : ℤ) := by
        rw [h, show (-1075 : ℤ) = -1 + -1074 by norm_num, zpow_add₀ (by norm_num : (2 : ℚ) ≠ 0)]
        norm_num
      have : (0 : ℚ) ≤ (n : ℚ) / d * (2 : ℚ) ^ (-53 : ℤ) :=
        mul_nonneg hxnn (two_zpow_pos _).le
      linarith

/-- A rational with a 53-bit significand and an exponent in range is not changed by rounding. -/
theorem roundRat_exact (s : Bool) (n d : Nat) (hd : 0 < d) (M : Nat) (E : ℤ)
    (hM : M < 2 ^ 53) (hE : -1074 ≤ E) (hE2 : E ≤ 970)
    (hx : (n : ℚ) / d = (M : ℚ) * (2 : ℚ) ^ E) :
    isFinite (roundRat s n d) = true ∧ toRat (roundRat s n d) = sgn s * ((n : ℚ) / d) := by
  rcases Nat.eq_zero_or_pos n with h0 | hn
  · subst h0
    exact ⟨by simp [roundRat, isFinite], by simp [roundRat, toRat]⟩
  · have h2E := two_zpow_pos E
    have hhi : (n : ℚ) / d ≤ (2 : ℚ) ^ (1023 : ℤ) := by
      rw [hx, show (1023 : ℤ) = 53 + 970 by norm_num, zpow_add₀ (by norm_num : (2 : ℚ) ≠ 0)]
      have h1 : (M : ℚ) ≤ (2 : ℚ) ^ (53 : ℤ) := by
        have : (M : ℚ) < 2 ^ 53 := by exact_mod_cast hM
        have h53 : (2 : ℚ) ^ (53 : ℤ) = 2 ^ 53 := by norm_cast
        rw [h53]; exact this.le
      have h2 : (2 : ℚ) ^ E ≤ (2 : ℚ) ^ (970 : ℤ) := zpow_le_zpow_right₀ (by norm_num) hE2
      exact mul_le_mul h1 h2 h2E.le (two_zpow_pos _).le
    obtain ⟨hf, q1, hv, -, hex⟩ := roundRat_core s n d hn hd hhi
    obtain ⟨hu1, hu2, hu3⟩ := ulpExp_spec n d hn hd
    set e := ulpExp n d
    have h2e := two_zpow_pos e
    have hMq : (M : ℚ) < 2 ^ 53 := by exact_mod_cast hM
    -- the rounding exponent is at most E
    have heE : e ≤ E := by
      rcases hu2 with h | h
      · by_contra hcon
        have h1 : E + 1 ≤ e := by omega
        have h2 : (2 : ℚ) ^ (E + 1) ≤ (2 : ℚ) ^ e := zpow_le_zpow_right₀ (by norm_num) h1
        rw [zpow_add₀ (by norm_num : (2 : ℚ) ≠ 0)] at h2
        rw [hx] at h
        have h3 : (2 : ℚ) ^ 52 * ((2 : ℚ) ^ E * 2 ^ (1 : ℤ)) ≤ (M : ℚ) * (2 : ℚ) ^ E :=
          le_trans (mul_le_mul_of_nonneg_left h2 (by norm_num)) h
        have h4 : (2 : ℚ) ^ 52 * 2 ^ (1 : ℤ) * (2 : ℚ) ^ E ≤ (M : ℚ) * (2 : ℚ) ^ E := by
          calc (2 : ℚ) ^ 52 * 2 ^ (1 : ℤ) * (2 : ℚ) ^ E
              = (2 : ℚ) ^ 52 * ((2 : ℚ) ^ E * 2 ^ (1 : ℤ)) := by ring
            _ ≤ _ := h3
        have h5 := le_of_mul_le_mul_right h4 h2E
        norm_num at h5
        linarith
      · omega
    -- so the scaled rational is a natural number
    obtain ⟨k, hk⟩ := Int.eq_ofNat_of_zero_le (show 0 ≤ E - e by omega)
    have hsc : (n : ℚ) / d * (2 : ℚ) ^ (-e) = ((M * 2 ^ k : Nat) : ℚ) := by
      rw [hx, mul_assoc, ← zpow_add₀ (by norm_num : (2 : ℚ) ≠ 0),
        show E + -e = (k : ℤ) by omega, zpow_natCast]
      push_cast
      ring
    have hq := hex _ hsc
    refine ⟨hf, ?_⟩
    rw [hv, hq, ← hsc, mul_assoc, ← zpow_add₀ (by norm_num : (2 : ℚ) ≠ 0)]
    simp

/-! ### Roundings of scaled integers, signs -/

theorem isFinite_iff (x : F64) :
    isFinite x = true ↔ ∃ s m e, x = fin s m e ∧ m < 2 ^ 53 ∧ -1074 ≤ e ∧ e ≤ 971 := by
  cases x with
  | nan => simp [isFinite]
  | inf s => simp [isFinite]
  | fin s m e =>
    simp only [isFinite, Bool.and_eq_true, decide_eq_true_eq, fin.injEq]
    constructor
    · rintro ⟨⟨h1, h2⟩, h3⟩; exact ⟨s, m, e, ⟨rfl, rfl, rfl⟩, h1, h2, h3⟩
    · rintro ⟨s', m', e', ⟨rfl, rfl, rfl⟩, h1, h2, h3⟩; exact ⟨⟨h1, h2⟩, h3⟩

theorem sgn_xor (s t : Bool) : sgn (xor s t) = sgn s * sgn t := by
  cases s <;> cases t <;> simp [sgn]

theorem sgn_not (s : Bool) : sgn (!s) = - sgn s := by
  cases s <;> simp [sgn]

theorem sgn_sq_mul (s : Bool) (a : ℚ) : sgn s * (sgn s * a) = a := by
  rw [← mul_assoc, sgn_mul_self, one_mul]

theorem abs_sgn_mul (s : Bool) (a : ℚ) : |sgn s * a| = |a| := by
  rw [abs_mul, abs_sgn, one_mul]

theorem sig_cast (s : Bool) (m : Nat) : ((sig s m : ℤ) : ℚ) = sgn s * (m : ℚ) := by
  cases s <;> simp [sig, sgn]

theorem scaled_val (n : Nat) (e : ℤ) :
    ((n * 2 ^ e.toNat : Nat) : ℚ) / ((2 ^ (-e).toNat : Nat) : ℚ) = (n : ℚ) * (2 : ℚ) ^ e := by
  have h := two_pow_toNat_div (-e)
  rw [neg_neg] at h
  rw [← h]
  push_cast
  ring

/-- The result of `roundRat` is a rounding of the signed rational. -/
theorem roundRat_rnd (s : Bool) (n d : Nat) (hd : 0 < d)
    (hhi : (n : ℚ) / d ≤ (2 : ℚ) ^ (1023 : ℤ)) :
    isFinite (roundRat s n d) = true ∧
      Rnd (sgn s * ((n : ℚ) / d)) (toRat (roundRat s n d)) := by
  obtain ⟨hf, v, hv0, hv, herr⟩ := roundRat_err s n d hd hhi
  have hxnn : (0 : ℚ) ≤ (n : ℚ) / d := by positivity
  refine ⟨hf, ?_, ?_, ?_, ?_⟩
  · rw [hv, ← mul_sub, abs_sgn_mul, abs_sgn_mul, abs_of_nonneg hxnn]
    exact herr
  · intro h0
    have hn0 : n = 0 := by
      rcases mul_eq_zero.mp h0 with h | h
      · cases s <;> simp [sgn] at h
      · have hdq : (d : ℚ) ≠ 0 := by exact_mod_cast hd.ne'
        have := (div_eq_zero_iff.mp h).resolve_right hdq
        exact_mod_cast this
    subst hn0
    simp [roundRat, toRat]
  · intro h0
    rw [hv]
    cases s with
    | false => simp only [sgn]; simpa using hv0
    | true =>
      simp only [sgn, if_true] at h0 ⊢
      have hx0 : (n : ℚ) / d = 0 := by linarith
      have hn0 : n = 0 := by
        have hdq : (d : ℚ) ≠ 0 := by exact_mod_cast hd.ne'
        have := (div_eq_zero_iff.mp hx0).resolve_right hdq
        exact_mod_cast this
      subst hn0
      simp only [Nat.cast_zero, zero_div, sub_zero, zero_mul, zero_add] at herr
      have h1 := two_zpow_pos (-1075)
      have hvv : toRat (roundRat true 0 d) = 0 := by simp [roundRat, toRat]
      rw [hv] at hvv
      simp only [sgn, if_true] at hvv
      linarith
  · intro h0
    rw [hv]
    cases s with
    | true => simp only [sgn, if_true]; linarith
    | false =>
      simp only [sgn] at h0 ⊢
      have hx0 : (n : ℚ) / d = 0 := by
        have : (n : ℚ) / d ≤ 0 := by simpa using h0
        linarith
      have hn0 : n = 0 := by
        have hdq : (d : ℚ) ≠ 0 := by exact_mod_cast hd.ne'
        have := (div_eq_zero_iff.mp hx0).resolve_right hdq
        exact_mod_cast this
      subst hn0
      have hvv : toRat (roundRat false 0 d) = 0 := by simp [roundRat, toRat]
      rw [hv] at hvv
      have : (if false = true then (-1 : ℚ) else 1) * v = sgn false * v := rfl
      rw [this, hvv]

theorem roundScaled_rnd (s : Bool) (n : Nat) (e : ℤ)
    (hhi : (n : ℚ) * (2 : ℚ) ^ e ≤ (2 : ℚ) ^ (1023 : ℤ)) :
    isFinite (roundScaled s n e) = true ∧
      Rnd (sgn s * ((n : ℚ) * (2 : ℚ) ^ e)) (toRat (roundScaled s n e)) := by
  have h := roundRat_rnd s (n * 2 ^ e.toNat) (2 ^ (-e).toNat) (by positivity)
    (by rw [scaled_val]; exact hhi)
  rw [scaled_val] at h
  exact h

theorem roundScaled_exact (s : Bool) (n : Nat) (e : ℤ) (M : Nat) (E : ℤ)
    (hM : M < 2 ^ 53) (hE : -1074 ≤ E) (hE2 : E ≤ 970)
    (hx : (n : ℚ) * (2 : ℚ) ^ e = (M : ℚ) * (2 : ℚ) ^ E) :
    isFinite (roundScaled s n e) = true ∧
      toRat (roundScaled s n e) = sgn s * ((n : ℚ) * (2 : ℚ) ^ e) := by
  have h := roundRat_exact s (n * 2 ^ e.toNat) (2 ^ (-e).toNat) (by positivity) M E hM hE hE2
    (by rw [scaled_val]; exact hx)
  rw [scaled_val] at h
  exact h

theorem natAbs_cast_abs (i : ℤ) : ((i.natAbs : ℕ) : ℚ) = |(i : ℚ)| := by
  rw [Nat.cast_natAbs, Int.cast_abs]

theorem sgn_decide_natAbs (i : ℤ) : sgn (decide (i < 0)) * ((i.natAbs : ℕ) : ℚ) = (i : ℚ) := by
  rw [natAbs_cast_abs]
  rcases lt_or_le i 0 with h | h
  · have hq : (i : ℚ) < 0 := by exact_mod_cast h
    simp [sgn, h, abs_of_neg hq]
  · have hq : (0 : ℚ) ≤ (i : ℚ) := by exact_mod_cast h
    simp [sgn, not_lt.mpr h, abs_of_nonneg hq]

theorem roundInt_rnd (i : ℤ) (e : ℤ)
    (hhi : |(i : ℚ)| * (2 : ℚ) ^ e ≤ (2 : ℚ) ^ (1023 : ℤ)) :
    isFinite (roundInt i e) = true ∧ Rnd ((i : ℚ) * (2 : ℚ) ^ e) (toRat (roundInt i e)) := by
  have h := roundScaled_rnd (decide (i < 0)) i.natAbs e (by rw [natAbs_cast_abs]; exact hhi)
  rw [← mul_assoc, sgn_decide_natAbs] at h
  exact h

theorem roundInt_exact (i : ℤ) (e : ℤ) (M : Nat) (E : ℤ)
    (hM : M < 2 ^ 53) (hE : -1074 ≤ E) (hE2 : E ≤ 970)
    (hx : |(i : ℚ)| * (2 : ℚ) ^ e = (M : ℚ) * (2 : ℚ) ^ E) :
    isFinite (roundInt i e) = true ∧ toRat (roundInt i e) = (i : ℚ) * (2 : ℚ) ^ e := by
  have h := roundScaled_exact (decide (i < 0)) i.natAbs e M E hM hE hE2
    (by rw [natAbs_cast_abs]; exact hx)
  rw [← mul_assoc, sgn_decide_natAbs] at h
  exact h

/-- `float64(x)` is exact for integers of magnitude below `2^53`. -/
theorem ofInt_exact (i : ℤ) (h : |i| < 2 ^ 53) :
    isFinite (ofInt i) = true ∧ toRat (ofInt i) = (i : ℚ) := by
  have hM : i.natAbs < 2 ^ 53 := by
    have := abs_lt.mp h
    omega
  have := roundInt_exact i 0 i.natAbs 0 hM (by norm_num) (by norm_num)
    (by rw [natAbs_cast_abs])
  simpa [ofInt] using this

theorem ltZero_iff (x : F64) (hx : isFinite x = true) : ltZero x = true ↔ toRat x < 0 := by
  obtain ⟨s, m, e, rfl, -, -, -⟩ := (isFinite_iff x).mp hx
  have h2e := two_zpow_pos e
  simp only [ltZero, toRat, Bool.and_eq_true, decide_eq_true_eq]
  cases s with
  | true =>
    simp only [sgn, if_true, true_and]
    constructor
    · intro hm
      have : (0 : ℚ) < m := by exact_mod_cast Nat.pos_of_ne_zero hm
      have := mul_pos this h2e
      linarith
    · intro h hm
      subst hm
      simp at h
  | false =>
    simp only [sgn, Bool.false_eq_true, if_false, false_and, false_iff, not_lt, one_mul]
    positivity

theorem neg_spec (x : F64) (hx : isFinite x = true) :
    isFinite (neg x) = true ∧ toRat (neg x) = - toRat x := by
  obtain ⟨s, m, e, rfl, h1, h2, h3⟩ := (isFinite_iff x).mp hx
  refine ⟨?_, ?_⟩
  · simp only [neg, isFinite, Bool.and_eq_true, decide_eq_true_eq]; exact ⟨⟨h1, h2⟩, h3⟩
  · simp only [neg, toRat, sgn_not]; ring

/-! ### The arithmetic operations -/

theorem two_pow_toNat (j : ℤ) (h : 0 ≤ j) : (2 : ℚ) ^ j.toNat = (2 : ℚ) ^ j := by
  obtain ⟨k, rfl⟩ := Int.eq_ofNat_of_zero_le h
  simp

theorem Rnd_zero : Rnd 0 0 := by
  refine ⟨?_, fun _ => rfl, fun _ => le_rfl, fun _ => le_rfl⟩
  simp only [sub_zero, abs_zero, zero_mul, zero_add]
  exact (two_zpow_pos _).le

/-- Go `x * y`: the product, rounded. -/
theorem mul_rnd (x y : F64) (hx : isFinite x = true) (hy : isFinite y = true)
    (hhi : |toRat x * toRat y| ≤ (2 : ℚ) ^ (1023 : ℤ)) :
    isFinite (mul x y) = true ∧ Rnd (toRat x * toRat y) (toRat (mul x y)) := by
  obtain ⟨s, m, e, rfl, -, -, -⟩ := (isFinite_iff x).mp hx
  obtain ⟨t, n, g, rfl, -, -, -⟩ := (isFinite_iff y).mp hy
  have hX : toRat (fin s m e) * toRat (fin t n g)
      = sgn (xor s t) * (((m * n : ℕ) : ℚ) * (2 : ℚ) ^ (e + g)) := by
    simp only [toRat, sgn_xor]
    rw [zpow_add₀ (by norm_num : (2 : ℚ) ≠ 0)]
    push_cast
    ring
  rw [hX] at hhi ⊢
  rw [abs_sgn_mul, abs_of_nonneg (by positivity)] at hhi
  exact roundScaled_rnd (xor s t) (m * n) (e + g) hhi

/-- Go `x + y`: the sum, rounded. -/
theorem add_rnd (x y : F64) (hx : isFinite x = true) (hy : isFinite y = true)
    (hhi : |toRat x + toRat y| ≤ (2 : ℚ) ^ (1023 : ℤ)) :
    isFinite (add x y) = true ∧ Rnd (toRat x + toRat y) (toRat (add x y)) := by
  obtain ⟨s, m, e, rfl, -, -, -⟩ := (isFinite_iff x).mp hx
  obtain ⟨t, n, g, rfl, -, -, -⟩ := (isFinite_iff y).mp hy
  simp only [add]
  set k := min e g with hk
  set i := sig s m * 2 ^ (e - k).toNat + sig t n * 2 ^ (g - k).toNat with hi
  have hek : 0 ≤ e - k := by have := min_le_left e g; omega
  have hgk : 0 ≤ g - k := by have := min_le_right e g; omega
  have hX : toRat (fin s m e) + toRat (fin t n g) = (i : ℚ) * (2 : ℚ) ^ k := by
    simp only [toRat, hi]
    push_cast
    rw [sig_cast, sig_cast, two_pow_toNat _ hek, two_pow_toNat _ hgk, add_mul]
    have h1 : (2 : ℚ) ^ (e - k) * (2 : ℚ) ^ k = (2 : ℚ) ^ e := by
      rw [← zpow_add₀ (by norm_num : (2 : ℚ) ≠ 0)]; congr 1; ring
    have h2 : (2 : ℚ) ^ (g - k) * (2 : ℚ) ^ k = (2 : ℚ) ^ g := by
      rw [← zpow_add₀ (by norm_num : (2 : ℚ) ≠ 0)]; congr 1; ring
    rw [mul_assoc, mul_assoc, mul_assoc, mul_assoc, h1, h2]
  rw [hX] at hhi ⊢
  by_cases h0 : i = 0
  · rw [if_pos h0, h0]
    refine ⟨by simp [isFinite], ?_⟩
    simp only [toRat, Int.cast_zero, zero_mul, Nat.cast_zero, mul_zero]
    exact Rnd_zero
  · rw [if_neg h0]
    rw [abs_mul, abs_of_pos (two_zpow_pos k)] at hhi
    exact roundInt_rnd i k hhi

/-- Go `x - y`: the difference, rounded. -/
theorem sub_rnd (x y : F64) (hx : isFinite x = true) (hy : isFinite y = true)
    (hhi : |toRat x - toRat y| ≤ (2 : ℚ) ^ (1023 : ℤ)) :
    isFinite (sub x y) = true ∧ Rnd (toRat x - toRat y) (toRat (sub x y)) := by
  obtain ⟨h1, h2⟩ := neg_spec y hy
  have := add_rnd x (neg y) hx h1 (by rw [h2, ← sub_eq_add_neg]; exact hhi)
  rw [h2, ← sub_eq_add_neg] at this
  exact this

/-- Go `x / y` for a divisor other than zero: the quotient, rounded. -/
theorem div_rnd (x y : F64) (hx : isFinite x = true) (hy : isFinite y = true)
    (hy0 : toRat y ≠ 0) (hhi : |toRat x / toRat y| ≤ (2 : ℚ) ^ (1023 : ℤ)) :
    isFinite (div x y) = true ∧ Rnd (toRat x / toRat y) (toRat (div x y)) := by
  obtain ⟨s, m, e, rfl, -, -, -⟩ := (isFinite_iff x).mp hx
  obtain ⟨t, n, g, rfl, -, -, -⟩ := (isFinite_iff y).mp hy
  have hn0 : n ≠ 0 := by
    rintro rfl
    simp [toRat] at hy0
  simp only [div, if_neg hn0]
  set k := min e g with hk
  have hek : 0 ≤ e - k := by have := min_le_left e g; omega
  have hgk : 0 ≤ g - k := by have := min_le_right e g; omega
  have hnq : (0 : ℚ) < n := by exact_mod_cast Nat.pos_of_ne_zero hn0
  have h2k := two_zpow_pos k
  have h2g := two_zpow_pos g
  have hX : toRat (fin s m e) / toRat (fin t n g)
      = sgn (xor s t) * (((m * 2 ^ (e - k).toNat : ℕ) : ℚ) / ((n * 2 ^ (g - k).toNat : ℕ) : ℚ)) := by
    simp only [toRat, sgn_xor]
    push_cast
    rw [two_pow_toNat _ hek, two_pow_toNat _ hgk]
    have h1 : (2 : ℚ) ^ e = (2 : ℚ) ^ (e - k) * (2 : ℚ) ^ k := by
      rw [← zpow_add₀ (by norm_num : (2 : ℚ) ≠ 0)]; congr 1; ring
    have h2 : (2 : ℚ) ^ g = (2 : ℚ) ^ (g - k) * (2 : ℚ) ^ k := by
      rw [← zpow_add₀ (by norm_num : (2 : ℚ) ≠ 0)]; congr 1; ring
    rw [h1, h2]
    have h3 := two_zpow_pos (g - k)
    have hs : sgn t ≠ 0 := by cases t <;> simp [sgn]
    have hs2 : sgn t * sgn t = 1 := sgn_mul_self t
    field_simp
    linear_combination
      (-(sgn s * (m : ℚ) * 2 ^ (e - k) * 2 ^ k * (n * 2 ^ (g - k)))) * hs2
  rw [hX] at hhi ⊢
  have hpos : (0 : ℕ) < n * 2 ^ (g - k).toNat := by positivity
  rw [abs_sgn_mul, abs_of_nonneg (by positivity)] at hhi
  exact roundRat_rnd (xor s t) _ _ hpos hhi

/-! ### `Modf`, `Trunc` and `Round` -/

theorem sgn_split (s : Bool) (A B : ℚ) (hA : 0 ≤ A) (hB : 0 ≤ B) :
    (0 ≤ sgn s * (A + B) → 0 ≤ sgn s * A ∧ 0 ≤ sgn s * B)
    ∧ (sgn s * (A + B) ≤ 0 → sgn s * A ≤ 0 ∧ sgn s * B ≤ 0) := by
  cases s with
  | true =>
    simp only [sgn, if_true]
    constructor
    · intro h; constructor <;> linarith
    · intro _; constructor <;> linarith
  | false =>
    have h1 : sgn false = 1 := rfl
    rw [h1]
    constructor
    · intro _; constructor <;> linarith
    · intro h; constructor <;> linarith

/-- Splitting a significand at the binary point: `m * 2^e = m / 2^k + (m % 2^k) * 2^e` for `k = -e`. -/
theorem split_point (m : Nat) (e : ℤ) (he : e < 0) :
    (m : ℚ) * (2 : ℚ) ^ e
      = ((m / 2 ^ (-e).toNat : ℕ) : ℚ) + ((m % 2 ^ (-e).toNat : ℕ) : ℚ) * (2 : ℚ) ^ e
    ∧ ((m % 2 ^ (-e).toNat : ℕ) : ℚ) * (2 : ℚ) ^ e < 1
    ∧ (2 : ℚ) ^ (-e).toNat * (2 : ℚ) ^ e = 1 := by
  have hk : (2 : ℚ) ^ (-e).toNat = (2 : ℚ) ^ (-e) := two_pow_toNat _ (by omega)
  have h2e := two_zpow_pos e
  have h1 : (2 : ℚ) ^ (-e).toNat * (2 : ℚ) ^ e = 1 := by
    rw [hk, ← zpow_add₀ (by norm_num : (2 : ℚ) ≠ 0)]; simp
  have hdm : (m : ℚ) = (2 : ℚ) ^ (-e).toNat * ((m / 2 ^ (-e).toNat : ℕ) : ℚ)
      + ((m % 2 ^ (-e).toNat : ℕ) : ℚ) := by
    have := Nat.div_add_mod m (2 ^ (-e).toNat)
    exact_mod_cast this.symm
  refine ⟨?_, ?_, h1⟩
  · calc (m : ℚ) * (2 : ℚ) ^ e
        = ((2 : ℚ) ^ (-e).toNat * ((m / 2 ^ (-e).toNat : ℕ) : ℚ)
            + ((m % 2 ^ (-e).toNat : ℕ) : ℚ)) * (2 : ℚ) ^ e := by rw [← hdm]
      _ = ((2 : ℚ) ^ (-e).toNat * (2 : ℚ) ^ e) * ((m / 2 ^ (-e).toNat : ℕ) : ℚ)
            + ((m % 2 ^ (-e).toNat : ℕ) : ℚ) * (2 : ℚ) ^ e := by ring
      _ = _ := by rw [h1, one_mul]
  · have hlt : ((m % 2 ^ (-e).toNat : ℕ) : ℚ) < (2 : ℚ) ^ (-e).toNat := by
      have := Nat.mod_lt m (show 0 < 2 ^ (-e).toNat by positivity)
      exact_mod_cast this
    calc ((m % 2 ^ (-e).toNat : ℕ) : ℚ) * (2 : ℚ) ^ e
        < (2 : ℚ) ^ (-e).toNat * (2 : ℚ) ^ e := mul_lt_mul_of_pos_right hlt h2e
      _ = 1 := h1

/-- Go `math.Modf` is exact: integer part toward zero, and the rest. -/
theorem modf_spec (x : F64) (hx : isFinite x = true) :
    isFinite (modf x).1 = true ∧ isFinite (modf x).2 = true ∧
    ∃ Z : ℤ, toRat (modf x).1 = Z ∧ toRat x = Z + toRat (modf x).2
      ∧ |toRat (modf x).2| < 1
      ∧ (0 ≤ toRat x → 0 ≤ (Z : ℚ) ∧ 0 ≤ toRat (modf x).2)
      ∧ (toRat x ≤ 0 → (Z : ℚ) ≤ 0 ∧ toRat (modf x).2 ≤ 0) := by
  obtain ⟨s, m, e, rfl, hm, he1, he2⟩ := (isFinite_iff x).mp hx
  simp only [modf]
  by_cases he : 0 ≤ e
  · rw [if_pos he]
    refine ⟨hx, by simp [isFinite], sig s (m * 2 ^ e.toNat), ?_, ?_, ?_, ?_, ?_⟩
    · simp only [toRat]
      rw [sig_cast]; push_cast; rw [two_pow_toNat _ he]
    · simp only [toRat]
      rw [sig_cast]; push_cast; rw [two_pow_toNat _ he]; ring
    · simp [toRat]
    · intro h
      simp only [toRat] at h ⊢
      rw [sig_cast]; push_cast; rw [two_pow_toNat _ he]
      exact ⟨h, by simp⟩
    · intro h
      simp only [toRat] at h ⊢
      rw [sig_cast]; push_cast; rw [two_pow_toNat _ he]
      exact ⟨h, by simp⟩
  · rw [if_neg he]
    have he' : e < 0 := by omega
    obtain ⟨hsp, hlt, -⟩ := split_point m e he'
    set a := m / 2 ^ (-e).toNat with ha
    set b := m % 2 ^ (-e).toNat with hb
    have hale : a ≤ m := Nat.div_le_self _ _
    have hble : b ≤ m := Nat.mod_le _ _
    obtain ⟨hw1, hw2⟩ := roundScaled_exact s a 0 a 0 (by omega) (by norm_num) (by norm_num) rfl
    obtain ⟨hf1, hf2⟩ := roundScaled_exact s b e b e (by omega) he1 (by omega) rfl
    have hA : (0 : ℚ) ≤ (a : ℚ) := Nat.cast_nonneg _
    have hB : (0 : ℚ) ≤ (b : ℚ) * (2 : ℚ) ^ e := by positivity
    obtain ⟨hs1, hs2⟩ := sgn_split s _ _ hA hB
    refine ⟨hw1, hf1, sig s a, ?_, ?_, ?_, ?_, ?_⟩
    · rw [hw2, sig_cast]; simp
    · rw [hf2, sig_cast]; simp only [toRat]; rw [hsp]; ring
    · rw [hf2, abs_sgn_mul, abs_of_nonneg hB]; exact hlt
    · intro h
      simp only [toRat] at h
      rw [hsp] at h
      rw [hf2, sig_cast]
      exact hs1 h
    · intro h
      simp only [toRat] at h
      rw [hsp] at h
      rw [hf2, sig_cast]
      exact hs2 h

theorem trunc_eq_modf (x : F64) : trunc x = (modf x).1 := by
  cases x with
  | nan => rfl
  | inf s => rfl
  | fin s m e =>
    simp only [trunc, modf]
    split_ifs <;> rfl

/-- Go `math.Round` gives an integer at most one half away, with the sign kept. -/
theorem round_spec (x : F64) (hx : isFinite x = true) :
    isFinite (round x) = true ∧
    ∃ R : ℤ, toRat (round x) = R ∧ |(R : ℚ) - toRat x| ≤ 1 / 2
      ∧ (0 ≤ toRat x → 0 ≤ (R : ℚ)) ∧ (toRat x ≤ 0 → (R : ℚ) ≤ 0) := by
  obtain ⟨s, m, e, rfl, hm, he1, he2⟩ := (isFinite_iff x).mp hx
  simp only [round]
  by_cases he : 0 ≤ e
  · rw [if_pos he]
    have hv : ((sig s (m * 2 ^ e.toNat) : ℤ) : ℚ) = toRat (fin s m e) := by
      simp only [toRat]
      rw [sig_cast]; push_cast; rw [two_pow_toNat _ he]
    refine ⟨hx, sig s (m * 2 ^ e.toNat), hv.symm, ?_, ?_, ?_⟩
    · rw [hv]; simp
    · intro h; rw [hv]; exact h
    · intro h; rw [hv]; exact h
  · rw [if_neg he]
    have he' : e < 0 := by omega
    obtain ⟨hsp, hlt, h1⟩ := split_point m e he'
    set d := 2 ^ (-e).toNat with hd
    set a := m / d with ha
    set b := m % d with hb
    have hd2 : 2 ≤ d := by
      have : 1 ≤ (-e).toNat := by omega
      calc 2 = 2 ^ 1 := by norm_num
        _ ≤ 2 ^ (-e).toNat := Nat.pow_le_pow_right (by norm_num) this
    have hale : a ≤ m / 2 := Nat.div_le_div_left hd2 (by norm_num)
    set c := if d ≤ 2 * b then a + 1 else a with hc
    have hc53 : c < 2 ^ 53 := by
      rw [hc]; split_ifs <;> omega
    obtain ⟨hw1, hw2⟩ := roundScaled_exact s c 0 c 0 hc53 (by norm_num) (by norm_num) rfl
    have h2e := two_zpow_pos e
    have hdq : (d : ℚ) * (2 : ℚ) ^ e = 1 := by
      rw [hd]; push_cast; exact h1
    have hcerr : |(c : ℚ) - (m : ℚ) * (2 : ℚ) ^ e| ≤ 1 / 2 := by
      rw [hsp, hc]
      have hbnn : (0 : ℚ) ≤ (b : ℚ) * (2 : ℚ) ^ e := by positivity
      split_ifs with hcond
      · have : (d : ℚ) ≤ 2 * b := by exact_mod_cast hcond
        have h3 : (1 : ℚ) ≤ 2 * ((b : ℚ) * (2 : ℚ) ^ e) := by
          calc (1 : ℚ) = (d : ℚ) * (2 : ℚ) ^ e := hdq.symm
            _ ≤ (2 * b) * (2 : ℚ) ^ e := mul_le_mul_of_nonneg_right this h2e.le
            _ = 2 * ((b : ℚ) * (2 : ℚ) ^ e) := by ring
        push_cast
        rw [abs_le]; constructor <;> linarith
      · have : 2 * (b : ℚ) < d := by exact_mod_cast (not_le.mp hcond)
        have h3 : 2 * ((b : ℚ) * (2 : ℚ) ^ e) < 1 := by
          calc 2 * ((b : ℚ) * (2 : ℚ) ^ e) = (2 * b) * (2 : ℚ) ^ e := by ring
            _ < (d : ℚ) * (2 : ℚ) ^ e := mul_lt_mul_of_pos_right this h2e
            _ = 1 := hdq
        rw [abs_le]; constructor <;> linarith
    have hcnn : (0 : ℚ) ≤ (c : ℚ) := Nat.cast_nonneg _
    refine ⟨hw1, sig s c, ?_, ?_, ?_, ?_⟩
    · rw [hw2, sig_cast]; simp
    · rw [sig_cast]; simp only [toRat]
      rw [← mul_sub, abs_sgn_mul]; exact hcerr
    · intro h
      rw [sig_cast]
      cases s with
      | false => simp [sgn]
      | true =>
        simp only [toRat, sgn, if_true] at h ⊢
        have hm0 : (m : ℚ) * (2 : ℚ) ^ e ≤ 0 := by linarith
        have hmnn : (0 : ℚ) ≤ (m : ℚ) * (2 : ℚ) ^ e := by positivity
        have hc0 := abs_le.mp hcerr
        have hclt : (c : ℚ) < 1 := by linarith [hc0.2]
        have : c < 1 := by exact_mod_cast hclt
        have hc00 : c = 0 := by omega
        rw [hc00]; simp
    · intro h
      rw [sig_cast]
      cases s with
      | true => simp only [sgn, if_true]; linarith
      | false =>
        have hs : sgn false = 1 := rfl
        simp only [toRat, hs, one_mul] at h ⊢
        have hmnn : (0 : ℚ) ≤ (m : ℚ) * (2 : ℚ) ^ e := by positivity
        have hc0 := abs_le.mp hcerr
        have hclt : (c : ℚ) < 1 := by linarith [hc0.2]
        have : c < 1 := by exact_mod_cast hclt
        have hc00 : c = 0 := by omega
        rw [hc00]; simp

/-! ### Conversions to integers and `Max` -/

/-- The integer part computed by the conversions is the truncation toward zero. -/
theorem truncInt_spec (s : Bool) (m : Nat) (e : ℤ) :
    (0 ≤ toRat (fin s m e) →
      ((truncInt s m e : ℤ) : ℚ) ≤ toRat (fin s m e) ∧ toRat (fin s m e) < (truncInt s m e : ℤ) + 1)
    ∧ (toRat (fin s m e) ≤ 0 →
      ((truncInt s m e : ℤ) : ℚ) - 1 < toRat (fin s m e) ∧ toRat (fin s m e) ≤ (truncInt s m e : ℤ)) := by
  have h2e := two_zpow_pos e
  by_cases he : 0 ≤ e
  · have hv : ((truncInt s m e : ℤ) : ℚ) = toRat (fin s m e) := by
      simp only [truncInt, if_pos he, toRat]
      rw [sig_cast]; push_cast; rw [two_pow_toNat _ he]
    rw [hv]
    constructor <;> intro _ <;> constructor <;> linarith
  · have he' : e < 0 := by omega
    obtain ⟨hsp, hlt, -⟩ := split_point m e he'
    have hv : ((truncInt s m e : ℤ) : ℚ) = sgn s * ((m / 2 ^ (-e).toNat : ℕ) : ℚ) := by
      simp only [truncInt, if_neg he]
      rw [sig_cast]
    rw [hv]
    simp only [toRat]
    rw [hsp]
    set a := ((m / 2 ^ (-e).toNat : ℕ) : ℚ)
    set b := ((m % 2 ^ (-e).toNat : ℕ) : ℚ) * (2 : ℚ) ^ e
    have ha : 0 ≤ a := Nat.cast_nonneg _
    have hb : 0 ≤ b := by positivity
    cases s with
    | true =>
      simp only [sgn, if_true]
      constructor <;> intro h <;> constructor <;> linarith
    | false =>
      have hs : sgn false = 1 := rfl
      rw [hs]
      constructor <;> intro h <;> constructor <;> linarith

/-- Two integers that are both the truncation toward zero of one rational are equal. -/
theorem trunc_unique (X : ℚ) (T Z : ℤ)
    (hT1 : 0 ≤ X → (T : ℚ) ≤ X ∧ X < T + 1) (hT2 : X ≤ 0 → (T : ℚ) - 1 < X ∧ X ≤ T)
    (hZ : (0 ≤ X ∧ (Z : ℚ) ≤ X ∧ X < Z + 1) ∨ (X ≤ 0 ∧ (Z : ℚ) - 1 < X ∧ X ≤ Z)) : T = Z := by
  rcases hZ with ⟨h0, h1, h2⟩ | ⟨h0, h1, h2⟩
  · obtain ⟨h3, h4⟩ := hT1 h0
    have h5 : (T : ℚ) < Z + 1 := by linarith
    have h6 : (Z : ℚ) < T + 1 := by linarith
    have h5' : T < Z + 1 := by exact_mod_cast h5
    have h6' : Z < T + 1 := by exact_mod_cast h6
    omega
  · obtain ⟨h3, h4⟩ := hT2 h0
    have h5 : (T : ℚ) - 1 < Z := by linarith
    have h6 : (Z : ℚ) - 1 < T := by linarith
    have h5' : T - 1 < Z := by exact_mod_cast h5
    have h6' : Z - 1 < T := by exact_mod_cast h6
    omega

/-- Go `int64(x)`: the truncation toward zero, when it fits. -/
theorem toInt64_eq (x : F64) (hx : isFinite x = true) (Z : ℤ)
    (hZ1 : -2 ^ 63 ≤ Z) (hZ2 : Z < 2 ^ 63)
    (h : (0 ≤ toRat x ∧ (Z : ℚ) ≤ toRat x ∧ toRat x < Z + 1)
      ∨ (toRat x ≤ 0 ∧ (Z : ℚ) - 1 < toRat x ∧ toRat x ≤ Z)) : toInt64 x = Z := by
  obtain ⟨s, m, e, rfl, -, -, -⟩ := (isFinite_iff x).mp hx
  obtain ⟨h1, h2⟩ := truncInt_spec s m e
  have hT := trunc_unique _ _ Z h1 h2 h
  simp only [toInt64]
  rw [hT, if_pos ⟨hZ1, hZ2⟩]

/-- Go `uint(x)` for a float that is a natural number below `2^63`. -/
theorem toUint64_eq (x : F64) (hx : isFinite x = true) (P : ℕ) (hP : P < 2 ^ 63)
    (h : toRat x = P) : toUint64 x = P := by
  obtain ⟨s, m, e, rfl, -, -, -⟩ := (isFinite_iff x).mp hx
  obtain ⟨h1, h2⟩ := truncInt_spec s m e
  have hT := trunc_unique _ _ (P : ℤ) h1 h2
    (Or.inl ⟨by rw [h]; exact Nat.cast_nonneg _, by rw [h]; simp, by rw [h]; push_cast; linarith⟩)
  simp only [toUint64]
  rw [hT]
  have hP' : ((P : ℕ) : ℤ) < 2 ^ 63 := by exact_mod_cast hP
  have hP0 : (0 : ℤ) ≤ (P : ℤ) := Int.natCast_nonneg _
  rw [if_pos hP', if_pos (by omega)]
  simp only [wrapUint64]
  omega

/-- Go `math.Max` on finite values. -/
theorem max_spec (x y : F64) (hx : isFinite x = true) (hy : isFinite y = true) :
    isFinite (F64.max x y) = true ∧ toRat (F64.max x y) = Max.max (toRat x) (toRat y) := by
  obtain ⟨s, m, e, rfl, -, -, -⟩ := (isFinite_iff x).mp hx
  obtain ⟨t, n, g, rfl, -, -, -⟩ := (isFinite_iff y).mp hy
  simp only [F64.max]
  by_cases h0 : m = 0 ∧ n = 0
  · rw [if_pos h0]
    obtain ⟨rfl, rfl⟩ := h0
    refine ⟨by simp [isFinite], by simp [toRat]⟩
  · rw [if_neg h0]
    set k := min e g with hk
    have hek : 0 ≤ e - k := by have := min_le_left e g; omega
    have hgk : 0 ≤ g - k := by have := min_le_right e g; omega
    have h2k := two_zpow_pos k
    have hX : toRat (fin s m e) = ((sig s m * 2 ^ (e - k).toNat : ℤ) : ℚ) * (2 : ℚ) ^ k := by
      simp only [toRat]
      push_cast
      rw [sig_cast, two_pow_toNat _ hek, mul_assoc, mul_assoc,
        ← zpow_add₀ (by norm_num : (2 : ℚ) ≠ 0)]
      congr 3; ring
    have hY : toRat (fin t n g) = ((sig t n * 2 ^ (g - k).toNat : ℤ) : ℚ) * (2 : ℚ) ^ k := by
      simp only [toRat]
      push_cast
      rw [sig_cast, two_pow_toNat _ hgk, mul_assoc, mul_assoc,
        ← zpow_add₀ (by norm_num : (2 : ℚ) ≠ 0)]
      congr 3; ring
    have hcmp : (sig s m * 2 ^ (e - k).toNat < sig t n * 2 ^ (g - k).toNat)
        ↔ toRat (fin s m e) < toRat (fin t n g) := by
      rw [hX, hY, mul_lt_mul_right h2k]
      exact Int.cast_lt.symm
    by_cases hc : sig s m * 2 ^ (e - k).toNat < sig t n * 2 ^ (g - k).toNat
    · rw [if_pos hc]
      exact ⟨hy, (max_eq_right (le_of_lt (hcmp.mp hc))).symm⟩
    · rw [if_neg hc]
      have : ¬ toRat (fin s m e) < toRat (fin t n g) := fun h => hc (hcmp.mpr h)
      exact ⟨hx, (max_eq_left (not_lt.mp this)).symm⟩

/-- The result precision of the binary operations is the larger precision, as
long as both are at most `2^53`. -/
theorem maxPrecision_eq (p q : Nat) (hp : p ≤ 2 ^ 53) (hq : q ≤ 2 ^ 53) :
    maxPrecision p q = Max.max p q := by
  have hofNat : ∀ r : Nat, r ≤ 2 ^ 53 →
      isFinite (ofInt r) = true ∧ toRat (ofInt r) = (r : ℚ) := by
    intro r hr
    rcases Nat.lt_or_ge r (2 ^ 53) with h | h
    · have := ofInt_exact (r : ℤ) (by rw [abs_of_nonneg (Int.natCast_nonneg _)]; exact_mod_cast h)
      simpa using this
    · have hr' : r = 2 ^ 53 := by omega
      subst hr'
      have := roundInt_exact ((2 ^ 53 : ℕ) : ℤ) 0 (2 ^ 52) 1 (by norm_num) (by norm_num)
        (by norm_num) (by norm_num)
      simpa [ofInt] using this
  obtain ⟨hf1, hv1⟩ := hofNat p hp
  obtain ⟨hf2, hv2⟩ := hofNat q hq
  obtain ⟨hf, hv⟩ := max_spec _ _ hf1 hf2
  unfold maxPrecision
  apply toUint64_eq _ hf
  · have : Max.max p q ≤ 2 ^ 53 := max_le hp hq
    omega
  · rw [hv, hv1, hv2]; simp

/-! ### The powers of ten -/

set_option maxRecDepth 100000 in
/-- Go `math.Pow10(k)` is exact for `k ≤ 22`. -/
theorem pow10Pos_spec (k : Nat) (hk : k ≤ 22) :
    isFinite (pow10Pos k) = true ∧ toRat (pow10Pos k) = (10 : ℚ) ^ k := by
  interval_cases k <;> decide!

set_option maxRecDepth 100000 in
/-- Go `int64(math.Pow10(k))` is `10^k` for `k ≤ 18`. -/
theorem toInt64_pow10Pos (k : Nat) (hk : k ≤ 18) : toInt64 (pow10Pos k) = 10 ^ k := by
  interval_cases k <;> decide!

set_option maxRecDepth 100000 in
/-- Go `math.Pow10(-k)` is `10^-k` up to one rounding, for `k ≤ 22`. -/
theorem pow10Neg_spec (k : Nat) (hk : k ≤ 22) :
    isFinite (pow10Neg k) = true ∧ 0 < toRat (pow10Neg k) ∧
      |toRat (pow10Neg k) * (10 : ℚ) ^ k - 1| ≤ 1 / 2 ^ 53 := by
  interval_cases k <;> decide!

/-! ### Helpers of the error analysis -/

theorem eta_small : (2 : ℚ) ^ (-1075 : ℤ) ≤ 1 / 10 ^ 60 := by
  have h1 : (2 : ℚ) ^ (-1075 : ℤ) ≤ (2 : ℚ) ^ (-200 : ℤ) :=
    zpow_le_zpow_right₀ (by norm_num) (by norm_num)
  have h2 : (2 : ℚ) ^ (-200 : ℤ) ≤ 1 / 10 ^ 60 := by
    rw [zpow_neg]; norm_num
  exact le_trans h1 h2

theorem u_eq : (2 : ℚ) ^ (-53 : ℤ) = 1 / 2 ^ 53 := by
  rw [zpow_neg]; norm_num

theorem le_two_pow_1023 (x : ℚ) (h : x ≤ 2 ^ 100) : x ≤ (2 : ℚ) ^ (1023 : ℤ) := by
  have h1 : (2 : ℚ) ^ (100 : ℤ) ≤ (2 : ℚ) ^ (1023 : ℤ) :=
    zpow_le_zpow_right₀ (by norm_num) (by norm_num)
  have h2 : (2 : ℚ) ^ (100 : ℤ) = 2 ^ 100 := by norm_cast
  rw [h2] at h1
  exact le_trans h h1

theorem ten_pow_bounds (p : Nat) (hp : p ≤ 18) :
    (1 : ℚ) ≤ (10 : ℚ) ^ p ∧ (10 : ℚ) ^ p ≤ 10 ^ 18 :=
  ⟨one_le_pow₀ (by norm_num), pow_le_pow_right₀ (by norm_num) hp⟩

/-- A rounding, scaled by a positive factor `T`, with the magnitude bounded by `B`. -/
theorem Rnd.scaled {X r : ℚ} (h : Rnd X r) (T B : ℚ) (hT1 : 0 < T) (hT2 : T ≤ 10 ^ 18)
    (hB : |X * T| ≤ B) :
    |r * T - X * T| ≤ B / 2 ^ 53 + 1 / 10 ^ 42 := by
  have h1 := h.1
  rw [u_eq] at h1
  have h2 := eta_small
  have h3 : |r * T - X * T| = |r - X| * T := by
    rw [← sub_mul, abs_mul, abs_of_pos hT1]
  have h4 : |X * T| = |X| * T := by rw [abs_mul, abs_of_pos hT1]
  rw [h3]
  rw [h4] at hB
  have h5 : |r - X| * T ≤ (|X| * (1 / 2 ^ 53) + (2 : ℚ) ^ (-1075 : ℤ)) * T :=
    mul_le_mul_of_nonneg_right h1 hT1.le
  have h6 : (2 : ℚ) ^ (-1075 : ℤ) * T ≤ 1 / 10 ^ 60 * 10 ^ 18 :=
    mul_le_mul h2 hT2 hT1.le (by norm_num)
  have h7 : (|X| * (1 / 2 ^ 53) + (2 : ℚ) ^ (-1075 : ℤ)) * T
      = |X| * T * (1 / 2 ^ 53) + (2 : ℚ) ^ (-1075 : ℤ) * T := by ring
  have h8 : |X| * T * (1 / 2 ^ 53) ≤ B * (1 / 2 ^ 53) :=
    mul_le_mul_of_nonneg_right hB (by norm_num)
  have h9 : (1 : ℚ) / 10 ^ 60 * 10 ^ 18 = 1 / 10 ^ 42 := by norm_num
  rw [h7] at h5
  calc |r - X| * T ≤ |X| * T * (1 / 2 ^ 53) + (2 : ℚ) ^ (-1075 : ℤ) * T := h5
    _ ≤ B * (1 / 2 ^ 53) + 1 / 10 ^ 60 * 10 ^ 18 := add_le_add h8 h6
    _ = B / 2 ^ 53 + 1 / 10 ^ 42 := by rw [h9]; ring

/-- A factor within `ε` of one changes a quantity bounded by `B` by at most `B * ε`. -/
theorem mul_near_one (a κ B ε : ℚ) (ha : |a| ≤ B) (hκ : |κ - 1| ≤ ε) :
    |a * κ - a| ≤ B * ε := by
  have h1 : a * κ - a = a * (κ - 1) := by ring
  rw [h1, abs_mul]
  exact mul_le_mul ha hκ (abs_nonneg _) (le_trans (abs_nonneg _) ha)

theorem wrapUint64_small (n : Nat) (h : n ≤ 100) : wrapUint64 (n : ℤ) = n := by
  unfold wrapUint64
  have : ((n : ℤ) % 2 ^ 64) = n := by
    apply Int.emod_eq_of_lt (by omega)
    have : (n : ℤ) ≤ 100 := by exact_mod_cast h
    norm_num
    omega
  rw [this]; simp

/-- Error analysis of the rounding bias, on rationals: `r` is the rounded product
of `σ = ±1` and the rounded product of five and `c1 ≈ 10^-(p+1)`; `T = 10^p`. -/
theorem rounder_bound (T c1 m5 r σ : ℚ) (hT1 : 1 ≤ T) (hT2 : T ≤ 10 ^ 18)
    (hc : |c1 * (T * 10) - 1| ≤ 1 / 2 ^ 53)
    (hm : Rnd (5 * c1) m5) (hr : Rnd (σ * m5) r) (hσ : σ = 1 ∨ σ = -1) :
    |m5| ≤ 2 ∧ |r * T - σ / 2| ≤ 1 / 2 ^ 50 := by
  have hT0 : (0 : ℚ) < T := by linarith
  obtain ⟨hc3a, hc3b⟩ := abs_le.mp hc
  have hB1 : |5 * c1 * T| ≤ 1 := by
    rw [abs_le]; constructor <;> linarith
  have hs1 := hm.scaled T 1 hT0 hT2 hB1
  obtain ⟨hs1a, hs1b⟩ := abs_le.mp hs1
  have hσabs : |σ| = 1 := by
    rcases hσ with h | h <;> rw [h] <;> simp
  have hm5T : |m5 * T| ≤ 2 := by
    rw [abs_le]; constructor <;> linarith
  have hB2 : |σ * m5 * T| ≤ 2 := by
    rw [mul_assoc, abs_mul, hσabs, one_mul]; exact hm5T
  have hs2 := hr.scaled T 2 hT0 hT2 hB2
  obtain ⟨hs2a, hs2b⟩ := abs_le.mp hs2
  have hm5 : |m5| ≤ 2 := by
    have h1 : |m5| ≤ |m5 * T| := by
      rw [abs_mul, abs_of_pos hT0]; exact le_mul_of_one_le_right (abs_nonneg _) hT1
    linarith
  refine ⟨hm5, ?_⟩
  rw [abs_le]
  rcases hσ with h | h <;> rw [h] at hs2a hs2b ⊢ <;>
    constructor <;> linarith

/-- The sign factor of the rounding bias is exact. -/
theorem sign_spec (b : Bool) :
    isFinite (if b = true then ofInt (-1) else ofInt 1) = true
    ∧ toRat (if b = true then ofInt (-1) else ofInt 1) = (if b = true then -1 else 1) := by
  cases b with
  | true =>
    have := ofInt_exact (-1) (by norm_num)
    simpa using this
  | false =>
    have := ofInt_exact 1 (by norm_num)
    simpa using this

/-- The rounding bias of both factories, in units of `10^-precision`: one half
with the chosen sign, up to `2^-50`. -/
theorem rounder_spec (w f : F64) (p : Nat) (hp : p ≤ 18) :
    isFinite (rounder w f p) = true
    ∧ |toRat (rounder w f p) * (10 : ℚ) ^ p
        - (if (ltZero w || ltZero f) = true then -1 else 1) / 2| ≤ 1 / 2 ^ 50 := by
  obtain ⟨hT1, hT2⟩ := ten_pow_bounds p hp
  have hw : wrapUint64 ((p : ℤ) + 1) = p + 1 := by
    have := wrapUint64_small (p + 1) (by omega)
    push_cast at this
    exact this
  obtain ⟨hc1, hc2, hc3⟩ := pow10Neg_spec (p + 1) (by omega)
  have hκ : ∀ c : ℚ, c * (10 : ℚ) ^ (p + 1) = c * ((10 : ℚ) ^ p * 10) := by
    intro c; rw [pow_succ]
  rw [hκ] at hc3
  obtain ⟨h5f, h5v⟩ := ofInt_exact 5 (by norm_num)
  have h5v' : toRat (ofInt 5) = 5 := by rw [h5v]; norm_num
  obtain ⟨hsf, hsv⟩ := sign_spec (ltZero w || ltZero f)
  have hσ : ((if (ltZero w || ltZero f) = true then -1 else 1 : ℚ) = 1
      ∨ (if (ltZero w || ltZero f) = true then -1 else 1 : ℚ) = -1) := by
    split_ifs <;> simp
  unfold rounder
  simp only [hw]
  generalize (if (ltZero w || ltZero f) = true then (-1 : ℚ) else 1) = σ at hsv hσ ⊢
  generalize (if (ltZero w || ltZero f) = true then ofInt (-1) else ofInt 1) = sg at hsf hsv ⊢
  generalize pow10Neg (p + 1) = N1 at hc1 hc2 hc3 ⊢
  generalize ofInt 5 = five at h5f h5v'
  generalize (10 : ℚ) ^ p = T at hT1 hT2 hc3 ⊢
  have hc1T : toRat N1 ≤ 1 := by
    have h1 : toRat N1 * 10 ≤ toRat N1 * (T * 10) :=
      mul_le_mul_of_nonneg_left (by linarith) hc2.le
    have := (abs_le.mp hc3).2
    norm_num at this
    linarith
  obtain ⟨hm1, hm2⟩ := mul_rnd five N1 h5f hc1
    (by rw [h5v']; apply le_two_pow_1023
        rw [abs_of_nonneg (by linarith)]; norm_num; linarith)
  rw [h5v'] at hm2
  generalize mul five N1 = M5 at hm1 hm2 ⊢
  have hpre : |toRat M5| ≤ 2 → |toRat sg * toRat M5| ≤ (2 : ℚ) ^ (1023 : ℤ) := by
    intro h
    apply le_two_pow_1023
    rw [hsv, abs_mul]
    have : |σ| = 1 := by rcases hσ with h | h <;> rw [h] <;> simp
    rw [this, one_mul]
    linarith
  -- bound of M5 before the second product
  have hM5 : |toRat M5| ≤ 2 := by
    have hT0 : (0 : ℚ) < T := by linarith
    obtain ⟨hc3a, hc3b⟩ := abs_le.mp hc3
    have hB1 : |5 * toRat N1 * T| ≤ 1 := by
      rw [abs_le]; constructor <;> linarith
    have hs1 := hm2.scaled T 1 hT0 hT2 hB1
    obtain ⟨hs1a, hs1b⟩ := abs_le.mp hs1
    have hm5T : |toRat M5 * T| ≤ 2 := by
      rw [abs_le]; constructor <;> linarith
    have h1 : |toRat M5| ≤ |toRat M5 * T| := by
      rw [abs_mul, abs_of_pos hT0]; exact le_mul_of_one_le_right (abs_nonneg _) hT1
    linarith
  obtain ⟨hr1, hr2⟩ := mul_rnd sg M5 hsf hm1 (hpre hM5)
  rw [hsv] at hr2
  exact ⟨hr1, (rounder_bound T _ _ _ σ hT1 hT2 hc3 hm2 hr2 hσ).2⟩

/-! ### The stored fraction -/

theorem abs_le_abs_mul (a T : ℚ) (hT : 1 ≤ T) : |a| ≤ |a * T| := by
  rw [abs_mul, abs_of_pos (by linarith : (0 : ℚ) < T)]
  exact le_mul_of_one_le_right (abs_nonneg _) hT

/-- Error analysis of the last step of both factories, on rationals: the
fractional part `f` is within `E` of the integer `t` in units of `10^-p`, and
`|t| ≤ B`; adding the bias, scaling by `T = 10^p` and truncating gives `t` as
long as `E + 2 B / 2^53` stays below one half. -/
theorem fraction_bound (T f r s z σ B E : ℚ) (t : ℤ) (hT1 : 1 ≤ T) (hT2 : T ≤ 10 ^ 18)
    (ht : |(t : ℚ)| ≤ B) (hcl : |f * T - t| ≤ E)
    (hE : E + B / 2 ^ 52 + 1 / 2 ^ 40 ≤ 1 / 2)
    (hr : |r * T - σ / 2| ≤ 1 / 2 ^ 50)
    (hs : Rnd (f + r) s) (hz : Rnd (s * T) z)
    (hσ : (σ = 1 ∧ 0 ≤ (t : ℚ)) ∨ (σ = -1 ∧ (t : ℚ) ≤ 0)) :
    (0 ≤ z ∧ (t : ℚ) ≤ z ∧ z < t + 1) ∨ (z ≤ 0 ∧ (t : ℚ) - 1 < z ∧ z ≤ t) := by
  have hT0 : (0 : ℚ) < T := by linarith
  have hE0 : 0 ≤ E := le_trans (abs_nonneg _) hcl
  have hB0 : 0 ≤ B := le_trans (abs_nonneg _) ht
  obtain ⟨ht1, ht2⟩ := abs_le.mp ht
  obtain ⟨hc1, hc2⟩ := abs_le.mp hcl
  obtain ⟨hr1, hr2⟩ := abs_le.mp hr
  have hσb : -1 ≤ σ ∧ σ ≤ 1 := by
    rcases hσ with ⟨h, -⟩ | ⟨h, -⟩ <;> rw [h] <;> norm_num
  have hB1 : |(f + r) * T| ≤ B + E + 1 := by
    rw [add_mul, abs_le]; constructor <;> linarith [hσb.1, hσb.2]
  have h1 := hs.scaled T (B + E + 1) hT0 hT2 hB1
  obtain ⟨h1a, h1b⟩ := abs_le.mp h1
  rw [add_mul] at h1a h1b
  have hB2 : |s * T * 1| ≤ B + E + 2 := by
    rw [mul_one, abs_le]; constructor <;> linarith [hσb.1, hσb.2]
  have h2 := hz.scaled 1 (B + E + 2) (by norm_num) (by norm_num) hB2
  rw [mul_one, mul_one] at h2
  obtain ⟨h2a, h2b⟩ := abs_le.mp h2
  rcases hσ with ⟨h, ht0⟩ | ⟨h, ht0⟩
  · left
    rw [h] at hr1 hr2
    refine ⟨?_, ?_, ?_⟩ <;> linarith
  · right
    rw [h] at hr1 hr2
    refine ⟨?_, ?_, ?_⟩ <;> linarith

/-- The stored fraction of both factories: the fractional part `f`, within
`E` of the integer `t` in units of `10^-p`, is stored as `t`, as long as
`E + 2 |t| / 2^53` stays below one half. -/
theorem fraction_spec (w f : F64) (p : Nat) (t : ℤ) (B E : ℚ) (hf : isFinite f = true)
    (hp : p ≤ 18) (hB : B ≤ 2 ^ 53)
    (ht : |(t : ℚ)| ≤ B) (hcl : |toRat f * (10 : ℚ) ^ p - t| ≤ E)
    (hE : E + B / 2 ^ 52 + 1 / 2 ^ 40 ≤ 1 / 2)
    (hσ : ((ltZero w || ltZero f) = false ∧ 0 ≤ (t : ℚ))
      ∨ ((ltZero w || ltZero f) = true ∧ (t : ℚ) ≤ 0)) :
    toInt64 (mul (add f (rounder w f p)) (pow10Pos p)) = t := by
  obtain ⟨hT1, hT2⟩ := ten_pow_bounds p hp
  obtain ⟨hr1, hr2⟩ := rounder_spec w f p hp
  obtain ⟨hP1, hP2⟩ := pow10Pos_spec p (by omega)
  have hσ' : ((if (ltZero w || ltZero f) = true then -1 else 1 : ℚ) = 1 ∧ 0 ≤ (t : ℚ))
      ∨ ((if (ltZero w || ltZero f) = true then -1 else 1 : ℚ) = -1 ∧ (t : ℚ) ≤ 0) := by
    rcases hσ with ⟨h, h'⟩ | ⟨h, h'⟩
    · left; rw [h]; exact ⟨by simp, h'⟩
    · right; rw [h]; exact ⟨by simp, h'⟩
  generalize (if (ltZero w || ltZero f) = true then (-1 : ℚ) else 1) = σ at hr2 hσ'
  generalize rounder w f p = r at hr1 hr2 ⊢
  generalize pow10Pos p = P0 at hP1 hP2 ⊢
  generalize (10 : ℚ) ^ p = T at hP2 hcl hr2 hT1 hT2
  have hE0 : 0 ≤ E := le_trans (abs_nonneg _) hcl
  have hB0 : 0 ≤ B := le_trans (abs_nonneg _) ht
  obtain ⟨ht1, ht2⟩ := abs_le.mp ht
  obtain ⟨hc1, hc2⟩ := abs_le.mp hcl
  obtain ⟨hr1a, hr1b⟩ := abs_le.mp hr2
  have hσb : -1 ≤ σ ∧ σ ≤ 1 := by
    rcases hσ' with ⟨h, -⟩ | ⟨h, -⟩ <;> rw [h] <;> norm_num
  have hfb : |toRat f| ≤ B + 1 := by
    have h1 := abs_le_abs_mul (toRat f) T hT1
    have h2 : |toRat f * T| ≤ B + 1 := by
      rw [abs_le]; constructor <;> linarith
    linarith
  have hrb : |toRat r| ≤ 1 := by
    have h1 := abs_le_abs_mul (toRat r) T hT1
    have h2 : |toRat r * T| ≤ 1 := by
      rw [abs_le]; constructor <;> linarith [hσb.1, hσb.2]
    linarith
  obtain ⟨hs1, hs2⟩ := add_rnd f r hf hr1 (by
    apply le_two_pow_1023
    have := abs_add (toRat f) (toRat r)
    linarith)
  generalize add f r = s at hs1 hs2 ⊢
  have hsb : |toRat s * T| ≤ B + 3 := by
    have hT0 : (0 : ℚ) < T := by linarith
    have hB1 : |(toRat f + toRat r) * T| ≤ B + 2 := by
      rw [add_mul, abs_le]; constructor <;> linarith [hσb.1, hσb.2]
    have h1 := hs2.scaled T (B + 2) hT0 hT2 hB1
    obtain ⟨h1a, h1b⟩ := abs_le.mp h1
    obtain ⟨h3a, h3b⟩ := abs_le.mp hB1
    rw [abs_le]; constructor <;> linarith
  obtain ⟨hz1, hz2⟩ := mul_rnd s P0 hs1 hP1 (by
    rw [hP2]; apply le_two_pow_1023; linarith)
  rw [hP2] at hz2
  have hb := fraction_bound T (toRat f) (toRat r) (toRat s) _ σ B E t hT1 hT2 ht hcl hE hr2
    hs2 hz2 hσ'
  apply toInt64_eq _ hz1 t _ _ hb
  · have h2 : ((-(2 : ℤ) ^ 53 : ℤ) : ℚ) ≤ (t : ℚ) := by push_cast; linarith
    have h3 : -(2 : ℤ) ^ 53 ≤ t := by exact_mod_cast h2
    omega
  · have h2 : (t : ℚ) ≤ ((2 ^ 53 : ℤ) : ℚ) := by push_cast; linarith
    have h3 : t ≤ 2 ^ 53 := by exact_mod_cast h2
    omega

/-! ### `NewDecimal` -/

theorem wrapInt64_small (x : ℤ) (h1 : -2 ^ 63 ≤ x) (h2 : x < 2 ^ 63) : wrapInt64 x = x := by
  unfold wrapInt64
  omega

theorem int_abs_le_of_cast (x : ℤ) (B : ℕ) (h : |(x : ℚ)| ≤ (B : ℚ)) : -(B : ℤ) ≤ x ∧ x ≤ B := by
  obtain ⟨h1, h2⟩ := abs_le.mp h
  constructor
  · have : ((-(B : ℤ) : ℤ) : ℚ) ≤ (x : ℚ) := by push_cast; exact h1
    exact_mod_cast this
  · have : (x : ℚ) ≤ ((B : ℤ) : ℚ) := by push_cast; exact h2
    exact_mod_cast this

/-- Error analysis of the first step of `NewDecimal`, on rationals: the float
quotient `y` of the amount `A` by `10^p`, in units of `10^-p`, is off by two
roundings of `A`. -/
theorem quotient_bound (T c y B : ℚ) (A : ℤ) (hT1 : 1 ≤ T) (hT2 : T ≤ 10 ^ 18)
    (hB : B ≤ 2 ^ 53)
    (hA : |(A : ℚ)| ≤ B) (hc : |c * T - 1| ≤ 1 / 2 ^ 53) (hy : Rnd ((A : ℚ) * c) y) :
    |y * T - A| ≤ B / 2 ^ 52 + 1 / 2 ^ 52 := by
  have hT0 : (0 : ℚ) < T := by linarith
  have hB0 : 0 ≤ B := le_trans (abs_nonneg _) hA
  have h1 := mul_near_one (A : ℚ) (c * T) B (1 / 2 ^ 53) hA hc
  obtain ⟨h1a, h1b⟩ := abs_le.mp h1
  obtain ⟨hA1, hA2⟩ := abs_le.mp hA
  have hB' : |(A : ℚ) * c * T| ≤ B + 1 := by
    rw [mul_assoc, abs_le]; constructor <;> linarith
  have h2 := hy.scaled T _ hT0 hT2 hB'
  obtain ⟨h2a, h2b⟩ := abs_le.mp h2
  rw [mul_assoc] at h2a h2b
  rw [abs_le]; constructor <;> linarith

/-- `NewDecimal` on amounts up to `10^15` and precisions up to 18: what is
stored.  The whole part `W` is the integer part of the float quotient, the
fraction is what is left of the amount, and both have the sign of the amount. -/
theorem newDecimal_spec (A : ℤ) (p : Nat) (hp : p ≤ 18) (hA : |A| ≤ 10 ^ 15) :
    ∃ W : ℤ, NewDecimal A p = ⟨W, A - W * 10 ^ p, p, 44, 46⟩
      ∧ |(W : ℚ) * (10 : ℚ) ^ p| ≤ 10 ^ 15 + 1
      ∧ toRat (modf (mul (ofInt A) (pow10Neg p))).1 = W
      ∧ (0 ≤ A → 0 ≤ W ∧ 0 ≤ A - W * 10 ^ p) ∧ (A ≤ 0 → W ≤ 0 ∧ A - W * 10 ^ p ≤ 0) := by
  obtain ⟨hT1, hT2⟩ := ten_pow_bounds p hp
  have hAq : |(A : ℚ)| ≤ 10 ^ 15 := by
    have : ((|A| : ℤ) : ℚ) ≤ ((10 ^ 15 : ℤ) : ℚ) := by exact_mod_cast hA
    rw [Int.cast_abs] at this
    simpa using this
  have hA53 : |A| < 2 ^ 53 := lt_of_le_of_lt hA (by norm_num)
  obtain ⟨ha1, ha2⟩ := ofInt_exact A hA53
  obtain ⟨hc1, hc2, hc3⟩ := pow10Neg_spec p (by omega)
  have hcT : toRat (pow10Neg p) ≤ 2 := by
    have h1 : toRat (pow10Neg p) ≤ toRat (pow10Neg p) * (10 : ℚ) ^ p :=
      le_mul_of_one_le_right hc2.le hT1
    have := (abs_le.mp hc3).2
    norm_num at this
    linarith
  obtain ⟨hy1, hy2⟩ := mul_rnd (ofInt A) (pow10Neg p) ha1 hc1 (by
    apply le_two_pow_1023
    rw [ha2, abs_mul, abs_of_pos hc2]
    calc |(A : ℚ)| * toRat (pow10Neg p) ≤ 10 ^ 15 * 2 :=
          mul_le_mul hAq hcT hc2.le (by norm_num)
      _ ≤ 2 ^ 100 := by norm_num)
  rw [ha2] at hy2
  have hyb := quotient_bound _ _ _ (10 ^ 15) A hT1 hT2 (by norm_num) hAq hc3 hy2
  have hysgn1 : (0 : ℚ) ≤ A → 0 ≤ toRat (mul (ofInt A) (pow10Neg p)) := fun h =>
    hy2.2.2.1 (mul_nonneg h hc2.le)
  have hysgn2 : (A : ℚ) ≤ 0 → toRat (mul (ofInt A) (pow10Neg p)) ≤ 0 := fun h =>
    hy2.2.2.2 (mul_nonpos_of_nonpos_of_nonneg h hc2.le)
  unfold NewDecimal
  simp only []
  generalize mul (ofInt A) (pow10Neg p) = y at hy1 hy2 hyb hysgn1 hysgn2 ⊢
  obtain ⟨hw, hf, W, hW, hY, hF, hpos, hneg⟩ := modf_spec y hy1
  rcases hm : modf y with ⟨w, f⟩
  rw [hm] at hw hf hW hY hF hpos hneg
  simp only [] at hw hf hW hY hF hpos hneg ⊢
  obtain ⟨T, hTd⟩ : ∃ T : ℚ, (10 : ℚ) ^ p = T := ⟨_, rfl⟩
  rw [hTd] at hT1 hT2 hyb hc3
  have hT0 : (0 : ℚ) < T := by linarith
  obtain ⟨hyb1, hyb2⟩ := abs_le.mp hyb
  obtain ⟨hF1, hF2⟩ := abs_lt.mp hF
  obtain ⟨hA1, hA2⟩ := abs_le.mp hAq
  -- whole and fractional part have the sign of the quotient
  have hWT : |(W : ℚ) * T| ≤ 10 ^ 15 + 1 ∧ |toRat f * T| ≤ 10 ^ 15 + 1 := by
    rcases le_total 0 (toRat y) with h | h
    · obtain ⟨h1, h2⟩ := hpos h
      have h3 : 0 ≤ (W : ℚ) * T := mul_nonneg h1 hT0.le
      have h4 : 0 ≤ toRat f * T := mul_nonneg h2 hT0.le
      have h5 : toRat y * T = (W : ℚ) * T + toRat f * T := by rw [hY]; ring
      constructor <;> rw [abs_le] <;> constructor <;> linarith
    · obtain ⟨h1, h2⟩ := hneg h
      have h3 : (W : ℚ) * T ≤ 0 := mul_nonpos_of_nonpos_of_nonneg h1 hT0.le
      have h4 : toRat f * T ≤ 0 := mul_nonpos_of_nonpos_of_nonneg h2 hT0.le
      have h5 : toRat y * T = (W : ℚ) * T + toRat f * T := by rw [hY]; ring
      constructor <;> rw [abs_le] <;> constructor <;> linarith
  obtain ⟨hWT1, hfT1⟩ := hWT
  have hWb : |(W : ℚ)| ≤ 10 ^ 15 + 1 := le_trans (abs_le_abs_mul _ T hT1) hWT1
  have htq : ((A - W * 10 ^ p : ℤ) : ℚ) = (A : ℚ) - (W : ℚ) * T := by
    push_cast; rw [hTd]
  have hcl : |toRat f * T - ((A - W * 10 ^ p : ℤ) : ℚ)| ≤ 10 ^ 15 / 2 ^ 52 + 1 / 2 ^ 52 := by
    rw [htq]
    have : toRat f * T - ((A : ℚ) - (W : ℚ) * T) = toRat y * T - A := by rw [hY]; ring
    rw [this, abs_le]; constructor <;> linarith
  have ht : |((A - W * 10 ^ p : ℤ) : ℚ)| ≤ 10 ^ 15 + 2 := by
    obtain ⟨h1, h2⟩ := abs_le.mp hcl
    obtain ⟨h3, h4⟩ := abs_le.mp hfT1
    rw [abs_le]; constructor <;> linarith
  have hint : ∀ z : ℤ, (-1 : ℚ) < z → (0 : ℚ) ≤ z := by
    intro z hz
    have : (-1 : ℤ) < z := by exact_mod_cast hz
    have : (0 : ℤ) ≤ z := by omega
    exact_mod_cast this
  have hint2 : ∀ z : ℤ, (z : ℚ) < 1 → (z : ℚ) ≤ 0 := by
    intro z hz
    have : z < (1 : ℤ) := by exact_mod_cast hz
    have : z ≤ (0 : ℤ) := by omega
    exact_mod_cast this
  have htpos : 0 ≤ toRat y → (0 : ℚ) ≤ ((A - W * 10 ^ p : ℤ) : ℚ) := by
    intro h
    apply hint
    obtain ⟨h1, h2⟩ := abs_le.mp hcl
    obtain ⟨h3, h4⟩ := hpos h
    have h5 : 0 ≤ toRat f * T := mul_nonneg h4 hT0.le
    linarith
  have htneg : toRat y ≤ 0 → ((A - W * 10 ^ p : ℤ) : ℚ) ≤ 0 := by
    intro h
    apply hint2
    obtain ⟨h1, h2⟩ := abs_le.mp hcl
    obtain ⟨h3, h4⟩ := hneg h
    have h5 : toRat f * T ≤ 0 := mul_nonpos_of_nonpos_of_nonneg h4 hT0.le
    linarith
  have hflag : ((ltZero w || ltZero f) = false ∧ 0 ≤ ((A - W * 10 ^ p : ℤ) : ℚ))
      ∨ ((ltZero w || ltZero f) = true ∧ ((A - W * 10 ^ p : ℤ) : ℚ) ≤ 0) := by
    have hlw := ltZero_iff w hw
    have hlf := ltZero_iff f hf
    rw [hW] at hlw
    by_cases hb : (ltZero w || ltZero f) = true
    · right
      refine ⟨hb, ?_⟩
      rcases le_total 0 (toRat y) with h | h
      · exfalso
        obtain ⟨h3, h4⟩ := hpos h
        rw [Bool.or_eq_true] at hb
        rcases hb with hb | hb
        · have := hlw.mp hb; linarith
        · have := hlf.mp hb; linarith
      · exact htneg h
    · left
      have hb' : (ltZero w || ltZero f) = false := by simpa using hb
      refine ⟨hb', ?_⟩
      apply hint
      obtain ⟨h1, h2⟩ := abs_le.mp hcl
      rw [Bool.or_eq_false_iff] at hb'
      have h3 : ¬ toRat f < 0 := fun h => by
        have := hlf.mpr h
        rw [hb'.2] at this
        exact Bool.false_ne_true this
      have h4 : 0 ≤ toRat f * T := mul_nonneg (not_lt.mp h3) hT0.le
      linarith
  have hfrac := fraction_spec w f p (A - W * 10 ^ p) (10 ^ 15 + 2)
    (10 ^ 15 / 2 ^ 52 + 1 / 2 ^ 52) hf hp (by norm_num) ht (by rw [hTd]; exact hcl)
    (by norm_num) hflag
  obtain ⟨hWi1, hWi2⟩ := int_abs_le_of_cast W (10 ^ 15 + 1) (by push_cast; linarith)
  have hwhole : toInt64 w = W := by
    apply toInt64_eq w hw W (by push_cast at hWi1; omega) (by push_cast at hWi2; omega)
    rw [hW]
    rcases le_total 0 (W : ℚ) with h | h
    · left; exact ⟨h, le_rfl, by linarith⟩
    · right; exact ⟨h, by linarith, le_rfl⟩
  refine ⟨W, ?_, ?_, hW, ?_, ?_⟩
  · rw [hfrac, hwhole]; rfl
  · rw [← hTd] at hWT1; exact hWT1
  · intro h
    have hq : (0 : ℚ) ≤ A := by exact_mod_cast h
    obtain ⟨h1, -⟩ := hpos (hysgn1 hq)
    have h2 := htpos (hysgn1 hq)
    exact ⟨by exact_mod_cast h1, by exact_mod_cast h2⟩
  · intro h
    have hq : (A : ℚ) ≤ 0 := by exact_mod_cast h
    obtain ⟨h1, -⟩ := hneg (hysgn2 hq)
    have h2 := htneg (hysgn2 hq)
    exact ⟨by exact_mod_cast h1, by exact_mod_cast h2⟩

/-! ### `NewDecimalFromFloat` -/

/-- Error analysis of the pre-rounding of `NewDecimalFromFloat`, on rationals:
`nf` is the rounded product of the fractional part `F` and `10^(p+2)`, `R` an
integer at most one half from `nf`. -/
theorem preround_bound (T F nf Bf : ℚ) (R : ℤ) (hBf : Bf ≤ 2 ^ 53)
    (hF : |F * T| ≤ Bf) (hnf : Rnd (F * (T * 100)) nf) (hR : |(R : ℚ) - nf| ≤ 1 / 2) :
    |(R : ℚ) / 100 - F * T| ≤ Bf / 2 ^ 53 + 1 / 200 + 1 / 10 ^ 40
      ∧ |(R : ℚ) / 100| ≤ Bf + 2 := by
  have hB0 : 0 ≤ Bf := le_trans (abs_nonneg _) hF
  obtain ⟨hF1, hF2⟩ := abs_le.mp hF
  have hB : |F * (T * 100) * 1| ≤ 100 * Bf := by
    rw [mul_one, abs_le]; constructor <;> linarith
  have h1 := hnf.scaled 1 _ (by norm_num) (by norm_num) hB
  rw [mul_one, mul_one] at h1
  obtain ⟨h1a, h1b⟩ := abs_le.mp h1
  obtain ⟨h2a, h2b⟩ := abs_le.mp hR
  constructor <;> rw [abs_le] <;> constructor <;> linarith

/-- Error analysis of the scaling back of `NewDecimalFromFloat`, on rationals:
`g` is the rounded product of the integer `R` and `c ≈ 10^-(p+2)`. -/
theorem scaleback_bound (T c g B : ℚ) (R : ℤ) (hT1 : 1 ≤ T) (hT2 : T ≤ 10 ^ 18)
    (hB : B ≤ 2 ^ 53)
    (hR : |(R : ℚ) / 100| ≤ B) (hc : |c * (T * 100) - 1| ≤ 1 / 2 ^ 53)
    (hg : Rnd ((R : ℚ) * c) g) :
    |g * T - (R : ℚ) / 100| ≤ B / 2 ^ 52 + 1 / 2 ^ 52 := by
  have hT0 : (0 : ℚ) < T := by linarith
  have hB0 : 0 ≤ B := le_trans (abs_nonneg _) hR
  have h1 := mul_near_one ((R : ℚ) / 100) (c * (T * 100)) _ _ hR hc
  obtain ⟨h1a, h1b⟩ := abs_le.mp h1
  obtain ⟨hR1, hR2⟩ := abs_le.mp hR
  have he : (R : ℚ) * c * T = (R : ℚ) / 100 * (c * (T * 100)) := by ring
  have hB' : |(R : ℚ) * c * T| ≤ B + 1 := by
    rw [he, abs_le]; constructor <;> linarith
  have h2 := hg.scaled T _ hT0 hT2 hB'
  rw [he] at h2
  obtain ⟨h2a, h2b⟩ := abs_le.mp h2
  rw [abs_le]; constructor <;> linarith

theorem int_nonneg_of_gt (z : ℤ) (h : (-1 : ℚ) < z) : (0 : ℚ) ≤ z := by
  have h1 : (-1 : ℤ) < z := by exact_mod_cast h
  have h2 : (0 : ℤ) ≤ z := by omega
  exact_mod_cast h2

theorem int_nonpos_of_lt (z : ℤ) (h : (z : ℚ) < 1) : (z : ℚ) ≤ 0 := by
  have h1 : z < (1 : ℤ) := by exact_mod_cast h
  have h2 : z ≤ (0 : ℤ) := by omega
  exact_mod_cast h2

set_option maxHeartbeats 1000000 in
/-- `NewDecimalFromFloat` on a finite float `y` that, in units of `10^-p`, lies
within `E` of the integer `K`: `K` is what is stored, split at the integer
part of `y`, as long as the error budget `E + 5 Bf / 2^53 + 1/200` stays
below one half, where `Bf` bounds the fractional part in units of `10^-p`
(`10^p` always does, and so does `|K| + 1`).  The five roundings are those of
the pre-rounding (one), of the scaling back (two) and of the last step (two);
`1/200` is the pre-rounding to `p + 2` digits. -/
theorem newDecimalFromFloat_spec (y : F64) (p : Nat) (K : ℤ) (E Bf : ℚ)
    (hy : isFinite y = true) (hp : p ≤ 18) (hK : |K| ≤ 2 ^ 53)
    (hcl : |toRat y * (10 : ℚ) ^ p - K| ≤ E)
    (hBf : (10 : ℚ) ^ p ≤ Bf ∨ |(K : ℚ)| + 1 ≤ Bf)
    (hE : E + 5 * Bf / 2 ^ 53 + 1 / 200 + 1 / 2 ^ 39 ≤ 1 / 2) :
    ∃ W : ℤ, NewDecimalFromFloat y p = ⟨W, K - W * 10 ^ p, p, 44, 46⟩
      ∧ |(W : ℚ) * (10 : ℚ) ^ p| ≤ |(K : ℚ)| + 1 ∧ toRat (modf y).1 = W
      ∧ |((K - W * 10 ^ p : ℤ) : ℚ)| ≤ Bf + 1
      ∧ (0 ≤ toRat y → 0 ≤ W ∧ 0 ≤ K - W * 10 ^ p)
      ∧ (toRat y ≤ 0 → W ≤ 0 ∧ K - W * 10 ^ p ≤ 0) := by
  obtain ⟨hT1, hT2⟩ := ten_pow_bounds p hp
  have hKq : |(K : ℚ)| ≤ 2 ^ 53 := by
    have : ((|K| : ℤ) : ℚ) ≤ ((2 ^ 53 : ℤ) : ℚ) := by exact_mod_cast hK
    rw [Int.cast_abs] at this
    simpa using this
  have hE0 : 0 ≤ E := le_trans (abs_nonneg _) hcl
  have hBf0 : 1 ≤ Bf := by
    rcases hBf with h | h
    · linarith
    · have := abs_nonneg (K : ℚ); linarith
  have hBf53 : Bf ≤ 2 ^ 50 := by linarith
  have hE2 : E ≤ 1 / 2 := by linarith
  have hw2 : wrapUint64 ((p : ℤ) + 2) = p + 2 := by
    have := wrapUint64_small (p + 2) (by omega)
    push_cast at this
    exact this
  obtain ⟨hP1, hP2⟩ := pow10Pos_spec (p + 2) (by omega)
  obtain ⟨hc1, hc2, hc3⟩ := pow10Neg_spec (p + 2) (by omega)
  have h100 : (10 : ℚ) ^ (p + 2) = (10 : ℚ) ^ p * 100 := by rw [pow_add]; norm_num
  rw [h100] at hP2 hc3
  unfold NewDecimalFromFloat
  simp only [hw2]
  obtain ⟨hw, hf, W, hW, hY, hF, hpos, hneg⟩ := modf_spec y hy
  rcases hm : modf y with ⟨w, f⟩
  rw [hm] at hw hf hW hY hF hpos hneg
  simp only [] at hw hf hW hY hF hpos hneg ⊢
  obtain ⟨T, hTd⟩ : ∃ T : ℚ, (10 : ℚ) ^ p = T := ⟨_, rfl⟩
  rw [hTd] at hT1 hT2 hcl hP2 hc3 hBf
  have hT0 : (0 : ℚ) < T := by linarith
  obtain ⟨hcl1, hcl2⟩ := abs_le.mp hcl
  obtain ⟨hK1, hK2⟩ := abs_le.mp hKq
  have hKa := le_abs_self (K : ℚ)
  have hKb := neg_abs_le (K : ℚ)
  obtain ⟨hF1, hF2⟩ := abs_lt.mp hF
  -- whole and fractional part have the sign of y
  have hWT : |(W : ℚ) * T| ≤ |(K : ℚ)| + 1 ∧ |toRat f * T| ≤ |(K : ℚ)| + 1 := by
    rcases le_total 0 (toRat y) with h | h
    · obtain ⟨h1, h2⟩ := hpos h
      have h3 : 0 ≤ (W : ℚ) * T := mul_nonneg h1 hT0.le
      have h4 : 0 ≤ toRat f * T := mul_nonneg h2 hT0.le
      have h5 : toRat y * T = (W : ℚ) * T + toRat f * T := by rw [hY]; ring
      constructor <;> rw [abs_le] <;> constructor <;> linarith
    · obtain ⟨h1, h2⟩ := hneg h
      have h3 : (W : ℚ) * T ≤ 0 := mul_nonpos_of_nonpos_of_nonneg h1 hT0.le
      have h4 : toRat f * T ≤ 0 := mul_nonpos_of_nonpos_of_nonneg h2 hT0.le
      have h5 : toRat y * T = (W : ℚ) * T + toRat f * T := by rw [hY]; ring
      constructor <;> rw [abs_le] <;> constructor <;> linarith
  obtain ⟨hWT1, hfT0⟩ := hWT
  have hfT1 : |toRat f * T| ≤ Bf := by
    rcases hBf with h | h
    · rw [abs_mul, abs_of_pos hT0]
      have h1 : |toRat f| * T ≤ 1 * T := mul_le_mul_of_nonneg_right hF.le hT0.le
      linarith
    · linarith
  obtain ⟨hfT1a, hfT1b⟩ := abs_le.mp hfT1
  have hWb : |(W : ℚ)| ≤ 2 ^ 53 + 1 := by
    have := abs_le_abs_mul (W : ℚ) T hT1
    linarith
  have htq : ((K - W * 10 ^ p : ℤ) : ℚ) = (K : ℚ) - (W : ℚ) * T := by
    push_cast; rw [hTd]
  have hFt : |toRat f * T - ((K - W * 10 ^ p : ℤ) : ℚ)| ≤ E := by
    rw [htq]
    have : toRat f * T - ((K : ℚ) - (W : ℚ) * T) = toRat y * T - K := by rw [hY]; ring
    rw [this]; exact hcl
  obtain ⟨hFt1, hFt2⟩ := abs_le.mp hFt
  -- the pre-rounded fraction
  obtain ⟨hnf1, hnf2⟩ := mul_rnd f (pow10Pos (p + 2)) hf hP1 (by
    apply le_two_pow_1023
    rw [hP2, ← mul_assoc, abs_mul, abs_of_pos (by norm_num : (0 : ℚ) < 100)]
    linarith)
  rw [hP2] at hnf2
  generalize mul f (pow10Pos (p + 2)) = nf at hnf1 hnf2 ⊢
  obtain ⟨hR1, R, hR2, hR3, hR4, hR5⟩ := round_spec nf hnf1
  generalize round nf = rnf at hR1 hR2 ⊢
  obtain ⟨hpb1, hpb2⟩ := preround_bound T (toRat f) (toRat nf) Bf R (by linarith) hfT1 hnf2 hR3
  obtain ⟨hpb1a, hpb1b⟩ := abs_le.mp hpb1
  obtain ⟨hpb2a, hpb2b⟩ := abs_le.mp hpb2
  have hc2T : toRat (pow10Neg (p + 2)) ≤ 1 := by
    have h1 : toRat (pow10Neg (p + 2)) * 100 ≤ toRat (pow10Neg (p + 2)) * (T * 100) :=
      mul_le_mul_of_nonneg_left (by linarith) hc2.le
    have := (abs_le.mp hc3).2
    norm_num at this
    linarith
  obtain ⟨hg1, hg2⟩ := mul_rnd rnf (pow10Neg (p + 2)) hR1 hc1 (by
    apply le_two_pow_1023
    rw [hR2, abs_mul, abs_of_pos hc2]
    have hRabs : |(R : ℚ)| ≤ 2 ^ 60 := by
      rw [abs_le]; constructor <;> linarith
    calc |(R : ℚ)| * toRat (pow10Neg (p + 2)) ≤ 2 ^ 60 * 1 :=
          mul_le_mul hRabs hc2T hc2.le (by norm_num)
      _ ≤ 2 ^ 100 := by norm_num)
  rw [hR2] at hg2
  have hsb := scaleback_bound T _ _ (Bf + 2) R hT1 hT2 (by linarith) hpb2 hc3 hg2
  obtain ⟨hsb1, hsb2⟩ := abs_le.mp hsb
  -- sign of the rescaled fraction
  have hgpos : 0 ≤ toRat y → 0 ≤ toRat (mul rnf (pow10Neg (p + 2))) := by
    intro h
    obtain ⟨h1, h2⟩ := hpos h
    have h3 : 0 ≤ toRat f * (T * 100) := mul_nonneg h2 (by linarith)
    have h4 := hnf2.2.2.1 h3
    have h5 := hR4 h4
    exact hg2.2.2.1 (mul_nonneg h5 hc2.le)
  generalize mul rnf (pow10Neg (p + 2)) = g at hg1 hg2 hsb hsb1 hsb2 hgpos ⊢
  have hcl' : |toRat g * T - ((K - W * 10 ^ p : ℤ) : ℚ)|
      ≤ E + 3 * Bf / 2 ^ 53 + 1 / 200 + 1 / 2 ^ 49 := by
    rw [abs_le]; constructor <;> linarith
  obtain ⟨hcl'1, hcl'2⟩ := abs_le.mp hcl'
  have ht : |((K - W * 10 ^ p : ℤ) : ℚ)| ≤ Bf + 1 := by
    rw [abs_le]; constructor <;> linarith
  have htpos : 0 ≤ toRat y → (0 : ℚ) ≤ ((K - W * 10 ^ p : ℤ) : ℚ) := by
    intro h
    apply int_nonneg_of_gt
    obtain ⟨h3, h4⟩ := hpos h
    have h5 : 0 ≤ toRat f * T := mul_nonneg h4 hT0.le
    linarith
  have htneg : toRat y ≤ 0 → ((K - W * 10 ^ p : ℤ) : ℚ) ≤ 0 := by
    intro h
    apply int_nonpos_of_lt
    obtain ⟨h3, h4⟩ := hneg h
    have h5 : toRat f * T ≤ 0 := mul_nonpos_of_nonpos_of_nonneg h4 hT0.le
    linarith
  have hflag : ((ltZero w || ltZero g) = false ∧ 0 ≤ ((K - W * 10 ^ p : ℤ) : ℚ))
      ∨ ((ltZero w || ltZero g) = true ∧ ((K - W * 10 ^ p : ℤ) : ℚ) ≤ 0) := by
    have hlw := ltZero_iff w hw
    have hlg := ltZero_iff g hg1
    rw [hW] at hlw
    by_cases hb : (ltZero w || ltZero g) = true
    · right
      refine ⟨hb, ?_⟩
      rcases le_total 0 (toRat y) with h | h
      · exfalso
        obtain ⟨h3, h4⟩ := hpos h
        have h5 := hgpos h
        rw [Bool.or_eq_true] at hb
        rcases hb with hb | hb
        · have := hlw.mp hb; linarith
        · have := hlg.mp hb; linarith
      · exact htneg h
    · left
      have hb' : (ltZero w || ltZero g) = false := by simpa using hb
      refine ⟨hb', ?_⟩
      apply int_nonneg_of_gt
      rw [Bool.or_eq_false_iff] at hb'
      have h3 : ¬ toRat g < 0 := fun h => by
        have := hlg.mpr h
        rw [hb'.2] at this
        exact Bool.false_ne_true this
      have h4 : 0 ≤ toRat g * T := mul_nonneg (not_lt.mp h3) hT0.le
      linarith
  have hfrac := fraction_spec w g p (K - W * 10 ^ p) (Bf + 1)
    (E + 3 * Bf / 2 ^ 53 + 1 / 200 + 1 / 2 ^ 49) hg1 hp (by linarith) ht
    (by rw [hTd]; exact hcl') (by linarith) hflag
  obtain ⟨hWi1, hWi2⟩ := int_abs_le_of_cast W (2 ^ 53 + 1) (by push_cast; linarith)
  have hwhole : toInt64 w = W := by
    apply toInt64_eq w hw W (by push_cast at hWi1; omega) (by push_cast at hWi2; omega)
    rw [hW]
    rcases le_total 0 (W : ℚ) with h | h
    · left; exact ⟨h, le_rfl, lt_add_one _⟩
    · right; exact ⟨h, sub_one_lt _, le_rfl⟩
  refine ⟨W, ?_, ?_, hW, ht, ?_, ?_⟩
  · rw [hfrac, hwhole]; rfl
  · rw [← hTd] at hWT1; exact hWT1
  · intro h
    obtain ⟨h1, -⟩ := hpos h
    exact ⟨Int.cast_nonneg.mp h1, Int.cast_nonneg.mp (htpos h)⟩
  · intro h
    obtain ⟨h1, -⟩ := hneg h
    exact ⟨Int.cast_nonpos.mp h1, Int.cast_nonpos.mp (htneg h)⟩

/-! ### `ToInt` -/

/-- `ToInt` on a Decimal of precision at most 18 whose scaled value fits well
inside `int64`: no wrap-around happens. -/
theorem toInt_eq (W t : ℤ) (p dp ts : Nat) (hp : p ≤ 18)
    (h1 : |W * 10 ^ p| ≤ 2 ^ 61) (h2 : |t| ≤ 2 ^ 61) :
    ToInt ⟨W, t, p, dp, ts⟩ = W * 10 ^ p + t := by
  unfold ToInt
  simp only []
  rw [toInt64_pow10Pos p hp]
  obtain ⟨h1a, h1b⟩ := abs_le.mp h1
  obtain ⟨h2a, h2b⟩ := abs_le.mp h2
  have hw : wrapInt64 (W * 10 ^ p) = W * 10 ^ p := wrapInt64_small _ (by omega) (by omega)
  rw [hw]
  exact wrapInt64_small _ (by omega) (by omega)

theorem int_abs_le_of_rat (x : ℤ) (B : ℕ) (h : |(x : ℚ)| ≤ (B : ℚ)) : |x| ≤ (B : ℤ) := by
  obtain ⟨h1, h2⟩ := int_abs_le_of_cast x B h
  exact abs_le.mpr ⟨h1, h2⟩

/-- The scaled integer of what `NewDecimalFromFloat` stores, under the
hypotheses of `newDecimalFromFloat_spec`. -/
theorem newDecimalFromFloat_toInt (y : F64) (p : Nat) (K : ℤ) (E Bf : ℚ)
    (hy : isFinite y = true) (hp : p ≤ 18) (hK : |K| ≤ 2 ^ 53)
    (hcl : |toRat y * (10 : ℚ) ^ p - K| ≤ E)
    (hBf : (10 : ℚ) ^ p ≤ Bf ∨ |(K : ℚ)| + 1 ≤ Bf)
    (hE : E + 5 * Bf / 2 ^ 53 + 1 / 200 + 1 / 2 ^ 39 ≤ 1 / 2) :
    ToInt (NewDecimalFromFloat y p) = K ∧ (NewDecimalFromFloat y p).precision = p := by
  obtain ⟨W, hW, hb, -, -, -, -⟩ := newDecimalFromFloat_spec y p K E Bf hy hp hK hcl hBf hE
  rw [hW]
  refine ⟨?_, rfl⟩
  have hKq : |(K : ℚ)| ≤ 2 ^ 53 := by
    have : ((|K| : ℤ) : ℚ) ≤ ((2 ^ 53 : ℤ) : ℚ) := by exact_mod_cast hK
    rw [Int.cast_abs] at this
    simpa using this
  have hWi : |W * 10 ^ p| ≤ ((2 ^ 53 + 1 : ℕ) : ℤ) := by
    apply int_abs_le_of_rat
    push_cast
    linarith
  obtain ⟨h1, h2⟩ := abs_le.mp hWi
  obtain ⟨h3, h4⟩ := abs_le.mp hK
  push_cast at h1 h2
  rw [toInt_eq W _ p 44 46 hp (by rw [abs_le]; constructor <;> omega)
    (by rw [abs_le]; constructor <;> omega)]
  ring

/-! ### `ToFloat` -/

/-- Error analysis of `ToFloat`, on rationals: `m` is the rounded product of
the fraction and `c ≈ 10^-p`, `x` the rounded sum with the whole part; `BW`
bounds the scaled whole part and `Bf` the fraction.  The fraction meets three
roundings, the whole part one. -/
theorem toFloat_bound (T c m x BW Bf : ℚ) (W fr : ℤ) (hT1 : 1 ≤ T) (hT2 : T ≤ 10 ^ 18)
    (hW : |(W : ℚ) * T| ≤ BW) (hf : |(fr : ℚ)| ≤ Bf) (hc : |c * T - 1| ≤ 1 / 2 ^ 53)
    (hm : Rnd ((fr : ℚ) * c) m) (hx : Rnd ((W : ℚ) + m) x) :
    |x * T - ((W : ℚ) * T + fr)| ≤ (BW + 3 * Bf) / 2 ^ 53 + 4 * Bf / 2 ^ 106 + 3 / 10 ^ 42 := by
  have hT0 : (0 : ℚ) < T := by linarith
  have hB0 : 0 ≤ Bf := le_trans (abs_nonneg _) hf
  have hBW0 : 0 ≤ BW := le_trans (abs_nonneg _) hW
  have h1 := mul_near_one (fr : ℚ) (c * T) Bf _ hf hc
  obtain ⟨h1a, h1b⟩ := abs_le.mp h1
  obtain ⟨hf1, hf2⟩ := abs_le.mp hf
  obtain ⟨hW1, hW2⟩ := abs_le.mp hW
  have hB1 : |(fr : ℚ) * c * T| ≤ Bf + Bf / 2 ^ 53 := by
    rw [mul_assoc, abs_le]; constructor <;> linarith
  have h2 := hm.scaled T _ hT0 hT2 hB1
  rw [mul_assoc] at h2
  obtain ⟨h2a, h2b⟩ := abs_le.mp h2
  have hB2 : |((W : ℚ) + m) * T| ≤ BW + Bf + 2 * Bf / 2 ^ 53 + Bf / 2 ^ 106 + 1 / 10 ^ 42 := by
    rw [add_mul, abs_le]; constructor <;> linarith
  have h3 := hx.scaled T _ hT0 hT2 hB2
  rw [add_mul] at h3
  obtain ⟨h3a, h3b⟩ := abs_le.mp h3
  rw [abs_le]; constructor <;> linarith

/-- `ToFloat`, read in units of `10^-m` for a precision `m ≥ d.precision`:
the scaled integer of the Decimal, up to one rounding of the whole part and
three of the fraction, both scaled to `m` digits. -/
theorem toFloat_scaled (d : Decimal) (m : Nat) (BW Bf : ℚ) (hm : m ≤ 18)
    (hpm : d.precision ≤ m) (hBW : BW ≤ 2 ^ 52) (hBf : Bf ≤ 2 ^ 52)
    (hW : |(d.whole : ℚ)| * (10 : ℚ) ^ m ≤ BW)
    (hf : |(d.fraction : ℚ)| * (10 : ℚ) ^ (m - d.precision) ≤ Bf) :
    isFinite (ToFloat d) = true
    ∧ |toRat (ToFloat d) * (10 : ℚ) ^ m
        - ((d.whole : ℚ) * (10 : ℚ) ^ d.precision + d.fraction)
          * (10 : ℚ) ^ (m - d.precision)| ≤ (BW + 3 * Bf) / 2 ^ 53 + 1 / 2 ^ 50 := by
  obtain ⟨W, fr, p, dp, ts⟩ := d
  simp only [] at hpm hW hf ⊢
  have hp : p ≤ 18 := by omega
  obtain ⟨hT1, hT2⟩ := ten_pow_bounds p hp
  obtain ⟨hS1, hS2⟩ := ten_pow_bounds (m - p) (by omega)
  have hTm : (10 : ℚ) ^ m = (10 : ℚ) ^ p * (10 : ℚ) ^ (m - p) := by
    rw [← pow_add]; congr 1; omega
  rw [hTm] at hW ⊢
  obtain ⟨hc1, hc2, hc3⟩ := pow10Neg_spec p (by omega)
  unfold ToFloat
  simp only []
  generalize (10 : ℚ) ^ p = T at hT1 hT2 hW hc3 ⊢
  generalize (10 : ℚ) ^ (m - p) = S at hS1 hS2 hW hf ⊢
  have hT0 : (0 : ℚ) < T := by linarith
  have hS0 : (0 : ℚ) < S := by linarith
  have hBW0 : 0 ≤ BW := le_trans (mul_nonneg (abs_nonneg _) (mul_pos hT0 hS0).le) hW
  have hBf0 : 0 ≤ Bf := le_trans (mul_nonneg (abs_nonneg _) hS0.le) hf
  have hWq : |(W : ℚ)| ≤ 2 ^ 52 := by
    have h1 : |(W : ℚ)| * 1 ≤ |(W : ℚ)| * (T * S) :=
      mul_le_mul_of_nonneg_left (one_le_mul_of_one_le_of_one_le hT1 hS1) (abs_nonneg _)
    linarith
  have hfq : |(fr : ℚ)| ≤ 2 ^ 52 := by
    have h1 : |(fr : ℚ)| * 1 ≤ |(fr : ℚ)| * S :=
      mul_le_mul_of_nonneg_left hS1 (abs_nonneg _)
    linarith
  have hWi : |W| < 2 ^ 53 := by
    have := int_abs_le_of_rat W (2 ^ 52) (by push_cast; exact hWq)
    exact lt_of_le_of_lt this (by norm_num)
  have hfi : |fr| < 2 ^ 53 := by
    have := int_abs_le_of_rat fr (2 ^ 52) (by push_cast; exact hfq)
    exact lt_of_le_of_lt this (by norm_num)
  obtain ⟨hw1, hw2⟩ := ofInt_exact W hWi
  obtain ⟨hf1, hf2⟩ := ofInt_exact fr hfi
  have hcT : toRat (pow10Neg p) ≤ 2 := by
    have h1 : toRat (pow10Neg p) ≤ toRat (pow10Neg p) * T :=
      le_mul_of_one_le_right hc2.le hT1
    have := (abs_le.mp hc3).2
    norm_num at this
    linarith
  obtain ⟨hm1, hm2⟩ := mul_rnd (ofInt fr) (pow10Neg p) hf1 hc1 (by
    apply le_two_pow_1023
    rw [hf2, abs_mul, abs_of_pos hc2]
    calc |(fr : ℚ)| * toRat (pow10Neg p) ≤ 2 ^ 52 * 2 :=
          mul_le_mul hfq hcT hc2.le (by norm_num)
      _ ≤ 2 ^ 100 := by norm_num)
  rw [hf2] at hm2
  generalize mul (ofInt fr) (pow10Neg p) = mf at hm1 hm2 ⊢
  -- bound of the product before the sum
  have hmfb : |toRat mf| ≤ 2 ^ 54 := by
    have h1 := hm2.1
    rw [u_eq] at h1
    have h2 := eta_small
    have h3 : |(fr : ℚ) * toRat (pow10Neg p)| ≤ 2 ^ 53 := by
      rw [abs_mul, abs_of_pos hc2]
      calc |(fr : ℚ)| * toRat (pow10Neg p) ≤ 2 ^ 52 * 2 :=
            mul_le_mul hfq hcT hc2.le (by norm_num)
        _ = 2 ^ 53 := by norm_num
    obtain ⟨h4, h5⟩ := abs_le.mp h1
    obtain ⟨h6, h7⟩ := abs_le.mp h3
    rw [abs_le]; constructor <;> linarith
  obtain ⟨hx1, hx2⟩ := add_rnd (ofInt W) mf hw1 hm1 (by
    apply le_two_pow_1023
    rw [hw2]
    have := abs_add (W : ℚ) (toRat mf)
    linarith)
  rw [hw2] at hx2
  refine ⟨hx1, ?_⟩
  have hB1 : |(W : ℚ) * T| ≤ BW / S := by
    rw [le_div_iff₀ hS0, abs_mul, abs_of_pos hT0]
    linarith
  have hB2 : |(fr : ℚ)| ≤ Bf / S := by
    rw [le_div_iff₀ hS0]; exact hf
  have hb := toFloat_bound T _ _ _ _ _ W fr hT1 hT2 hB1 hB2 hc3 hm2 hx2
  generalize toRat (add (ofInt W) mf) = X at hb ⊢
  have he : X * (T * S) - ((W : ℚ) * T + fr) * S = (X * T - ((W : ℚ) * T + fr)) * S := by ring
  rw [he, abs_mul, abs_of_pos hS0]
  have h1 : |X * T - ((W : ℚ) * T + fr)| * S
      ≤ ((BW / S + 3 * (Bf / S)) / 2 ^ 53 + 4 * (Bf / S) / 2 ^ 106 + 3 / 10 ^ 42) * S :=
    mul_le_mul_of_nonneg_right hb hS0.le
  have h2 : ((BW / S + 3 * (Bf / S)) / 2 ^ 53 + 4 * (Bf / S) / 2 ^ 106 + 3 / 10 ^ 42) * S
      = (BW + 3 * Bf) / 2 ^ 53 + 4 * Bf / 2 ^ 106 + 3 / 10 ^ 42 * S := by
    field_simp
    ring
  rw [h2] at h1
  have h3 : (3 : ℚ) / 10 ^ 42 * S ≤ 3 / 10 ^ 42 * 10 ^ 18 :=
    mul_le_mul_of_nonneg_left hS2 (by norm_num)
  linarith

/-! ### `Add` -/

/-- The scaled integer of a Decimal at a precision `m` at least its own:
`(whole * 10^p + fraction) * 10^(m-p)` is bounded by the two scaled parts. -/
theorem scaled_abs_le (W fr : ℤ) (T S : ℚ) (hS0 : 0 < S) (hT0 : 0 < T) :
    |((W : ℚ) * T + fr) * S| ≤ |(W : ℚ)| * (T * S) + |(fr : ℚ)| * S := by
  rw [add_mul]
  have := abs_add ((W : ℚ) * T * S) ((fr : ℚ) * S)
  rw [abs_mul (fr : ℚ), abs_of_pos hS0, abs_mul ((W : ℚ) * T), abs_mul (W : ℚ),
    abs_of_pos hS0, abs_of_pos hT0] at this
  linarith

set_option maxHeartbeats 1000000 in
/-- `Add` is exact within an error budget.  With `m = max p q ≤ 18`, `BW` a
bound of the two whole parts and `BF` of the two fractions, all scaled to `m`
digits, and `Bfr` a bound of the fraction of the result (`10^m`, or the whole
magnitude), the budget is: two roundings of the whole parts, four of the
fractions, five of the result fraction and the half percent of the
pre-rounding. -/
theorem add_spec (a b : Decimal) (BW BF Bfr : ℚ) (hp : a.precision ≤ 18)
    (hq : b.precision ≤ 18)
    (hW : |(a.whole : ℚ)| * (10 : ℚ) ^ (Max.max a.precision b.precision)
      + |(b.whole : ℚ)| * (10 : ℚ) ^ (Max.max a.precision b.precision) ≤ BW)
    (hF : |(a.fraction : ℚ)| * (10 : ℚ) ^ (Max.max a.precision b.precision - a.precision)
      + |(b.fraction : ℚ)| * (10 : ℚ) ^ (Max.max a.precision b.precision - b.precision) ≤ BF)
    (hB : (10 : ℚ) ^ (Max.max a.precision b.precision) ≤ Bfr ∨ BW + BF + 1 ≤ Bfr)
    (hE : (2 * BW + 4 * BF + 5 * Bfr) / 2 ^ 53 + 1 / 200 + 1 / 2 ^ 38 ≤ 1 / 2) :
    ToInt (Add a b)
      = (a.whole * 10 ^ a.precision + a.fraction)
          * 10 ^ (Max.max a.precision b.precision - a.precision)
        + (b.whole * 10 ^ b.precision + b.fraction)
          * 10 ^ (Max.max a.precision b.precision - b.precision)
    ∧ (Add a b).precision = Max.max a.precision b.precision := by
  have hmp : maxPrecision a.precision b.precision = Max.max a.precision b.precision :=
    maxPrecision_eq _ _ (le_trans hp (by norm_num)) (le_trans hq (by norm_num))
  unfold Add
  simp only [hmp]
  generalize hm : Max.max a.precision b.precision = m at hW hF hB ⊢
  have hm18 : m ≤ 18 := by rw [← hm]; exact max_le hp hq
  have hpm : a.precision ≤ m := by rw [← hm]; exact le_max_left _ _
  have hqm : b.precision ≤ m := by rw [← hm]; exact le_max_right _ _
  obtain ⟨hT1, hT2⟩ := ten_pow_bounds m hm18
  have hTa : (10 : ℚ) ^ m = (10 : ℚ) ^ a.precision * (10 : ℚ) ^ (m - a.precision) := by
    rw [← pow_add]; congr 1; omega
  have hTb : (10 : ℚ) ^ m = (10 : ℚ) ^ b.precision * (10 : ℚ) ^ (m - b.precision) := by
    rw [← pow_add]; congr 1; omega
  have haW0 : 0 ≤ |(a.whole : ℚ)| * (10 : ℚ) ^ m := by positivity
  have hbW0 : 0 ≤ |(b.whole : ℚ)| * (10 : ℚ) ^ m := by positivity
  have haf0 : 0 ≤ |(a.fraction : ℚ)| * (10 : ℚ) ^ (m - a.precision) := by positivity
  have hbf0 : 0 ≤ |(b.fraction : ℚ)| * (10 : ℚ) ^ (m - b.precision) := by positivity
  have hBfr0 : 0 ≤ Bfr := by
    rcases hB with h | h <;> linarith
  have hA := scaled_abs_le a.whole a.fraction ((10 : ℚ) ^ a.precision)
    ((10 : ℚ) ^ (m - a.precision)) (by positivity) (by positivity)
  have hB' := scaled_abs_le b.whole b.fraction ((10 : ℚ) ^ b.precision)
    ((10 : ℚ) ^ (m - b.precision)) (by positivity) (by positivity)
  rw [← hTa] at hA
  rw [← hTb] at hB'
  obtain ⟨hx1, hx2⟩ := toFloat_scaled a m _ _ hm18 hpm (by linarith) (by linarith) le_rfl le_rfl
  obtain ⟨hy1, hy2⟩ := toFloat_scaled b m _ _ hm18 hqm (by linarith) (by linarith) le_rfl le_rfl
  set K : ℤ := (a.whole * 10 ^ a.precision + a.fraction) * 10 ^ (m - a.precision)
        + (b.whole * 10 ^ b.precision + b.fraction) * 10 ^ (m - b.precision) with hKdef
  have hKq : (K : ℚ) = ((a.whole : ℚ) * (10 : ℚ) ^ a.precision + a.fraction)
        * (10 : ℚ) ^ (m - a.precision)
      + ((b.whole : ℚ) * (10 : ℚ) ^ b.precision + b.fraction)
        * (10 : ℚ) ^ (m - b.precision) := by
    rw [hKdef]; push_cast; ring
  generalize ((a.whole : ℚ) * (10 : ℚ) ^ a.precision + a.fraction)
    * (10 : ℚ) ^ (m - a.precision) = QA at hx2 hA hKq
  generalize ((b.whole : ℚ) * (10 : ℚ) ^ b.precision + b.fraction)
    * (10 : ℚ) ^ (m - b.precision) = QB at hy2 hB' hKq
  generalize |(a.whole : ℚ)| * (10 : ℚ) ^ m = wa at hW haW0 hA hx2
  generalize |(b.whole : ℚ)| * (10 : ℚ) ^ m = wb at hW hbW0 hB' hy2
  generalize |(a.fraction : ℚ)| * (10 : ℚ) ^ (m - a.precision) = fa at hF haf0 hA hx2
  generalize |(b.fraction : ℚ)| * (10 : ℚ) ^ (m - b.precision) = fb at hF hbf0 hB' hy2
  generalize ToFloat a = x at hx1 hx2 ⊢
  generalize ToFloat b = y at hy1 hy2 ⊢
  obtain ⟨T, hTd⟩ : ∃ T : ℚ, (10 : ℚ) ^ m = T := ⟨_, rfl⟩
  rw [hTd] at hT1 hT2 hx2 hy2 hB
  have hT0 : (0 : ℚ) < T := by linarith
  obtain ⟨hx2a, hx2b⟩ := abs_le.mp hx2
  obtain ⟨hy2a, hy2b⟩ := abs_le.mp hy2
  obtain ⟨hA1, hA2⟩ := abs_le.mp hA
  obtain ⟨hB1, hB2⟩ := abs_le.mp hB'
  have hsumT : |(toRat x + toRat y) * T| ≤ BW + BF + 1 := by
    rw [add_mul, abs_le]; constructor <;> linarith
  obtain ⟨hs1, hs2⟩ := add_rnd x y hx1 hy1 (by
    apply le_two_pow_1023
    have := abs_le_abs_mul (toRat x + toRat y) T hT1
    linarith)
  have hsc := hs2.scaled T _ hT0 hT2 hsumT
  rw [add_mul] at hsc
  obtain ⟨hsc1, hsc2⟩ := abs_le.mp hsc
  have hKabs : |(K : ℚ)| ≤ BW + BF := by
    rw [hKq, abs_le]; constructor <;> linarith
  have hK : |K| ≤ 2 ^ 53 := by
    have : |(K : ℚ)| ≤ ((2 ^ 53 : ℕ) : ℚ) := by
      push_cast; linarith
    have := int_abs_le_of_rat K (2 ^ 53) this
    simpa using this
  have hcl : |toRat (add x y) * T - K|
      ≤ (2 * BW + 4 * BF) / 2 ^ 53 + 1 / 2 ^ 48 := by
    rw [hKq, abs_le]; constructor <;> linarith
  rw [← hTd] at hcl hB
  obtain ⟨h1, h2⟩ := newDecimalFromFloat_toInt (add x y) m K _ Bfr hs1 hm18 hK hcl
    (by rcases hB with h | h
        · left; exact h
        · right; linarith)
    (by linarith)
  exact ⟨h1, h2⟩

/-! ### `Split`: the base amount -/

/-- A rounding, scaled by a positive factor up to `10^35`. -/
theorem Rnd.scaled_wide {X r : ℚ} (h : Rnd X r) (T B : ℚ) (hT1 : 0 < T) (hT2 : T ≤ 10 ^ 35)
    (hB : |X * T| ≤ B) :
    |r * T - X * T| ≤ B / 2 ^ 53 + 1 / 10 ^ 25 := by
  have h1 := h.1
  rw [u_eq] at h1
  have h2 := eta_small
  have h3 : |r * T - X * T| = |r - X| * T := by
    rw [← sub_mul, abs_mul, abs_of_pos hT1]
  have h4 : |X * T| = |X| * T := by rw [abs_mul, abs_of_pos hT1]
  rw [h3]
  rw [h4] at hB
  have h5 : |r - X| * T ≤ (|X| * (1 / 2 ^ 53) + (2 : ℚ) ^ (-1075 : ℤ)) * T :=
    mul_le_mul_of_nonneg_right h1 hT1.le
  have h6 : (2 : ℚ) ^ (-1075 : ℤ) * T ≤ 1 / 10 ^ 60 * 10 ^ 35 :=
    mul_le_mul h2 hT2 hT1.le (by norm_num)
  have h7 : (|X| * (1 / 2 ^ 53) + (2 : ℚ) ^ (-1075 : ℤ)) * T
      = |X| * T * (1 / 2 ^ 53) + (2 : ℚ) ^ (-1075 : ℤ) * T := by ring
  have h8 : |X| * T * (1 / 2 ^ 53) ≤ B * (1 / 2 ^ 53) :=
    mul_le_mul_of_nonneg_right hB (by norm_num)
  have h9 : (1 : ℚ) / 10 ^ 60 * 10 ^ 35 = 1 / 10 ^ 25 := by norm_num
  rw [h7] at h5
  calc |r - X| * T ≤ |X| * T * (1 / 2 ^ 53) + (2 : ℚ) ^ (-1075 : ℤ) * T := h5
    _ ≤ B * (1 / 2 ^ 53) + 1 / 10 ^ 60 * 10 ^ 35 := add_le_add h8 h6
    _ = B / 2 ^ 53 + 1 / 10 ^ 25 := by rw [h9]; ring

/-- Error analysis of the quotient of `Split`, on rationals, in units of
`10^-p` and multiplied by the number of parts `N`: `q0` is the rounded quotient
of `X` by `N`, `q1` its rounded product with `T = 10^p`. -/
theorem split_quot_bound (T N X q0 q1 a : ℚ) (hT1 : 1 ≤ T) (hT2 : T ≤ 10 ^ 18)
    (hN1 : 1 ≤ N) (hN2 : N ≤ 10 ^ 13) (ha : a ≤ 2 ^ 50)
    (hX : |X * T| ≤ a + 1) (h0 : Rnd (X / N) q0) (h1 : Rnd (q0 * T) q1) :
    |q0 * T| ≤ a + 2 ∧ |q1 * N| ≤ a + 2 ∧ |q1 * N - X * T| ≤ 1 / 2 := by
  have hT0 : (0 : ℚ) < T := by linarith
  have hN0 : (0 : ℚ) < N := by linarith
  have hTN0 : (0 : ℚ) < T * N := mul_pos hT0 hN0
  have hTN : T * N ≤ 10 ^ 35 := by
    calc T * N ≤ 10 ^ 18 * 10 ^ 13 := mul_le_mul hT2 hN2 hN0.le (by norm_num)
      _ ≤ 10 ^ 35 := by norm_num
  have he : X / N * (T * N) = X * T := by field_simp; ring
  have hs0 := h0.scaled_wide (T * N) (a + 1) hTN0 hTN (by rw [he]; exact hX)
  rw [he] at hs0
  obtain ⟨hs0a, hs0b⟩ := abs_le.mp hs0
  obtain ⟨hXa, hXb⟩ := abs_le.mp hX
  have hB1 : |q0 * T * N| ≤ a + 3 / 2 := by
    rw [mul_assoc, abs_le]; constructor <;> linarith
  have hs1 := h1.scaled_wide N _ hN0 (le_trans hN2 (by norm_num)) hB1
  obtain ⟨hs1a, hs1b⟩ := abs_le.mp hs1
  obtain ⟨hB1a, hB1b⟩ := abs_le.mp hB1
  rw [mul_assoc] at hs1a hs1b
  refine ⟨?_, ?_, ?_⟩
  · have h2 : |q0 * T| ≤ |q0 * T * N| := abs_le_abs_mul _ N hN1
    linarith
  · rw [mul_assoc] at hB1a hB1b
    rw [abs_le]; constructor <;> linarith
  · rw [abs_le]; constructor <;> linarith

/-- The relative form of `quotient_bound`: the rounded product of the integer
`J` and `c ≈ 10^-p`, in units of `10^-p`, multiplied by `N`. -/
theorem split_base_bound (T N c q a : ℚ) (J : ℤ) (hT1 : 1 ≤ T) (hT2 : T ≤ 10 ^ 18)
    (hN1 : 1 ≤ N) (hN2 : N ≤ 10 ^ 13) (ha : a ≤ 2 ^ 50)
    (hJ : |(J : ℚ)| * N ≤ a + 2) (hc : |c * T - 1| ≤ 1 / 2 ^ 53) (hq : Rnd ((J : ℚ) * c) q) :
    |q * T * N - (J : ℚ) * N| ≤ (a + 2) / 2 ^ 52 + 1 / 2 ^ 50
      ∧ |q * T - J| ≤ (a + 2) / 2 ^ 52 + 1 / 2 ^ 50 := by
  have hT0 : (0 : ℚ) < T := by linarith
  have hN0 : (0 : ℚ) < N := by linarith
  have hTN0 : (0 : ℚ) < T * N := mul_pos hT0 hN0
  have hTN : T * N ≤ 10 ^ 35 := by
    calc T * N ≤ 10 ^ 18 * 10 ^ 13 := mul_le_mul hT2 hN2 hN0.le (by norm_num)
      _ ≤ 10 ^ 35 := by norm_num
  have hJN : |(J : ℚ) * N| ≤ a + 2 := by rw [abs_mul, abs_of_pos hN0]; exact hJ
  have ha0 : 0 ≤ a + 2 := le_trans (abs_nonneg _) hJN
  have h1 := mul_near_one ((J : ℚ) * N) (c * T) _ _ hJN hc
  obtain ⟨h1a, h1b⟩ := abs_le.mp h1
  obtain ⟨hJ1, hJ2⟩ := abs_le.mp hJN
  have he : (J : ℚ) * c * (T * N) = (J : ℚ) * N * (c * T) := by ring
  have hB : |(J : ℚ) * c * (T * N)| ≤ a + 3 := by
    rw [he, abs_le]; constructor <;> linarith
  have h2 := hq.scaled_wide (T * N) _ hTN0 hTN hB
  rw [he] at h2
  obtain ⟨h2a, h2b⟩ := abs_le.mp h2
  have h3 : |q * T * N - (J : ℚ) * N| ≤ (a + 2) / 2 ^ 52 + 1 / 2 ^ 50 := by
    rw [abs_le]; constructor <;> linarith
  refine ⟨h3, ?_⟩
  have h4 : |q * T - J| ≤ |(q * T - J) * N| := abs_le_abs_mul _ N hN1
  have h5 : (q * T - J) * N = q * T * N - (J : ℚ) * N := by ring
  rw [h5] at h4
  linarith

/-! ### `Split`: the accumulated sum -/

/-- The accumulator of `Split` after `k ≤ n` additions of the base amount `q`:
in units of `10^-p` it is `k` times `q`, up to `k` rounding errors of size
`δ = (L + 1) / 2^53 + 10^-42`, where `L` bounds `n * |q|`. -/
theorem splitSum_spec (q : F64) (hq : isFinite q = true) (T L : ℚ) (n : Nat)
    (hT1 : 1 ≤ T) (hT2 : T ≤ 10 ^ 18) (hL : (n : ℚ) * |toRat q * T| ≤ L)
    (hδ : (n : ℚ) * ((L + 1) / 2 ^ 53 + 1 / 10 ^ 42) ≤ 1) :
    ∀ k : Nat, k ≤ n → isFinite (splitSum q k) = true
      ∧ |toRat (splitSum q k) * T - (k : ℚ) * (toRat q * T)|
          ≤ (k : ℚ) * ((L + 1) / 2 ^ 53 + 1 / 10 ^ 42) := by
  have hT0 : (0 : ℚ) < T := by linarith
  have hg0 : 0 ≤ |toRat q * T| := abs_nonneg _
  have hL0 : 0 ≤ L := le_trans (mul_nonneg (Nat.cast_nonneg _) hg0) hL
  have hδ0 : (0 : ℚ) ≤ (L + 1) / 2 ^ 53 + 1 / 10 ^ 42 := by positivity
  intro k
  induction k with
  | zero =>
    intro _
    refine ⟨by simp [splitSum, zero, isFinite], ?_⟩
    simp [splitSum, zero, toRat]
  | succ k ih =>
    intro hk
    obtain ⟨hf, hb⟩ := ih (by omega)
    have hkn : ((k : ℚ) + 1) ≤ (n : ℚ) := by exact_mod_cast hk
    have hk0 : (0 : ℚ) ≤ (k : ℚ) := Nat.cast_nonneg _
    have h1 : ((k : ℚ) + 1) * |toRat q * T| ≤ L :=
      le_trans (mul_le_mul_of_nonneg_right hkn hg0) hL
    have h2 : (k : ℚ) * ((L + 1) / 2 ^ 53 + 1 / 10 ^ 42) ≤ 1 :=
      le_trans (mul_le_mul_of_nonneg_right (by linarith) hδ0) hδ
    obtain ⟨hb1, hb2⟩ := abs_le.mp hb
    have hgl := le_abs_self (toRat q * T)
    have hgn := neg_abs_le (toRat q * T)
    have hkg : (k : ℚ) * (toRat q * T) ≤ (k : ℚ) * |toRat q * T| :=
      mul_le_mul_of_nonneg_left hgl hk0
    have hkg' : -((k : ℚ) * |toRat q * T|) ≤ (k : ℚ) * (toRat q * T) := by
      have := mul_le_mul_of_nonneg_left hgn hk0
      linarith
    have h1' : (k : ℚ) * |toRat q * T| + |toRat q * T| ≤ L := by
      have : ((k : ℚ) + 1) * |toRat q * T| = (k : ℚ) * |toRat q * T| + |toRat q * T| := by ring
      linarith
    have hB : |(toRat (splitSum q k) + toRat q) * T| ≤ L + 1 := by
      rw [add_mul, abs_le]
      constructor <;> linarith
    simp only [splitSum]
    obtain ⟨hs1, hs2⟩ := add_rnd (splitSum q k) q hf hq (by
      apply le_two_pow_1023
      have h3 := abs_le_abs_mul (toRat (splitSum q k) + toRat q) T hT1
      have h4 : L + 1 ≤ 2 ^ 100 := by
        have h5 : (L + 1) / 2 ^ 53 ≤ 1 := by
          rcases Nat.eq_zero_or_pos n with hn | hn
          · omega
          · have hn1 : (1 : ℚ) ≤ (n : ℚ) := by exact_mod_cast hn
            have h6 : (0 : ℚ) ≤ (1 : ℚ) / 10 ^ 42 := by norm_num
            have h7 : 0 ≤ (L + 1) / 2 ^ 53 := by positivity
            nlinarith
        rw [div_le_iff₀ (by norm_num)] at h5
        linarith
      linarith)
    refine ⟨hs1, ?_⟩
    have hsc := hs2.scaled T _ hT0 hT2 hB
    rw [add_mul] at hsc
    obtain ⟨hsc1, hsc2⟩ := abs_le.mp hsc
    push_cast
    have e1 : ((k : ℚ) + 1) * (toRat q * T) = (k : ℚ) * (toRat q * T) + toRat q * T := by ring
    have e2 : ((k : ℚ) + 1) * ((L + 1) / 2 ^ 53 + 1 / 10 ^ 42)
        = (k : ℚ) * ((L + 1) / 2 ^ 53 + 1 / 10 ^ 42) + ((L + 1) / 2 ^ 53 + 1 / 10 ^ 42) := by
      ring
    rw [e1, e2, abs_le]
    constructor <;> linarith

/-- What `NewDecimalFromFloat` stores, with bounds on the two parts: under the
hypotheses of `newDecimalFromFloat_spec`, whole and fraction add up to `K` and
have its sign, so that their magnitudes add up to `|K|`; the fraction is at
most `Bf + 1`. -/
theorem newDecimalFromFloat_parts (y : F64) (p : Nat) (K : ℤ) (E Bf : ℚ)
    (hy : isFinite y = true) (hp : p ≤ 18) (hK : |K| ≤ 2 ^ 53)
    (hcl : |toRat y * (10 : ℚ) ^ p - K| ≤ E)
    (hBf : (10 : ℚ) ^ p ≤ Bf ∨ |(K : ℚ)| + 1 ≤ Bf)
    (hE : E + 5 * Bf / 2 ^ 53 + 1 / 200 + 1 / 2 ^ 39 ≤ 1 / 2) :
    ∃ W fr : ℤ, NewDecimalFromFloat y p = ⟨W, fr, p, 44, 46⟩ ∧ W * 10 ^ p + fr = K
      ∧ |(W : ℚ)| * (10 : ℚ) ^ p + |(fr : ℚ)| = |(K : ℚ)| ∧ |(fr : ℚ)| ≤ Bf + 1 := by
  obtain ⟨W, hW, hb, -, hfr, hpos, hneg⟩ :=
    newDecimalFromFloat_spec y p K E Bf hy hp hK hcl hBf hE
  refine ⟨W, K - W * 10 ^ p, hW, by ring, ?_, hfr⟩
  have hT0 : (0 : ℚ) < (10 : ℚ) ^ p := by positivity
  have hcast : ((K - W * 10 ^ p : ℤ) : ℚ) = (K : ℚ) - (W : ℚ) * (10 : ℚ) ^ p := by
    push_cast; ring
  have hpos' : 0 ≤ toRat y → (0 : ℚ) ≤ W ∧ (0 : ℚ) ≤ (K : ℚ) - (W : ℚ) * (10 : ℚ) ^ p := by
    intro h
    obtain ⟨h1, h2⟩ := hpos h
    have h2q : (0 : ℚ) ≤ ((K - W * 10 ^ p : ℤ) : ℚ) := by exact_mod_cast h2
    rw [hcast] at h2q
    exact ⟨by exact_mod_cast h1, h2q⟩
  have hneg' : toRat y ≤ 0 → (W : ℚ) ≤ 0 ∧ (K : ℚ) - (W : ℚ) * (10 : ℚ) ^ p ≤ 0 := by
    intro h
    obtain ⟨h1, h2⟩ := hneg h
    have h2q : ((K - W * 10 ^ p : ℤ) : ℚ) ≤ 0 := by exact_mod_cast h2
    rw [hcast] at h2q
    exact ⟨by exact_mod_cast h1, h2q⟩
  rw [hcast]
  generalize (10 : ℚ) ^ p = T at hT0 hpos' hneg' ⊢
  rcases le_total 0 (toRat y) with h | h
  · obtain ⟨h1q, h2q⟩ := hpos' h
    have h3 : 0 ≤ (W : ℚ) * T := mul_nonneg h1q hT0.le
    rw [abs_of_nonneg h1q, abs_of_nonneg h2q,
      abs_of_nonneg (by linarith : (0 : ℚ) ≤ (K : ℚ))]
    ring
  · obtain ⟨h1q, h2q⟩ := hneg' h
    have h3 : (W : ℚ) * T ≤ 0 := mul_nonpos_of_nonpos_of_nonneg h1q hT0.le
    rw [abs_of_nonpos h1q, abs_of_nonpos h2q,
      abs_of_nonpos (by linarith : (K : ℚ) ≤ 0)]
    ring

set_option maxHeartbeats 1000000 in
/-- The base amount of `Split`: a float within two roundings of an integer `J`
in units of `10^-p`, also after multiplication by the number of parts; and `n`
times `J` is within `n + 1` of the scaled integer of the Decimal. -/
theorem splitQuotient_spec (d : Decimal) (n : Nat) (hn : 1 ≤ n) (hn2 : n ≤ 2 ^ 43)
    (hp : d.precision ≤ 18)
    (hb : |(d.whole : ℚ)| * (10 : ℚ) ^ d.precision + |(d.fraction : ℚ)| ≤ 10 ^ 15) :
    isFinite (splitQuotient d n) = true ∧
    ∃ J : ℤ, |(J : ℚ)| * n ≤ |(d.whole : ℚ)| * (10 : ℚ) ^ d.precision + |(d.fraction : ℚ)| + 2
      ∧ |toRat (splitQuotient d n) * (10 : ℚ) ^ d.precision * n - (J : ℚ) * n|
          ≤ (|(d.whole : ℚ)| * (10 : ℚ) ^ d.precision + |(d.fraction : ℚ)| + 2) / 2 ^ 52
            + 1 / 2 ^ 50
      ∧ |toRat (splitQuotient d n) * (10 : ℚ) ^ d.precision - J|
          ≤ (|(d.whole : ℚ)| * (10 : ℚ) ^ d.precision + |(d.fraction : ℚ)| + 2) / 2 ^ 52
            + 1 / 2 ^ 50
      ∧ |(J : ℚ) * n - ((d.whole : ℚ) * (10 : ℚ) ^ d.precision + d.fraction)| ≤ n + 1 := by
  obtain ⟨hT1, hT2⟩ := ten_pow_bounds d.precision hp
  have hN1 : (1 : ℚ) ≤ (n : ℚ) := by exact_mod_cast hn
  have hN2 : (n : ℚ) ≤ 10 ^ 13 := by
    have : (n : ℚ) ≤ ((2 ^ 43 : ℕ) : ℚ) := by exact_mod_cast hn2
    push_cast at this
    linarith
  have hW0 : 0 ≤ |(d.whole : ℚ)| * (10 : ℚ) ^ d.precision := by positivity
  have hf0 := abs_nonneg (d.fraction : ℚ)
  obtain ⟨hx1, hx2⟩ := toFloat_scaled d d.precision _ _ hp le_rfl
    (by linarith : |(d.whole : ℚ)| * (10 : ℚ) ^ d.precision ≤ 2 ^ 52)
    (by rw [Nat.sub_self, pow_zero, mul_one]; linarith :
      |(d.fraction : ℚ)| * (10 : ℚ) ^ (d.precision - d.precision) ≤ 2 ^ 52) le_rfl le_rfl
  rw [Nat.sub_self, pow_zero, mul_one, mul_one] at hx2
  obtain ⟨hP1, hP2⟩ := pow10Pos_spec d.precision (by omega)
  obtain ⟨hc1, hc2, hc3⟩ := pow10Neg_spec d.precision (by omega)
  have hni : |(n : ℤ)| < 2 ^ 53 := by
    rw [abs_of_nonneg (Int.natCast_nonneg _)]
    have : (n : ℚ) < ((2 ^ 53 : ℕ) : ℚ) := by push_cast; linarith
    exact_mod_cast this
  obtain ⟨hn1, hn2'⟩ := ofInt_exact (n : ℤ) hni
  have hn2'' : toRat (ofInt (n : ℤ)) = (n : ℚ) := by rw [hn2']; simp
  unfold splitQuotient
  simp only []
  have hAabs : |(d.whole : ℚ) * (10 : ℚ) ^ d.precision + d.fraction|
      ≤ |(d.whole : ℚ)| * (10 : ℚ) ^ d.precision + |(d.fraction : ℚ)| := by
    have := abs_add ((d.whole : ℚ) * (10 : ℚ) ^ d.precision) (d.fraction : ℚ)
    rw [abs_mul, abs_of_pos (by positivity : (0 : ℚ) < (10 : ℚ) ^ d.precision)] at this
    exact this
  have hx2' : |toRat (ToFloat d) * (10 : ℚ) ^ d.precision
      - ((d.whole : ℚ) * (10 : ℚ) ^ d.precision + d.fraction)| ≤ 1 / 2 - 1 / 8 := by
    refine le_trans hx2 ?_
    linarith
  clear hx2
  generalize |(d.whole : ℚ)| * (10 : ℚ) ^ d.precision + |(d.fraction : ℚ)| = a
    at hb hAabs ⊢
  generalize (d.whole : ℚ) * (10 : ℚ) ^ d.precision + d.fraction = A at hx2' hAabs ⊢
  generalize ToFloat d = x at hx1 hx2' ⊢
  generalize pow10Pos d.precision = P0 at hP1 hP2 ⊢
  generalize pow10Neg d.precision = N0 at hc1 hc2 hc3 ⊢
  generalize ofInt (n : ℤ) = nf at hn1 hn2'' ⊢
  generalize (10 : ℚ) ^ d.precision = T at hT1 hT2 hx2' hP2 hc3 ⊢
  generalize (n : ℚ) = N at hN1 hN2 hn2'' ⊢
  have hT0 : (0 : ℚ) < T := by linarith
  have hN0 : (0 : ℚ) < N := by linarith
  have ha0 : 0 ≤ a := le_trans (abs_nonneg _) hAabs
  obtain ⟨hx2a, hx2b⟩ := abs_le.mp hx2'
  obtain ⟨hA1, hA2⟩ := abs_le.mp hAabs
  have hXT : |toRat x * T| ≤ a + 1 := by
    rw [abs_le]; constructor <;> linarith
  have hXabs : |toRat x| ≤ a + 1 := le_trans (abs_le_abs_mul _ T hT1) hXT
  -- the quotient by the number of parts
  obtain ⟨hq01, hq02⟩ := div_rnd x nf hx1 hn1 (by rw [hn2'']; linarith) (by
    apply le_two_pow_1023
    rw [hn2'', abs_div, abs_of_pos hN0]
    have : |toRat x| / N ≤ |toRat x| := div_le_self (abs_nonneg _) hN1
    linarith)
  rw [hn2''] at hq02
  generalize div x nf = q0 at hq01 hq02 ⊢
  have hq0T' : |toRat q0 * T| ≤ a + 2 := by
    have hTN0 : (0 : ℚ) < T * N := mul_pos hT0 hN0
    have hTN : T * N ≤ 10 ^ 35 := by
      calc T * N ≤ 10 ^ 18 * 10 ^ 13 := mul_le_mul hT2 hN2 hN0.le (by norm_num)
        _ ≤ 10 ^ 35 := by norm_num
    have he : toRat x / N * (T * N) = toRat x * T := by field_simp; ring
    have hs0 := hq02.scaled_wide (T * N) (a + 1) hTN0 hTN (by rw [he]; exact hXT)
    rw [he] at hs0
    obtain ⟨hs0a, hs0b⟩ := abs_le.mp hs0
    obtain ⟨hXa, hXb⟩ := abs_le.mp hXT
    have hB1 : |toRat q0 * T * N| ≤ a + 3 / 2 := by
      rw [mul_assoc, abs_le]; constructor <;> linarith
    have h2 : |toRat q0 * T| ≤ |toRat q0 * T * N| := abs_le_abs_mul _ N hN1
    linarith
  obtain ⟨hq11, hq12⟩ := mul_rnd q0 P0 hq01 hP1 (by
    apply le_two_pow_1023; rw [hP2]; linarith)
  rw [hP2] at hq12
  obtain ⟨-, hq1N, hq1X⟩ := split_quot_bound T N _ _ _ a hT1 hT2 hN1 hN2 (by linarith) hXT
    hq02 hq12
  generalize mul q0 P0 = q1 at hq11 hq12 hq1N hq1X ⊢
  -- truncation
  obtain ⟨hj1, -, J, hJ, hJY, hJF, hJpos, hJneg⟩ := modf_spec q1 hq11
  rw [← trunc_eq_modf] at hj1 hJ
  have hJabs : |(J : ℚ)| ≤ |toRat q1| := by
    rcases le_total 0 (toRat q1) with h | h
    · obtain ⟨h1, h2⟩ := hJpos h
      rw [abs_of_nonneg h1, abs_of_nonneg h]; linarith
    · obtain ⟨h1, h2⟩ := hJneg h
      rw [abs_of_nonpos h1, abs_of_nonpos h]; linarith
  have hJN : |(J : ℚ)| * N ≤ a + 2 := by
    have h1 : |(J : ℚ)| * N ≤ |toRat q1| * N := mul_le_mul_of_nonneg_right hJabs hN0.le
    rw [abs_mul, abs_of_pos hN0] at hq1N
    linarith
  have hJA : |(J : ℚ) * N - A| ≤ N + 1 := by
    have h1 : |toRat (modf q1).2| * N ≤ 1 * N := mul_le_mul_of_nonneg_right hJF.le hN0.le
    have h2 : (J : ℚ) * N - toRat q1 * N = -(toRat (modf q1).2 * N) := by rw [hJY]; ring
    have h3 : |(J : ℚ) * N - toRat q1 * N| ≤ N := by
      rw [h2, abs_neg, abs_mul, abs_of_pos hN0]; linarith
    obtain ⟨h3a, h3b⟩ := abs_le.mp h3
    obtain ⟨h4a, h4b⟩ := abs_le.mp hq1X
    rw [abs_le]; constructor <;> linarith
  generalize trunc q1 = jf at hj1 hJ ⊢
  have hJa : |(J : ℚ)| ≤ a + 2 := by
    have : |(J : ℚ)| * 1 ≤ |(J : ℚ)| * N := mul_le_mul_of_nonneg_left hN1 (abs_nonneg _)
    linarith
  have hcT : toRat N0 ≤ 2 := by
    have h1 : toRat N0 ≤ toRat N0 * T := le_mul_of_one_le_right hc2.le hT1
    have := (abs_le.mp hc3).2
    norm_num at this
    linarith
  obtain ⟨hq1', hq2'⟩ := mul_rnd jf N0 hj1 hc1 (by
    apply le_two_pow_1023
    rw [hJ, abs_mul, abs_of_pos hc2]
    calc |(J : ℚ)| * toRat N0 ≤ (a + 2) * 2 :=
          mul_le_mul hJa hcT hc2.le (by linarith)
      _ ≤ 2 ^ 100 := by linarith)
  rw [hJ] at hq2'
  obtain ⟨hb1, hb2⟩ := split_base_bound T N _ _ a J hT1 hT2 hN1 hN2 (by linarith) hJN hc3 hq2'
  exact ⟨hq1', J, hJN, hb1, hb2, hJA⟩

/-! ### `Split`: the parts -/

/-- The allocation limit of `Split`: `2^43` parts. -/
theorem maxSliceLen_eq : maxSliceLen = 2 ^ 43 := by
  unfold maxSliceLen
  norm_num

set_option maxHeartbeats 4000000 in
/-- `Split` under a magnitude bound: the first part and the common other part,
whose scaled integers add up to the scaled integer of the Decimal.  With `a`
the scaled magnitude of the Decimal, what is lost before the remainder is
rounded is at most `(n + 5) * a` roundings: three in `ToFloat`, two in the base
amount and `n` in the accumulated sum. -/
theorem split_spec (d : Decimal) (n : Nat) (hn : 1 ≤ n) (hn2 : n ≤ 2 ^ 43)
    (hp : d.precision ≤ 18)
    (hb : ((n : ℚ) + 5) * (|(d.whole : ℚ)| * (10 : ℚ) ^ d.precision + |(d.fraction : ℚ)| + 1)
      ≤ 4 * 10 ^ 15)
    (hp15 : 14 < d.precision →
      |(d.whole : ℚ)| * (10 : ℚ) ^ d.precision + |(d.fraction : ℚ)| ≤ 4 * 10 ^ 14) :
    ∃ part0 part : Decimal, Split d n = some (part0 :: List.replicate (n - 1) part)
      ∧ ToInt part0 + ((n : ℤ) - 1) * ToInt part = d.whole * 10 ^ d.precision + d.fraction
      ∧ part0.precision = d.precision ∧ part.precision = d.precision := by
  obtain ⟨hT1, hT2⟩ := ten_pow_bounds d.precision hp
  have hN1 : (1 : ℚ) ≤ (n : ℚ) := by exact_mod_cast hn
  have hN43 : (n : ℚ) ≤ 2 ^ 43 := by
    have : (n : ℚ) ≤ ((2 ^ 43 : ℕ) : ℚ) := by exact_mod_cast hn2
    push_cast at this
    exact this
  have hN0 : (0 : ℚ) < (n : ℚ) := by linarith
  have hW0 : 0 ≤ |(d.whole : ℚ)| * (10 : ℚ) ^ d.precision := by positivity
  have hf0 := abs_nonneg (d.fraction : ℚ)
  have ha0 : 0 ≤ |(d.whole : ℚ)| * (10 : ℚ) ^ d.precision + |(d.fraction : ℚ)| := by positivity
  have hexp : (n : ℚ) * (|(d.whole : ℚ)| * (10 : ℚ) ^ d.precision + |(d.fraction : ℚ)|)
      + n + 5 * (|(d.whole : ℚ)| * (10 : ℚ) ^ d.precision + |(d.fraction : ℚ)|) + 5
      ≤ 4 * 10 ^ 15 := by
    have : ((n : ℚ) + 5) * (|(d.whole : ℚ)| * (10 : ℚ) ^ d.precision + |(d.fraction : ℚ)| + 1)
        = (n : ℚ) * (|(d.whole : ℚ)| * (10 : ℚ) ^ d.precision + |(d.fraction : ℚ)|)
          + n + 5 * (|(d.whole : ℚ)| * (10 : ℚ) ^ d.precision + |(d.fraction : ℚ)|) + 5 := by
      ring
    linarith
  have hNa : (1 : ℚ) * (|(d.whole : ℚ)| * (10 : ℚ) ^ d.precision + |(d.fraction : ℚ)|)
      ≤ (n : ℚ) * (|(d.whole : ℚ)| * (10 : ℚ) ^ d.precision + |(d.fraction : ℚ)|) :=
    mul_le_mul_of_nonneg_right hN1 ha0
  have ha1 : 6 * (|(d.whole : ℚ)| * (10 : ℚ) ^ d.precision + |(d.fraction : ℚ)|)
      ≤ 4 * 10 ^ 15 := by linarith
  obtain ⟨hqf, J, hJN, hq1, hq2, hJA⟩ := splitQuotient_spec d n hn hn2 hp (by linarith)
  obtain ⟨hx1, hx2⟩ := toFloat_scaled d d.precision _ _ hp le_rfl
    (by linarith : |(d.whole : ℚ)| * (10 : ℚ) ^ d.precision ≤ 2 ^ 52)
    (by rw [Nat.sub_self, pow_zero, mul_one]; linarith :
      |(d.fraction : ℚ)| * (10 : ℚ) ^ (d.precision - d.precision) ≤ 2 ^ 52) le_rfl le_rfl
  rw [Nat.sub_self, pow_zero, mul_one, mul_one] at hx2
  have hAabs : |(d.whole : ℚ) * (10 : ℚ) ^ d.precision + d.fraction|
      ≤ |(d.whole : ℚ)| * (10 : ℚ) ^ d.precision + |(d.fraction : ℚ)| := by
    have := abs_add ((d.whole : ℚ) * (10 : ℚ) ^ d.precision) (d.fraction : ℚ)
    rw [abs_mul, abs_of_pos (by positivity : (0 : ℚ) < (10 : ℚ) ^ d.precision)] at this
    exact this
  have hJa : |(J : ℚ)| ≤ |(d.whole : ℚ)| * (10 : ℚ) ^ d.precision + |(d.fraction : ℚ)| + 2 := by
    have : |(J : ℚ)| * 1 ≤ |(J : ℚ)| * n := mul_le_mul_of_nonneg_left hN1 (abs_nonneg _)
    linarith
  have hJi : |J| ≤ 2 ^ 53 := by
    have := int_abs_le_of_rat J (2 ^ 53) (by push_cast; linarith)
    simpa using this
  -- the bound of the fraction of a part: `10^p` up to precision 14, the magnitude above
  obtain ⟨Bq, hBq1, hBq2⟩ : ∃ Bq : ℚ, ((10 : ℚ) ^ d.precision ≤ Bq
        ∨ |(d.whole : ℚ)| * (10 : ℚ) ^ d.precision + |(d.fraction : ℚ)| + 3 ≤ Bq)
      ∧ 4 * (|(d.whole : ℚ)| * (10 : ℚ) ^ d.precision + |(d.fraction : ℚ)|) + 5 * Bq
          ≤ 37 * 10 ^ 14 := by
    by_cases hc : d.precision ≤ 14
    · refine ⟨10 ^ 14, Or.inl (pow_le_pow_right₀ (by norm_num) hc), ?_⟩
      linarith
    · have := hp15 (by omega)
      exact ⟨_, Or.inr le_rfl, by linarith⟩
  have hBq0 : 0 ≤ Bq := by
    rcases hBq1 with h | h <;> linarith
  -- the common part
  obtain ⟨Wq, fq, hpart, hpartsum, hmagq, hfq⟩ := newDecimalFromFloat_parts
    (splitQuotient d n) d.precision J _ Bq hqf hp hJi hq2
    (by rcases hBq1 with h | h
        · left; exact h
        · right; linarith)
    (by linarith)
  -- the accumulated sum
  have hqTN : (n : ℚ) * |toRat (splitQuotient d n) * (10 : ℚ) ^ d.precision|
      ≤ |(d.whole : ℚ)| * (10 : ℚ) ^ d.precision + |(d.fraction : ℚ)| + 3 := by
    have h1 : (n : ℚ) * |toRat (splitQuotient d n) * (10 : ℚ) ^ d.precision|
        = |toRat (splitQuotient d n) * (10 : ℚ) ^ d.precision * n| := by
      rw [abs_mul _ (n : ℚ), abs_of_pos hN0]; ring
    have h2 : |(J : ℚ) * n| = |(J : ℚ)| * n := by rw [abs_mul, abs_of_pos hN0]
    rw [h1]
    have h3 := abs_sub_abs_le_abs_sub
      (toRat (splitQuotient d n) * (10 : ℚ) ^ d.precision * n) ((J : ℚ) * n)
    rw [h2] at h3
    linarith
  have hδe : (n : ℚ) * ((|(d.whole : ℚ)| * (10 : ℚ) ^ d.precision + |(d.fraction : ℚ)| + 3 + 1)
      / 2 ^ 53 + 1 / 10 ^ 42)
      = (n : ℚ) * (|(d.whole : ℚ)| * (10 : ℚ) ^ d.precision + |(d.fraction : ℚ)|) / 2 ^ 53
        + 4 * n / 2 ^ 53 + n / 10 ^ 42 := by ring
  obtain ⟨hs1, hs2⟩ := splitSum_spec (splitQuotient d n) hqf ((10 : ℚ) ^ d.precision) _ n
    hT1 hT2 hqTN (by rw [hδe]; linarith) n le_rfl
  rw [hδe] at hs2
  -- the remainder
  set A : ℤ := d.whole * 10 ^ d.precision + d.fraction with hA
  have hAq : (A : ℚ) = (d.whole : ℚ) * (10 : ℚ) ^ d.precision + d.fraction := by
    rw [hA]; push_cast; ring
  rw [← hAq] at hx2 hAabs hJA
  have hRq : ((A - n * J : ℤ) : ℚ) = (A : ℚ) - (n : ℚ) * J := by push_cast; ring
  obtain ⟨hx2a, hx2b⟩ := abs_le.mp hx2
  obtain ⟨hA1, hA2⟩ := abs_le.mp hAabs
  obtain ⟨hs2a, hs2b⟩ := abs_le.mp hs2
  obtain ⟨hq1a, hq1b⟩ := abs_le.mp hq1
  obtain ⟨hJA1, hJA2⟩ := abs_le.mp hJA
  have hRabs : |((A - n * J : ℤ) : ℚ)| ≤ n + 1 := by
    rw [hRq, abs_le]; constructor <;> linarith
  have hR53 : |A - n * J| ≤ 2 ^ 53 := by
    have : |((A - n * J : ℤ) : ℚ)| ≤ ((2 ^ 53 : ℕ) : ℚ) := by
      refine le_trans hRabs ?_
      push_cast; linarith
    have := int_abs_le_of_rat _ (2 ^ 53) this
    simpa using this
  obtain ⟨hR1, hR2⟩ := abs_le.mp hRabs
  rw [hRq] at hR1 hR2
  have hdiffT : |(toRat (ToFloat d) - toRat (splitSum (splitQuotient d n) n))
      * (10 : ℚ) ^ d.precision| ≤ n + 2 := by
    rw [sub_mul, abs_le]; constructor <;> linarith
  obtain ⟨hr1, hr2⟩ := sub_rnd (ToFloat d) (splitSum (splitQuotient d n) n) hx1 hs1 (by
    apply le_two_pow_1023
    have := abs_le_abs_mul (toRat (ToFloat d) - toRat (splitSum (splitQuotient d n) n))
      ((10 : ℚ) ^ d.precision) hT1
    linarith)
  have hrs := hr2.scaled ((10 : ℚ) ^ d.precision) _ (by linarith) hT2 hdiffT
  rw [sub_mul] at hrs
  obtain ⟨hrs1, hrs2⟩ := abs_le.mp hrs
  obtain ⟨Wr, fr, hrem, hremsum, hmagr, hfr⟩ := newDecimalFromFloat_parts
    (sub (ToFloat d) (splitSum (splitQuotient d n) n)) d.precision (A - n * J)
    (1 / 2 - 5 * ((n : ℚ) + 2) / 2 ^ 53 - 1 / 200 - 1 / 2 ^ 39) ((n : ℚ) + 2) hr1 hp hR53
    (by rw [hRq, abs_le]; constructor <;> linarith)
    (by right; linarith)
    (by linarith)
  -- the first part
  have hWq0 : 0 ≤ |(Wq : ℚ)| * (10 : ℚ) ^ d.precision := by positivity
  have hWr0 : 0 ≤ |(Wr : ℚ)| * (10 : ℚ) ^ d.precision := by positivity
  have hfq0 := abs_nonneg (fq : ℚ)
  have hfr0 := abs_nonneg (fr : ℚ)
  have hadd := add_spec ⟨Wq, fq, d.precision, 44, 46⟩ ⟨Wr, fr, d.precision, 44, 46⟩
    (|(Wq : ℚ)| * (10 : ℚ) ^ d.precision + |(Wr : ℚ)| * (10 : ℚ) ^ d.precision)
    (|(fq : ℚ)| + |(fr : ℚ)|) (Bq + n + 2) hp hp
    (by simp only [max_self]; exact le_rfl)
    (by simp only [max_self, Nat.sub_self, pow_zero, mul_one]; exact le_rfl)
    (by simp only [max_self]
        rcases hBq1 with h | h
        · left; linarith
        · right; linarith)
    (by linarith)
  simp only [max_self, Nat.sub_self, pow_zero, mul_one] at hadd
  obtain ⟨hadd1, hadd2⟩ := hadd
  have hWqi : |Wq * 10 ^ d.precision| ≤ 2 ^ 61 := by
    have : |((Wq * 10 ^ d.precision : ℤ) : ℚ)| ≤ ((2 ^ 61 : ℕ) : ℚ) := by
      push_cast
      rw [abs_mul, abs_of_pos (by positivity : (0 : ℚ) < (10 : ℚ) ^ d.precision)]
      linarith
    have := int_abs_le_of_rat _ (2 ^ 61) this
    simpa using this
  have hfqi : |fq| ≤ 2 ^ 61 := by
    have := int_abs_le_of_rat fq (2 ^ 61) (by push_cast; linarith)
    simpa using this
  have hpartInt : ToInt ⟨Wq, fq, d.precision, 44, 46⟩ = J := by
    rw [toInt_eq Wq fq d.precision 44 46 hp hWqi hfqi, hpartsum]
  have hlim : ¬ maxSliceLen < n := by rw [maxSliceLen_eq]; omega
  obtain ⟨k, rfl⟩ : ∃ k, n = k + 1 := ⟨n - 1, by omega⟩
  refine ⟨Add ⟨Wq, fq, d.precision, 44, 46⟩ ⟨Wr, fr, d.precision, 44, 46⟩,
    ⟨Wq, fq, d.precision, 44, 46⟩, ?_, ?_, hadd2, rfl⟩
  · unfold Split
    rw [if_neg hlim]
    simp only [hpart, List.replicate_succ, AddFloat, hrem, Nat.add_sub_cancel]
  · rw [hadd1, hpartInt, hpartsum, hremsum]
    push_cast
    ring

/-! ### Decoding a JSON number -/

/-- `roundRat` gives a finite value or the infinity of its sign, never NaN. -/
theorem roundRat_fin_or_inf (s : Bool) (n d : Nat) :
    (∃ m e, roundRat s n d = fin s m e) ∨ roundRat s n d = inf s := by
  unfold roundRat
  by_cases h0 : n = 0
  · left; exact ⟨0, -1074, by simp [h0]⟩
  · simp only [h0, if_false]
    split_ifs <;> first | (right; rfl) | (left; exact ⟨_, _, rfl⟩)

/-- The float of a decimal literal is finite or the infinity of its sign. -/
theorem decimalToFloat_fin_or_inf (v : Bool × Nat × Int) :
    (∃ m e, decimalToFloat v = fin v.1 m e) ∨ decimalToFloat v = inf v.1 :=
  roundRat_fin_or_inf _ _ _

/-- What `json.Unmarshal` stores for a number that fits. -/
theorem unmarshalFloat64_number (data : List Char) (v : Bool × Nat × Int) (m : Nat) (e : Int)
    (hv : jsonNumber (trimJSON data) = some v) (hf : decimalToFloat v = fin v.1 m e) :
    unmarshalFloat64 data = some (fin v.1 m e) := by
  have hnull : trimJSON data ≠ "null".toList := by
    intro h
    have hn : jsonNumber "null".toList = none := by decide
    rw [h, hn] at hv
    exact Option.noConfusion hv
  simp only [unmarshalFloat64, hnull, if_false, hv, hf]

/-- The inputs `json.Unmarshal` refuses for a `float64`. -/
theorem unmarshalFloat64_none_iff (data : List Char) :
    unmarshalFloat64 data = none ↔
      trimJSON data ≠ "null".toList
        ∧ (jsonNumber (trimJSON data) = none
            ∨ ∃ v, jsonNumber (trimJSON data) = some v ∧ decimalToFloat v = inf v.1) := by
  unfold unmarshalFloat64
  by_cases hnull : trimJSON data = "null".toList
  · simp [hnull]
  · simp only [hnull, if_false, ne_eq, not_false_eq_true, true_and]
    cases hj : jsonNumber (trimJSON data) with
    | none => simp
    | some v =>
      rcases decimalToFloat_fin_or_inf v with ⟨m, e, h⟩ | h
      · simp [h]
      · simp [h]

/-! ### Rounding next to an integer -/

/-- Below `2^53` the unit in the last place is at most one. -/
theorem ulpExp_nonpos (n d : Nat) (hn : 0 < n) (hd : 0 < d) (hlt : (n : ℚ) / d < 2 ^ 53) :
    ulpExp n d ≤ 0 := by
  obtain ⟨-, hu2, -⟩ := ulpExp_spec n d hn hd
  rcases hu2 with h | h
  · by_contra hc
    have h1 : (1 : ℤ) ≤ ulpExp n d := by omega
    have h2 : (2 : ℚ) ^ (1 : ℤ) ≤ (2 : ℚ) ^ (ulpExp n d) := zpow_le_zpow_right₀ (by norm_num) h1
    rw [zpow_one] at h2
    have h3 : (2 : ℚ) ^ 52 * 2 ≤ 2 ^ 52 * (2 : ℚ) ^ (ulpExp n d) :=
      mul_le_mul_of_nonneg_left h2 (by norm_num)
    have h4 : (2 : ℚ) ^ 52 * 2 = 2 ^ 53 := by norm_num
    linarith
  · omega

/-- Rounding does not cross a natural number from above: if `Q ≤ n / d < 2^53`,
the rounded value is at least `Q`. -/
theorem roundRat_ge_nat (s : Bool) (n d : Nat) (hn : 0 < n) (hd : 0 < d) (Q : ℕ)
    (hQ : (Q : ℚ) ≤ (n : ℚ) / d) (hlt : (n : ℚ) / d < 2 ^ 53) :
    ∃ v : ℚ, toRat (roundRat s n d) = sgn s * v ∧ (Q : ℚ) ≤ v := by
  have hhi : (n : ℚ) / d ≤ (2 : ℚ) ^ (1023 : ℤ) :=
    le_two_pow_1023 _ (le_trans hlt.le (by norm_num))
  obtain ⟨-, q1, hq1, herr, -⟩ := roundRat_core s n d hn hd hhi
  have he := ulpExp_nonpos n d hn hd hlt
  generalize ulpExp n d = e at hq1 herr he
  have h2e : (0 : ℚ) < (2 : ℚ) ^ e := two_zpow_pos e
  have hne : (2 : ℚ) ^ (-e) = (2 : ℚ) ^ (-e).toNat := (two_pow_toNat (-e) (by omega)).symm
  have hinv : (2 : ℚ) ^ (-e) * (2 : ℚ) ^ e = 1 := by
    rw [← zpow_add₀ (by norm_num : (2 : ℚ) ≠ 0)]; simp
  have hpos : (0 : ℚ) < (2 : ℚ) ^ (-e) := two_zpow_pos _
  have hu : ((Q * 2 ^ (-e).toNat : ℕ) : ℚ) ≤ (n : ℚ) / d * (2 : ℚ) ^ (-e) := by
    push_cast
    rw [← hne]
    exact mul_le_mul_of_nonneg_right hQ hpos.le
  obtain ⟨h1, -⟩ := abs_le.mp herr
  have h3 : ((Q * 2 ^ (-e).toNat : ℕ) : ℚ) < ((q1 + 1 : ℕ) : ℚ) := by
    push_cast at hu ⊢
    linarith
  have h4 : Q * 2 ^ (-e).toNat ≤ q1 := by
    have : Q * 2 ^ (-e).toNat < q1 + 1 := by exact_mod_cast h3
    omega
  refine ⟨(q1 : ℚ) * (2 : ℚ) ^ e, hq1, ?_⟩
  have h5 : ((Q * 2 ^ (-e).toNat : ℕ) : ℚ) ≤ (q1 : ℚ) := by exact_mod_cast h4
  have h6 : ((Q * 2 ^ (-e).toNat : ℕ) : ℚ) * (2 : ℚ) ^ e ≤ (q1 : ℚ) * (2 : ℚ) ^ e :=
    mul_le_mul_of_nonneg_right h5 h2e.le
  have h7 : ((Q * 2 ^ (-e).toNat : ℕ) : ℚ) * (2 : ℚ) ^ e = Q := by
    push_cast
    rw [← hne, mul_assoc, hinv, mul_one]
  linarith

/-- A value below `2^53` that is within a relative `2^-54` of a natural number
rounds to that number. -/
theorem roundRat_near_nat (s : Bool) (n d : Nat) (hn : 0 < n) (hd : 0 < d) (Q : ℕ)
    (hlt : (n : ℚ) / d < 2 ^ 53) (hnear : |(n : ℚ) / d - Q| * 2 ^ 54 < (n : ℚ) / d) :
    toRat (roundRat s n d) = sgn s * (Q : ℚ) := by
  have hhi : (n : ℚ) / d ≤ (2 : ℚ) ^ (1023 : ℤ) :=
    le_two_pow_1023 _ (le_trans hlt.le (by norm_num))
  obtain ⟨-, q1, hq1, herr, -⟩ := roundRat_core s n d hn hd hhi
  have he := ulpExp_nonpos n d hn hd hlt
  obtain ⟨hu1, -, -⟩ := ulpExp_spec n d hn hd
  generalize ulpExp n d = e at hq1 herr he hu1
  generalize (n : ℚ) / d = x at hq1 herr hu1 hlt hnear
  have h2e : (0 : ℚ) < (2 : ℚ) ^ e := two_zpow_pos e
  have hne : (2 : ℚ) ^ (-e) = (2 : ℚ) ^ (-e).toNat := (two_pow_toNat (-e) (by omega)).symm
  have hinv : (2 : ℚ) ^ (-e) * (2 : ℚ) ^ e = 1 := by
    rw [← zpow_add₀ (by norm_num : (2 : ℚ) ≠ 0)]; simp
  have hpos : (0 : ℚ) < (2 : ℚ) ^ (-e) := two_zpow_pos _
  -- the scaled value is below 2^53
  have ht : x * (2 : ℚ) ^ (-e) < 2 ^ 53 := by
    have := mul_lt_mul_of_pos_right hu1 hpos
    rw [mul_assoc, mul_comm ((2 : ℚ) ^ e), hinv, mul_one] at this
    exact this
  -- the scaled distance is below one half
  have hd1 : |x - Q| * (2 : ℚ) ^ (-e) * 2 ^ 54 < 2 ^ 53 := by
    have := mul_lt_mul_of_pos_right hnear hpos
    calc |x - Q| * (2 : ℚ) ^ (-e) * 2 ^ 54 = |x - Q| * 2 ^ 54 * (2 : ℚ) ^ (-e) := by ring
      _ < x * (2 : ℚ) ^ (-e) := this
      _ < 2 ^ 53 := ht
  have hd2 : |x * (2 : ℚ) ^ (-e) - ((Q * 2 ^ (-e).toNat : ℕ) : ℚ)| < 1 / 2 := by
    have : x * (2 : ℚ) ^ (-e) - ((Q * 2 ^ (-e).toNat : ℕ) : ℚ) = (x - Q) * (2 : ℚ) ^ (-e) := by
      push_cast; rw [← hne]; ring
    rw [this, abs_mul, abs_of_pos hpos]
    norm_num at hd1 ⊢
    linarith
  have hq : q1 = Q * 2 ^ (-e).toNat := by
    obtain ⟨a1, a2⟩ := abs_le.mp herr
    obtain ⟨b1, b2⟩ := abs_lt.mp hd2
    have c1 : ((q1 : ℕ) : ℚ) < ((Q * 2 ^ (-e).toNat + 1 : ℕ) : ℚ) := by
      push_cast at b1 b2 ⊢; linarith
    have c2 : ((Q * 2 ^ (-e).toNat : ℕ) : ℚ) < ((q1 + 1 : ℕ) : ℚ) := by
      push_cast at b1 b2 ⊢; linarith
    have c3 : q1 < Q * 2 ^ (-e).toNat + 1 := by exact_mod_cast c1
    have c4 : Q * 2 ^ (-e).toNat < q1 + 1 := by exact_mod_cast c2
    omega
  rw [hq1, hq]
  push_cast
  rw [← hne, mul_assoc, hinv, mul_one]

/-- The product of two finite values as a rounding of its exact magnitude. -/
theorem mul_eq_roundRat (x y : F64) (hx : isFinite x = true) (hy : isFinite y = true) :
    ∃ (s : Bool) (n d : Nat), 0 < d ∧ mul x y = roundRat s n d
      ∧ (n : ℚ) / d = |toRat x * toRat y| := by
  obtain ⟨s, m, e, rfl, -, -, -⟩ := (isFinite_iff x).mp hx
  obtain ⟨t, k, g, rfl, -, -, -⟩ := (isFinite_iff y).mp hy
  refine ⟨xor s t, m * k * 2 ^ (e + g).toNat, 2 ^ (-(e + g)).toNat, by positivity, rfl, ?_⟩
  rw [scaled_val]
  have hX : toRat (fin s m e) * toRat (fin t k g)
      = sgn (xor s t) * (((m * k : ℕ) : ℚ) * (2 : ℚ) ^ (e + g)) := by
    simp only [toRat, sgn_xor]
    rw [zpow_add₀ (by norm_num : (2 : ℚ) ≠ 0)]
    push_cast
    ring
  rw [hX, abs_sgn_mul, abs_of_nonneg (by positivity)]

/-- A product of magnitude at least the natural number `Q` (and below `2^53`)
is at least `Q` in magnitude after rounding. -/
theorem mul_ge_nat (x y : F64) (hx : isFinite x = true) (hy : isFinite y = true) (Q : ℕ)
    (hQ : (Q : ℚ) ≤ |toRat x * toRat y|) (hlt : |toRat x * toRat y| < 2 ^ 53) :
    (Q : ℚ) ≤ |toRat (mul x y)| := by
  obtain ⟨s, n, d, hd, hm, hv⟩ := mul_eq_roundRat x y hx hy
  rw [← hv] at hQ hlt
  by_cases hn : n = 0
  · rw [hn] at hQ
    simp only [Nat.cast_zero, zero_div] at hQ
    exact le_trans hQ (abs_nonneg _)
  · obtain ⟨v, h1, h2⟩ := roundRat_ge_nat s n d (Nat.pos_of_ne_zero hn) hd Q hQ hlt
    rw [hm, h1, abs_sgn_mul]
    exact le_trans h2 (le_abs_self v)

/-- A product within a relative `2^-54` of the natural number `Q` has the
magnitude `Q` after rounding. -/
theorem mul_near_nat (x y : F64) (hx : isFinite x = true) (hy : isFinite y = true) (Q : ℕ)
    (hlt : |toRat x * toRat y| < 2 ^ 53)
    (hnear : |(|toRat x * toRat y| - Q)| * 2 ^ 54 < |toRat x * toRat y|) :
    |toRat (mul x y)| = Q := by
  obtain ⟨s, n, d, hd, hm, hv⟩ := mul_eq_roundRat x y hx hy
  rw [← hv] at hlt hnear
  have hn : 0 < n := by
    rcases Nat.eq_zero_or_pos n with h | h
    · exfalso
      rw [h] at hnear
      simp only [Nat.cast_zero, zero_div] at hnear
      have : (0 : ℚ) ≤ |(0 : ℚ) - Q| * 2 ^ 54 := by positivity
      linarith
    · exact h
  rw [hm, roundRat_near_nat s n d hn hd Q hlt hnear, abs_sgn_mul]
  exact abs_of_nonneg (Nat.cast_nonneg Q)

/-! ### `NewDecimal`: quotient and remainder -/

/-- Quotient and remainder of `W * T + fr` when `fr` is below `T` in magnitude
and does not have the sign opposite to `W`. -/
theorem tdiv_of_parts (W fr : ℤ) (T : ℕ) (hfr : |fr| < T)
    (hs : (0 ≤ W ∧ 0 ≤ fr) ∨ (W ≤ 0 ∧ fr ≤ 0)) :
    (W * T + fr).tdiv T = W ∧ (W * T + fr).tmod T = fr
      ∧ (W * T + fr).natAbs = W.natAbs * T + fr.natAbs := by
  have hT : 0 < T := by
    have := abs_nonneg fr
    omega
  have key : ∀ w f : ℕ, f < T → ((w * T + f : ℕ) : ℤ).tdiv T = w := by
    intro w f hf
    rw [← Int.ofNat_tdiv]
    congr 1
    rw [Nat.add_comm, Nat.add_mul_div_right _ _ hT, Nat.div_eq_of_lt hf, Nat.zero_add]
  have hdiv : (W * T + fr).tdiv T = W := by
    rcases hs with ⟨h1, h2⟩ | ⟨h1, h2⟩
    · obtain ⟨w, rfl⟩ := Int.eq_ofNat_of_zero_le h1
      obtain ⟨f, rfl⟩ := Int.eq_ofNat_of_zero_le h2
      have hf : f < T := by
        rw [abs_of_nonneg h2] at hfr
        exact_mod_cast hfr
      have := key w f hf
      push_cast at this
      exact this
    · obtain ⟨w, hw⟩ := Int.eq_ofNat_of_zero_le (neg_nonneg.mpr h1)
      obtain ⟨f, hf⟩ := Int.eq_ofNat_of_zero_le (neg_nonneg.mpr h2)
      have hfT : f < T := by
        rw [abs_of_nonpos h2, hf] at hfr
        exact_mod_cast hfr
      have e1 : W * T + fr = -((w * T + f : ℕ) : ℤ) := by
        push_cast
        rw [← hw, ← hf]
        ring
      rw [e1, Int.neg_tdiv, key w f hfT, ← hw]
      ring
  refine ⟨hdiv, ?_, ?_⟩
  · rw [Int.tmod_def, hdiv]
    ring
  · rcases hs with ⟨h1, h2⟩ | ⟨h1, h2⟩
    · have h3 : 0 ≤ W * T + fr := by positivity
      zify
      rw [abs_of_nonneg h1, abs_of_nonneg h2, abs_of_nonneg h3]
    · have h3 : W * T + fr ≤ 0 := by
        have : W * T ≤ 0 := mul_nonpos_of_nonpos_of_nonneg h1 (by positivity)
        linarith
      zify
      rw [abs_of_nonpos h1, abs_of_nonpos h2, abs_of_nonpos h3]
      ring

/-- The table value `Pow10(-p)` times `10^p` is either at least one or within a
relative `2^-54` below one, for every precision up to 18 except 11. -/
theorem pow10Neg_near (p : Nat) (hp : p ≤ 18) (h11 : p ≠ 11) :
    1 ≤ toRat (pow10Neg p) * (10 : ℚ) ^ p
      ∨ |toRat (pow10Neg p) * (10 : ℚ) ^ p - 1| * 2 ^ 54 < toRat (pow10Neg p) * (10 : ℚ) ^ p := by
  interval_cases p <;> first | (exact absurd rfl h11) | decide!

/-- A nonnegative `Y` within a quarter of `a / T` in units of `1 / T` lies between
the quotient `a / T` and the next integer, provided it is not below the
quotient when the division is exact. -/
theorem trunc_scaled (a qa ra T : ℕ) (Y : ℚ) (hT : 1 ≤ T) (ha : a = qa * T + ra) (hra : ra < T)
    (hY : |Y * (T : ℚ) - a| ≤ 1 / 4) (hex : ra = 0 → (qa : ℚ) ≤ Y) :
    (qa : ℚ) ≤ Y ∧ Y < qa + 1 := by
  have hTq : (1 : ℚ) ≤ (T : ℚ) := by exact_mod_cast hT
  have hT0 : (0 : ℚ) < (T : ℚ) := by linarith
  have haq : (a : ℚ) = (qa : ℚ) * T + ra := by exact_mod_cast ha
  have hraq : (ra : ℚ) + 1 ≤ (T : ℚ) := by exact_mod_cast hra
  obtain ⟨h1, h2⟩ := abs_le.mp hY
  constructor
  · rcases Nat.eq_zero_or_pos ra with h0 | hpos
    · exact hex h0
    · have hr1 : (1 : ℚ) ≤ (ra : ℚ) := by exact_mod_cast hpos
      have : (qa : ℚ) * T ≤ Y * T := by
        linarith
      exact le_of_mul_le_mul_right this hT0
  · have : Y * T < ((qa : ℚ) + 1) * T := by
      have : ((qa : ℚ) + 1) * T = (qa : ℚ) * T + T := by ring
      linarith
    exact lt_of_mul_lt_mul_right this hT0.le

/-- The integer part `Z` of a value `y` that is within a quarter unit of
`A / T`, has the sign of `A`, and is not below the quotient in magnitude when
the division is exact, is the quotient of `A` by `T` truncated toward zero. -/
theorem trunc_eq_tdiv (A : ℤ) (T : ℕ) (y fr : ℚ) (Z : ℤ) (hT : 1 ≤ T)
    (hY : y = Z + fr) (hF : |fr| < 1)
    (hpos : 0 ≤ y → 0 ≤ (Z : ℚ) ∧ 0 ≤ fr) (hneg : y ≤ 0 → (Z : ℚ) ≤ 0 ∧ fr ≤ 0)
    (hs3 : 0 ≤ A → 0 ≤ y) (hs4 : A ≤ 0 → y ≤ 0)
    (hyb : |y * (T : ℚ) - A| ≤ 1 / 4)
    (hex : A.natAbs % T = 0 → ((A.natAbs / T : ℕ) : ℚ) ≤ |y|) :
    Z = A.tdiv T ∧ |(Z : ℚ)| ≤ |(A : ℚ)| + 1 := by
  obtain ⟨a, ha⟩ : ∃ a : ℕ, a = A.natAbs := ⟨_, rfl⟩
  rw [← ha] at hex
  have hdm : a = a / T * T + a % T := (Nat.div_add_mod' a T).symm
  have hrlt : a % T < T := Nat.mod_lt a hT
  have haabs : (a : ℚ) = |(A : ℚ)| := by rw [ha]; exact natAbs_cast_abs A
  have htd : ((a : ℤ)).tdiv T = ((a / T : ℕ) : ℤ) := (Int.ofNat_tdiv a T).symm
  have hqle : ((a / T : ℕ) : ℚ) ≤ (a : ℚ) := by
    exact_mod_cast Nat.div_le_self a T
  generalize a / T = qa at hdm hex htd hqle
  obtain ⟨hF1, hF2⟩ := abs_lt.mp hF
  obtain ⟨hqa, hqb⟩ : (qa : ℚ) ≤ |y| ∧ |y| < (qa : ℚ) + 1 := by
    apply trunc_scaled a qa (a % T) T |y| hT hdm hrlt _ hex
    rw [haabs]
    rcases le_total 0 A with hA0 | hA0
    · have hAq0 : (0 : ℚ) ≤ (A : ℚ) := by exact_mod_cast hA0
      rw [abs_of_nonneg (hs3 hA0), abs_of_nonneg hAq0]
      exact hyb
    · have hAq0 : (A : ℚ) ≤ 0 := by exact_mod_cast hA0
      rw [abs_of_nonpos (hs4 hA0), abs_of_nonpos hAq0]
      have e : -y * (T : ℚ) - -(A : ℚ) = -(y * (T : ℚ) - A) := by ring
      rw [e, abs_neg]
      exact hyb
  constructor
  · rcases le_total 0 A with hA0 | hA0
    · have hy0 := hs3 hA0
      obtain ⟨z1, z2⟩ := hpos hy0
      rw [abs_of_nonneg hy0] at hqa hqb
      have hAa : A = (a : ℤ) := by rw [ha]; exact (Int.natAbs_of_nonneg hA0).symm
      rw [hAa, htd]
      have c1 : (Z : ℚ) < ((qa : ℤ) : ℚ) + 1 := by push_cast; linarith
      have c2 : ((qa : ℤ) : ℚ) < (Z : ℚ) + 1 := by push_cast; linarith
      have c3 : Z < (qa : ℤ) + 1 := by exact_mod_cast c1
      have c4 : (qa : ℤ) < Z + 1 := by exact_mod_cast c2
      omega
    · have hy0 := hs4 hA0
      obtain ⟨z1, z2⟩ := hneg hy0
      rw [abs_of_nonpos hy0] at hqa hqb
      have hAa : A = -(a : ℤ) := by rw [ha, Int.ofNat_natAbs_of_nonpos hA0]; ring
      rw [hAa, Int.neg_tdiv, htd]
      have c1 : -((qa : ℤ) : ℚ) < (Z : ℚ) + 1 := by push_cast; linarith
      have c2 : (Z : ℚ) < -((qa : ℤ) : ℚ) + 1 := by push_cast; linarith
      have c3 : -(qa : ℤ) < Z + 1 := by exact_mod_cast c1
      have c4 : Z < -(qa : ℤ) + 1 := by exact_mod_cast c2
      omega
  · rw [haabs] at hqle
    have hyle : |y| ≤ |(A : ℚ)| + 1 := by linarith
    obtain ⟨y1, y2⟩ := abs_le.mp hyle
    rw [abs_le]
    rcases le_total 0 y with h | h
    · obtain ⟨z1, z2⟩ := hpos h
      constructor <;> linarith
    · obtain ⟨z1, z2⟩ := hneg h
      constructor <;> linarith

/-- The whole part stored by `NewDecimal` is the conversion of the integer part
of the float quotient. -/
theorem newDecimal_whole (A : ℤ) (p : Nat) :
    (NewDecimal A p).whole = toInt64 (modf (mul (ofInt A) (pow10Neg p))).1 := by
  rfl

/-- The float quotient `float64(A) * Pow10(-p)` of `NewDecimal`: it is finite,
within two roundings of `A` in units of `10^-p`, has the sign of `A`, and is
not below the quotient in magnitude when the division is exact; the last holds
at every precision but 11, where `Pow10(-11)` lies too far below `10^-11`. -/
theorem mul_decimal (A : ℤ) (p : Nat) (hp : p ≤ 18) (hA : |A| ≤ 10 ^ 15) :
    isFinite (mul (ofInt A) (pow10Neg p)) = true
    ∧ |toRat (mul (ofInt A) (pow10Neg p)) * (10 : ℚ) ^ p - A| ≤ 10 ^ 15 / 2 ^ 52 + 1 / 2 ^ 52
    ∧ (0 ≤ A → 0 ≤ toRat (mul (ofInt A) (pow10Neg p)))
    ∧ (A ≤ 0 → toRat (mul (ofInt A) (pow10Neg p)) ≤ 0)
    ∧ (p ≠ 11 → A.natAbs % 10 ^ p = 0 →
        ((A.natAbs / 10 ^ p : ℕ) : ℚ) ≤ |toRat (mul (ofInt A) (pow10Neg p))|) := by
  obtain ⟨hT1, hT2⟩ := ten_pow_bounds p hp
  have hAq : |(A : ℚ)| ≤ 10 ^ 15 := by
    have : ((|A| : ℤ) : ℚ) ≤ ((10 ^ 15 : ℤ) : ℚ) := by exact_mod_cast hA
    rw [Int.cast_abs] at this
    simpa using this
  have hA53 : |A| < 2 ^ 53 := lt_of_le_of_lt hA (by norm_num)
  obtain ⟨ha1, ha2⟩ := ofInt_exact A hA53
  obtain ⟨hc1, hc2, hc3⟩ := pow10Neg_spec p (by omega)
  have hcT : toRat (pow10Neg p) ≤ 2 := by
    have h1 : toRat (pow10Neg p) ≤ toRat (pow10Neg p) * (10 : ℚ) ^ p :=
      le_mul_of_one_le_right hc2.le hT1
    have := (abs_le.mp hc3).2
    norm_num at this
    linarith
  have hXb : |toRat (ofInt A) * toRat (pow10Neg p)| ≤ 2 * 10 ^ 15 := by
    rw [ha2, abs_mul, abs_of_pos hc2]
    calc |(A : ℚ)| * toRat (pow10Neg p) ≤ 10 ^ 15 * 2 :=
          mul_le_mul hAq hcT hc2.le (by norm_num)
      _ = 2 * 10 ^ 15 := by norm_num
  obtain ⟨hy1, hy2⟩ := mul_rnd (ofInt A) (pow10Neg p) ha1 hc1
    (le_two_pow_1023 _ (le_trans hXb (by norm_num)))
  have hyb := quotient_bound _ _ _ (10 ^ 15) A hT1 hT2 (by norm_num) hAq hc3
    (by rw [ha2] at hy2; exact hy2)
  -- the exact case
  have haabs : ((A.natAbs : ℕ) : ℚ) = |(A : ℚ)| := natAbs_cast_abs A
  have hex : p ≠ 11 → A.natAbs % 10 ^ p = 0 →
      ((A.natAbs / 10 ^ p : ℕ) : ℚ) ≤ |toRat (mul (ofInt A) (pow10Neg p))| := by
    intro hne h0
    have hdm : A.natAbs = A.natAbs / 10 ^ p * 10 ^ p + A.natAbs % 10 ^ p :=
      (Nat.div_add_mod' _ _).symm
    have hX : |toRat (ofInt A) * toRat (pow10Neg p)|
        = ((A.natAbs / 10 ^ p : ℕ) : ℚ) * (toRat (pow10Neg p) * (10 : ℚ) ^ p) := by
      rw [ha2, abs_mul, abs_of_pos hc2, ← haabs]
      have : ((A.natAbs : ℕ) : ℚ) = ((A.natAbs / 10 ^ p : ℕ) : ℚ) * (10 : ℚ) ^ p := by
        have h := hdm
        rw [h0, add_zero] at h
        exact_mod_cast h
      rw [this]
      ring
    have hlt : |toRat (ofInt A) * toRat (pow10Neg p)| < 2 ^ 53 :=
      lt_of_le_of_lt hXb (by norm_num)
    rcases Nat.eq_zero_or_pos (A.natAbs / 10 ^ p) with hq0 | hqpos
    · rw [hq0]; simp
    · have hq1 : (0 : ℚ) < ((A.natAbs / 10 ^ p : ℕ) : ℚ) := by exact_mod_cast hqpos
      rcases pow10Neg_near p hp hne with h | h
      · apply mul_ge_nat _ _ ha1 hc1 _ _ hlt
        rw [hX]
        exact le_mul_of_one_le_right hq1.le h
      · apply le_of_eq
        symm
        apply mul_near_nat _ _ ha1 hc1 _ hlt
        rw [hX]
        generalize toRat (pow10Neg p) * (10 : ℚ) ^ p = κ at h
        generalize ((A.natAbs / 10 ^ p : ℕ) : ℚ) = q at hq1
        have e1 : q * κ - q = q * (κ - 1) := by ring
        rw [e1, abs_mul, abs_of_pos hq1, mul_assoc]
        exact mul_lt_mul_of_pos_left h hq1
  obtain ⟨-, -, hs3, hs4⟩ := hy2
  rw [ha2] at hs3 hs4
  exact ⟨hy1, hyb, fun h => hs3 (mul_nonneg (by exact_mod_cast h) hc2.le),
    fun h => hs4 (mul_nonpos_of_nonpos_of_nonneg (by exact_mod_cast h) hc2.le), hex⟩

/-- The integer part of the float quotient of `NewDecimal` is the quotient of
the integer division, truncated toward zero, at every precision but 11 and for
every amount that `10^p` does not divide. -/
theorem newDecimal_quotient (A : ℤ) (p : Nat) (hp : p ≤ 18) (hA : |A| ≤ 10 ^ 15)
    (h11 : p ≠ 11 ∨ A.natAbs % 10 ^ p ≠ 0) :
    toInt64 (modf (mul (ofInt A) (pow10Neg p))).1 = A.tdiv (10 ^ p) := by
  obtain ⟨hy1, hyb, hs3, hs4, hex⟩ := mul_decimal A p hp hA
  have hex' : A.natAbs % 10 ^ p = 0 →
      ((A.natAbs / 10 ^ p : ℕ) : ℚ) ≤ |toRat (mul (ofInt A) (pow10Neg p))| := by
    intro h0
    rcases h11 with h | h
    · exact hex h h0
    · exact absurd h0 h
  have hAq : |(A : ℚ)| ≤ 10 ^ 15 := by
    have : ((|A| : ℤ) : ℚ) ≤ ((10 ^ 15 : ℤ) : ℚ) := by exact_mod_cast hA
    rw [Int.cast_abs] at this
    push_cast at this
    linarith
  generalize mul (ofInt A) (pow10Neg p) = y at hy1 hyb hs3 hs4 hex'
  obtain ⟨hw, -, Z, hZ, hY, hF, hpos, hneg⟩ := modf_spec y hy1
  generalize (modf y).1 = w at hw hZ
  generalize toRat (modf y).2 = fr at hY hF hpos hneg
  have hTc : ((10 ^ p : ℕ) : ℚ) = (10 : ℚ) ^ p := by push_cast; rfl
  have hTi : ((10 ^ p : ℕ) : ℤ) = (10 : ℤ) ^ p := by push_cast; rfl
  obtain ⟨hZq, hZb⟩ := trunc_eq_tdiv A (10 ^ p) (toRat y) fr Z (Nat.one_le_two_pow.trans
      (Nat.pow_le_pow_left (by norm_num) p)) hY hF hpos hneg hs3 hs4
    (by rw [hTc]; exact le_trans hyb (by norm_num)) hex'
  rw [hTi] at hZq
  have hZb2 : |(Z : ℚ)| ≤ ((2 ^ 51 : ℕ) : ℚ) := by push_cast; linarith
  obtain ⟨hZ1, hZ2⟩ := int_abs_le_of_cast Z (2 ^ 51) hZb2
  rw [← hZq]
  apply toInt64_eq w hw Z (by push_cast at hZ1; omega) (by push_cast at hZ2; omega)
  rw [hZ]
  rcases le_total 0 (Z : ℚ) with h | h
  · left; exact ⟨h, le_rfl, lt_add_one _⟩
  · right; exact ⟨h, sub_one_lt _, le_rfl⟩

/-- `NewDecimal` on amounts up to `10^15` and precisions up to 18: whole is the
quotient of `amount` by `10^p` truncated toward zero and fraction is the
remainder, whenever the stored fraction is below `10^p` in magnitude. -/
theorem newDecimal_eq_of_fraction (A : ℤ) (p : Nat) (hp : p ≤ 18) (hA : |A| ≤ 10 ^ 15)
    (hfr : |(NewDecimal A p).fraction| < 10 ^ p) :
    NewDecimal A p = ⟨A.tdiv (10 ^ p), A.tmod (10 ^ p), p, 44, 46⟩ := by
  obtain ⟨W, hW, -, -, hpos, hneg⟩ := newDecimal_spec A p hp hA
  rw [hW] at hfr ⊢
  simp only [] at hfr
  have hs : (0 ≤ W ∧ 0 ≤ A - W * 10 ^ p) ∨ (W ≤ 0 ∧ A - W * 10 ^ p ≤ 0) := by
    rcases le_total 0 A with h | h
    · exact Or.inl (hpos h)
    · exact Or.inr (hneg h)
  obtain ⟨t1, t2, -⟩ := tdiv_of_parts W (A - W * 10 ^ p) (10 ^ p) (by push_cast; exact hfr) hs
  push_cast at t1 t2
  have e : W * 10 ^ p + (A - W * 10 ^ p) = A := by ring
  rw [e] at t1 t2
  rw [t1, t2]

/-- `NewDecimal` on amounts up to `10^15` and precisions up to 18: whole is the
quotient of `amount` by `10^p` truncated toward zero and fraction is the
remainder, at every precision but 11, for every amount that is not a multiple
of `10^11`, and whenever the stored fraction is below `10^11` in magnitude. -/
theorem newDecimal_eq (A : ℤ) (p : Nat) (hp : p ≤ 18) (hA : |A| ≤ 10 ^ 15)
    (h11 : p ≠ 11 ∨ ¬ ((10 : ℤ) ^ 11 ∣ A) ∨ |(NewDecimal A p).fraction| < 10 ^ 11) :
    NewDecimal A p = ⟨A.tdiv (10 ^ p), A.tmod (10 ^ p), p, 44, 46⟩ := by
  by_cases hq : p ≠ 11 ∨ A.natAbs % 10 ^ p ≠ 0
  · obtain ⟨W, hW, -⟩ := newDecimal_spec A p hp hA
    have h1 := newDecimal_whole A p
    rw [newDecimal_quotient A p hp hA hq, hW] at h1
    simp only [] at h1
    rw [hW, h1, Int.tmod_def]
    congr 1
    ring
  · rw [not_or, not_not, not_not] at hq
    obtain ⟨hp11, h0⟩ := hq
    subst hp11
    rcases h11 with h | h | h
    · exact absurd rfl h
    · exfalso
      apply h
      have hd : (10 ^ 11 : ℕ) ∣ A.natAbs := Nat.dvd_of_mod_eq_zero h0
      have : ((10 ^ 11 : ℕ) : ℤ) ∣ A := Int.natCast_dvd.mpr hd
      simpa using this
    · exact newDecimal_eq_of_fraction A 11 hp hA h

/-! ### `NewDecimalFromFloat`: quotient and remainder -/

/-- `NewDecimalFromFloat` on a float within `E ≤ 1/4` of `A / 10^p` in units of
`10^-p`, with the sign of `A` and not below the quotient when the division is
exact: whole is the quotient of `A` by `10^p` truncated toward zero and
fraction is the remainder, within the error budget of
`newDecimalFromFloat_spec`. -/
theorem newDecimalFromFloat_eq (y : F64) (p : Nat) (A : ℤ) (E Bf : ℚ)
    (hy : isFinite y = true) (hp : p ≤ 18) (hA : |A| ≤ 2 ^ 53)
    (hcl : |toRat y * (10 : ℚ) ^ p - A| ≤ E) (hE4 : E ≤ 1 / 4)
    (hBf : (10 : ℚ) ^ p ≤ Bf ∨ |(A : ℚ)| + 1 ≤ Bf)
    (hE : E + 5 * Bf / 2 ^ 53 + 1 / 200 + 1 / 2 ^ 39 ≤ 1 / 2)
    (hs3 : 0 ≤ A → 0 ≤ toRat y) (hs4 : A ≤ 0 → toRat y ≤ 0)
    (hex : A.natAbs % 10 ^ p = 0 → ((A.natAbs / 10 ^ p : ℕ) : ℚ) ≤ |toRat y|) :
    NewDecimalFromFloat y p = ⟨A.tdiv (10 ^ p), A.tmod (10 ^ p), p, 44, 46⟩ := by
  obtain ⟨W, hW, -, hWm, -⟩ := newDecimalFromFloat_spec y p A E Bf hy hp hA hcl hBf hE
  obtain ⟨-, -, Z, hZ, hY, hF, hpos, hneg⟩ := modf_spec y hy
  have hWZ : W = Z := by
    have : (W : ℚ) = (Z : ℚ) := by rw [← hWm, hZ]
    exact_mod_cast this
  have hTc : ((10 ^ p : ℕ) : ℚ) = (10 : ℚ) ^ p := by push_cast; rfl
  have hTi : ((10 ^ p : ℕ) : ℤ) = (10 : ℤ) ^ p := by push_cast; rfl
  obtain ⟨hZq, -⟩ := trunc_eq_tdiv A (10 ^ p) (toRat y) _ Z (Nat.one_le_two_pow.trans
      (Nat.pow_le_pow_left (by norm_num) p)) hY hF hpos hneg hs3 hs4
    (by rw [hTc]; exact le_trans hcl hE4) hex
  rw [hTi] at hZq
  rw [hW, hWZ, hZq, Int.tmod_def]
  congr 1
  ring

/-- The binary64 nearest to the decimal `A / 10^p`, as a decimal literal or a
correctly rounded parse gives it: within one rounding of `A` in units of
`10^-p`, for `|A| ≤ 10^15`. -/
theorem ofRat_decimal (A : ℤ) (p : Nat) (hp : p ≤ 18) (hA : |A| ≤ 10 ^ 15) :
    isFinite (ofRat (decide (A < 0)) A.natAbs (10 ^ p)) = true
    ∧ |toRat (ofRat (decide (A < 0)) A.natAbs (10 ^ p)) * (10 : ℚ) ^ p - A|
        ≤ 10 ^ 15 / 2 ^ 53 + 1 / 10 ^ 42
    ∧ (0 ≤ A → 0 ≤ toRat (ofRat (decide (A < 0)) A.natAbs (10 ^ p)))
    ∧ (A ≤ 0 → toRat (ofRat (decide (A < 0)) A.natAbs (10 ^ p)) ≤ 0)
    ∧ (A.natAbs % 10 ^ p = 0 →
        ((A.natAbs / 10 ^ p : ℕ) : ℚ) ≤ |toRat (ofRat (decide (A < 0)) A.natAbs (10 ^ p))|) := by
  obtain ⟨hT1, hT2⟩ := ten_pow_bounds p hp
  have hTpos : 0 < 10 ^ p := by positivity
  have hTc : ((10 ^ p : ℕ) : ℚ) = (10 : ℚ) ^ p := by push_cast; rfl
  have haabs : ((A.natAbs : ℕ) : ℚ) = |(A : ℚ)| := natAbs_cast_abs A
  have hAq : |(A : ℚ)| ≤ 10 ^ 15 := by
    have : ((|A| : ℤ) : ℚ) ≤ ((10 ^ 15 : ℤ) : ℚ) := by exact_mod_cast hA
    rw [Int.cast_abs] at this
    simpa using this
  have hquot : ((A.natAbs : ℕ) : ℚ) / ((10 ^ p : ℕ) : ℚ) ≤ 10 ^ 15 := by
    rw [hTc, haabs, div_le_iff₀ (by linarith)]
    calc |(A : ℚ)| ≤ 10 ^ 15 := hAq
      _ ≤ 10 ^ 15 * (10 : ℚ) ^ p := le_mul_of_one_le_right (by norm_num) hT1
  obtain ⟨hf, hr⟩ := roundRat_rnd (decide (A < 0)) A.natAbs (10 ^ p) hTpos
    (le_two_pow_1023 _ (le_trans hquot (by norm_num)))
  have hX : sgn (decide (A < 0)) * (((A.natAbs : ℕ) : ℚ) / ((10 ^ p : ℕ) : ℚ))
      = (A : ℚ) / (10 : ℚ) ^ p := by
    rw [hTc, ← mul_div_assoc, sgn_decide_natAbs]
  rw [hX] at hr
  unfold ofRat
  refine ⟨hf, ?_, ?_, ?_, ?_⟩
  · have hXT : (A : ℚ) / (10 : ℚ) ^ p * (10 : ℚ) ^ p = A := by
      field_simp
    have hB : |(A : ℚ) / (10 : ℚ) ^ p * (10 : ℚ) ^ p| ≤ 10 ^ 15 := by rw [hXT]; exact hAq
    have h := hr.scaled ((10 : ℚ) ^ p) _ (by linarith) hT2 hB
    rw [hXT] at h
    exact h
  · intro h
    apply hr.2.2.1
    exact div_nonneg (by exact_mod_cast h) (by linarith)
  · intro h
    apply hr.2.2.2
    exact div_nonpos_of_nonpos_of_nonneg (by exact_mod_cast h) (by linarith)
  · intro h0
    have hdm : A.natAbs = A.natAbs / 10 ^ p * 10 ^ p + A.natAbs % 10 ^ p :=
      (Nat.div_add_mod' _ _).symm
    rw [h0, add_zero] at hdm
    have hq : ((A.natAbs : ℕ) : ℚ) / ((10 ^ p : ℕ) : ℚ)
        = ((A.natAbs / 10 ^ p : ℕ) : ℚ) * (2 : ℚ) ^ (0 : ℤ) := by
      rw [zpow_zero, mul_one, div_eq_iff (by positivity)]
      exact_mod_cast hdm
    have hlt : A.natAbs / 10 ^ p < 2 ^ 53 := by
      have h1 : A.natAbs / 10 ^ p ≤ A.natAbs := Nat.div_le_self _ _
      have h2 : ((A.natAbs : ℕ) : ℚ) ≤ 10 ^ 15 := by rw [haabs]; exact hAq
      have h3 : A.natAbs ≤ 10 ^ 15 := by exact_mod_cast h2
      omega
    obtain ⟨-, he⟩ := roundRat_exact (decide (A < 0)) A.natAbs (10 ^ p) hTpos
      (A.natAbs / 10 ^ p) 0 hlt (by norm_num) (by norm_num) hq
    rw [he, abs_sgn_mul, hq, zpow_zero, mul_one]
    exact le_abs_self _

/-! ### `ToFloat` of a Decimal within the invariants -/

/-- Go `x + y` is exact when the sum is a binary64. -/
theorem add_representable (x y : F64) (hx : isFinite x = true) (hy : isFinite y = true)
    (M : Nat) (E : ℤ) (hM : M < 2 ^ 53) (hE : -1074 ≤ E) (hE2 : E ≤ 970)
    (hX : |toRat x + toRat y| = (M : ℚ) * (2 : ℚ) ^ E) :
    isFinite (add x y) = true ∧ toRat (add x y) = toRat x + toRat y := by
  obtain ⟨s, m, e, rfl, -, -, -⟩ := (isFinite_iff x).mp hx
  obtain ⟨t, n, g, rfl, -, -, -⟩ := (isFinite_iff y).mp hy
  simp only [add]
  set k := min e g with hk
  set i := sig s m * 2 ^ (e - k).toNat + sig t n * 2 ^ (g - k).toNat with hi
  have hek : 0 ≤ e - k := by have := min_le_left e g; omega
  have hgk : 0 ≤ g - k := by have := min_le_right e g; omega
  have hS : toRat (fin s m e) + toRat (fin t n g) = (i : ℚ) * (2 : ℚ) ^ k := by
    simp only [toRat, hi]
    push_cast
    rw [sig_cast, sig_cast, two_pow_toNat _ hek, two_pow_toNat _ hgk, add_mul]
    have h1 : (2 : ℚ) ^ (e - k) * (2 : ℚ) ^ k = (2 : ℚ) ^ e := by
      rw [← zpow_add₀ (by norm_num : (2 : ℚ) ≠ 0)]; congr 1; ring
    have h2 : (2 : ℚ) ^ (g - k) * (2 : ℚ) ^ k = (2 : ℚ) ^ g := by
      rw [← zpow_add₀ (by norm_num : (2 : ℚ) ≠ 0)]; congr 1; ring
    rw [mul_assoc, mul_assoc, mul_assoc, mul_assoc, h1, h2]
  rw [hS] at hX ⊢
  by_cases h0 : i = 0
  · rw [if_pos h0, h0]
    refine ⟨by simp [isFinite], ?_⟩
    simp [toRat]
  · rw [if_neg h0]
    rw [abs_mul, abs_of_pos (two_zpow_pos k)] at hX
    exact roundInt_exact i k M E hM hE hE2 hX

/-- A value and its sign bit. -/
theorem sign_bit (s : Bool) (m : Nat) (e : ℤ) :
    (toRat (fin s m e) < 0 → s = true) ∧ (0 < toRat (fin s m e) → s = false) := by
  have h : (0 : ℚ) ≤ (m : ℚ) * (2 : ℚ) ^ e := mul_nonneg (Nat.cast_nonneg m) (two_zpow_pos e).le
  simp only [toRat]
  cases s
  · simp only [sgn, Bool.false_eq_true, if_false, one_mul, implies_true, and_true]
    intro h1
    linarith
  · simp only [sgn, if_true, implies_true, true_and]
    intro h1
    linarith

/-- `ToFloat` of the zero Decimal is `+0`. -/
theorem toFloat_zero (d : Decimal) (hp : d.precision ≤ 18) (hw : d.whole = 0)
    (hf : d.fraction = 0) : ToFloat d = fin false 0 (-1074) := by
  unfold ToFloat
  rw [hw, hf]
  generalize d.precision = p at hp
  interval_cases p <;> decide!

/-- `ToFloat` of a Decimal within the invariants (the fraction below
`10^precision` in magnitude and not of the sign opposite to whole) and of
magnitude up to `10^15` in units of `10^-precision`: the float is within one
rounding of the whole part and three of the fraction of the value, has its
sign, and is not below the whole part in magnitude when the fraction is zero. -/
theorem toFloat_inv (d : Decimal) (hp : d.precision ≤ 18)
    (hfr : |d.fraction| < 10 ^ d.precision)
    (hs : (0 ≤ d.whole ∧ 0 ≤ d.fraction) ∨ (d.whole ≤ 0 ∧ d.fraction ≤ 0))
    (hb : |d.whole| * 10 ^ d.precision + |d.fraction| ≤ 10 ^ 15) :
    isFinite (ToFloat d) = true
    ∧ |toRat (ToFloat d) * (10 : ℚ) ^ d.precision
        - ((d.whole * 10 ^ d.precision + d.fraction : ℤ) : ℚ)|
        ≤ (|(d.whole : ℚ)| * (10 : ℚ) ^ d.precision + 3 * |(d.fraction : ℚ)|) / 2 ^ 53
          + 1 / 2 ^ 50
    ∧ (0 ≤ d.whole * 10 ^ d.precision + d.fraction → 0 ≤ toRat (ToFloat d))
    ∧ (d.whole * 10 ^ d.precision + d.fraction ≤ 0 → toRat (ToFloat d) ≤ 0)
    ∧ ((d.whole * 10 ^ d.precision + d.fraction).natAbs % 10 ^ d.precision = 0 →
        (((d.whole * 10 ^ d.precision + d.fraction).natAbs / 10 ^ d.precision : ℕ) : ℚ)
          ≤ |toRat (ToFloat d)|)
    ∧ |d.whole * 10 ^ d.precision + d.fraction| ≤ 10 ^ 15 := by
  obtain ⟨W, fr, p, dp, ts⟩ := d
  simp only [] at hp hfr hs hb ⊢
  obtain ⟨hT1, hT2⟩ := ten_pow_bounds p hp
  have hTi : (0 : ℤ) < 10 ^ p := by positivity
  have hTi1 : (1 : ℤ) ≤ 10 ^ p := by exact_mod_cast Nat.one_le_pow p 10 (by norm_num)
  have hWb : |W| * 10 ^ p ≤ 10 ^ 15 := by have := abs_nonneg fr; linarith
  have hfb : |fr| ≤ 10 ^ 15 := by
    have : 0 ≤ |W| * 10 ^ p := by positivity
    linarith
  have hW1 : |W| ≤ 10 ^ 15 := by
    have : |W| * 1 ≤ |W| * 10 ^ p := mul_le_mul_of_nonneg_left hTi1 (abs_nonneg W)
    linarith
  have hWq : |(W : ℚ)| * (10 : ℚ) ^ p ≤ 10 ^ 15 := by
    have : ((|W| * 10 ^ p : ℤ) : ℚ) ≤ ((10 ^ 15 : ℤ) : ℚ) := by exact_mod_cast hWb
    push_cast at this
    exact this
  have hfq : |(fr : ℚ)| ≤ 10 ^ 15 := by
    have : ((|fr| : ℤ) : ℚ) ≤ ((10 ^ 15 : ℤ) : ℚ) := by exact_mod_cast hfb
    push_cast at this
    exact this
  obtain ⟨hfin, hcl⟩ := toFloat_scaled ⟨W, fr, p, dp, ts⟩ p _ _ hp le_rfl
    (by linarith : |(W : ℚ)| * (10 : ℚ) ^ p ≤ 2 ^ 52)
    (by simp only [Nat.sub_self, pow_zero, mul_one]; linarith :
      |(fr : ℚ)| * (10 : ℚ) ^ (p - p) ≤ 2 ^ 52) le_rfl le_rfl
  simp only [Nat.sub_self, pow_zero, mul_one] at hcl
  -- the two roundings of `ToFloat`
  have hW53 : |W| < 2 ^ 53 := lt_of_le_of_lt hW1 (by norm_num)
  have hf53 : |fr| < 2 ^ 53 := lt_of_le_of_lt hfb (by norm_num)
  obtain ⟨hw1, hw2⟩ := ofInt_exact W hW53
  obtain ⟨hf1, hf2⟩ := ofInt_exact fr hf53
  obtain ⟨hc1, hc2, hc3⟩ := pow10Neg_spec p (by omega)
  have hcT : toRat (pow10Neg p) ≤ 2 := by
    have h1 : toRat (pow10Neg p) ≤ toRat (pow10Neg p) * (10 : ℚ) ^ p :=
      le_mul_of_one_le_right hc2.le hT1
    have := (abs_le.mp hc3).2
    norm_num at this
    linarith
  obtain ⟨hm1, hm2⟩ := mul_rnd (ofInt fr) (pow10Neg p) hf1 hc1 (by
    apply le_two_pow_1023
    rw [hf2, abs_mul, abs_of_pos hc2]
    calc |(fr : ℚ)| * toRat (pow10Neg p) ≤ 10 ^ 15 * 2 :=
          mul_le_mul hfq hcT hc2.le (by norm_num)
      _ ≤ 2 ^ 100 := by norm_num)
  rw [hf2] at hm2
  have hmb : |toRat (mul (ofInt fr) (pow10Neg p))| ≤ 2 ^ 52 := by
    obtain ⟨e1, -, -, -⟩ := hm2
    have e2 : |(fr : ℚ) * toRat (pow10Neg p)| ≤ 10 ^ 15 * 2 := by
      rw [abs_mul, abs_of_pos hc2]
      exact mul_le_mul hfq hcT hc2.le (by norm_num)
    have e3 := eta_small
    rw [u_eq] at e1
    obtain ⟨a1, a2⟩ := abs_le.mp e1
    obtain ⟨b1, b2⟩ := abs_le.mp e2
    have e4 : |(fr : ℚ) * toRat (pow10Neg p)| * (1 / 2 ^ 53) ≤ 10 ^ 15 * 2 * (1 / 2 ^ 53) :=
      mul_le_mul_of_nonneg_right e2 (by norm_num)
    rw [abs_le]
    constructor <;> norm_num at e3 e4 ⊢ <;> linarith
  obtain ⟨ha1, ha2⟩ := add_rnd (ofInt W) (mul (ofInt fr) (pow10Neg p)) hw1 hm1 (by
    apply le_two_pow_1023
    rw [hw2]
    have hWq1 : |(W : ℚ)| ≤ 10 ^ 15 := by
      have : ((|W| : ℤ) : ℚ) ≤ ((10 ^ 15 : ℤ) : ℚ) := by exact_mod_cast hW1
      push_cast at this
      exact this
    calc |(W : ℚ) + toRat (mul (ofInt fr) (pow10Neg p))|
        ≤ |(W : ℚ)| + |toRat (mul (ofInt fr) (pow10Neg p))| := abs_add _ _
      _ ≤ 10 ^ 15 + 2 ^ 52 := add_le_add hWq1 hmb
      _ ≤ 2 ^ 100 := by norm_num)
  rw [hw2] at ha2
  have hToFloat : ToFloat ⟨W, fr, p, dp, ts⟩ = add (ofInt W) (mul (ofInt fr) (pow10Neg p)) := rfl
  have hcast : ((W * 10 ^ p + fr : ℤ) : ℚ) = (W : ℚ) * (10 : ℚ) ^ p + fr := by push_cast; rfl
  refine ⟨hfin, ?_, ?_, ?_, ?_, ?_⟩
  · rw [hcast]; exact hcl
  · intro hA
    have hW0 : 0 ≤ W ∧ 0 ≤ fr := by
      rcases hs with h | ⟨h1, h2⟩
      · exact h
      · have h3 : W * 10 ^ p ≤ 0 := mul_nonpos_of_nonpos_of_nonneg h1 hTi.le
        have h4 : W * 10 ^ p = 0 := by linarith
        have h5 : fr = 0 := by linarith
        have h6 : W = 0 := by
          rcases mul_eq_zero.mp h4 with h | h
          · exact h
          · exact absurd h hTi.ne'
        exact ⟨h6.ge, h5.ge⟩
    rw [hToFloat]
    apply ha2.2.2.1
    have hm0 : 0 ≤ toRat (mul (ofInt fr) (pow10Neg p)) :=
      hm2.2.2.1 (mul_nonneg (by exact_mod_cast hW0.2) hc2.le)
    have : (0 : ℚ) ≤ (W : ℚ) := by exact_mod_cast hW0.1
    linarith
  · intro hA
    have hW0 : W ≤ 0 ∧ fr ≤ 0 := by
      rcases hs with ⟨h1, h2⟩ | h
      · have h3 : 0 ≤ W * 10 ^ p := mul_nonneg h1 hTi.le
        have h4 : W * 10 ^ p = 0 := by linarith
        have h5 : fr = 0 := by linarith
        have h6 : W = 0 := by
          rcases mul_eq_zero.mp h4 with h | h
          · exact h
          · exact absurd h hTi.ne'
        exact ⟨h6.le, h5.le⟩
      · exact h
    rw [hToFloat]
    apply ha2.2.2.2
    have hm0 : toRat (mul (ofInt fr) (pow10Neg p)) ≤ 0 :=
      hm2.2.2.2 (mul_nonpos_of_nonpos_of_nonneg (by exact_mod_cast hW0.2) hc2.le)
    have : (W : ℚ) ≤ 0 := by exact_mod_cast hW0.1
    linarith
  · intro h0
    obtain ⟨t1, t2, t3⟩ := tdiv_of_parts W fr (10 ^ p) (by push_cast; exact hfr) hs
    push_cast at t1 t2 t3
    have hTn : 0 < 10 ^ p := by positivity
    have hfn : fr.natAbs < 10 ^ p := by
      zify
      exact hfr
    rw [t3] at h0 ⊢
    rw [Nat.add_comm, Nat.add_mul_mod_self_right, Nat.mod_eq_of_lt hfn] at h0
    have hfr0 : fr = 0 := Int.natAbs_eq_zero.mp h0
    rw [h0, Nat.add_zero, Nat.mul_div_cancel _ hTn, natAbs_cast_abs]
    -- the float is the whole part, exactly
    have hmz : toRat (mul (ofInt fr) (pow10Neg p)) = 0 := by
      apply hm2.2.1
      rw [hfr0]
      simp
    obtain ⟨-, hex⟩ := add_representable (ofInt W) (mul (ofInt fr) (pow10Neg p)) hw1 hm1 W.natAbs 0
      (by zify; exact hW53) (by norm_num) (by norm_num)
      (by rw [hw2, hmz, add_zero, zpow_zero, mul_one, natAbs_cast_abs])
    rw [hToFloat, hex, hw2, hmz, add_zero]
  · calc |W * 10 ^ p + fr| ≤ |W * 10 ^ p| + |fr| := abs_add _ _
      _ = |W| * 10 ^ p + |fr| := by rw [abs_mul, abs_of_pos hTi]
      _ ≤ 10 ^ 15 := hb

/-- `NewDecimalFromFloat` undoes `ToFloat` on Decimals within the invariants
and of magnitude up to `10^15` in units of `10^-precision` (up to `4 * 10^14`
above precision 14, where the fraction alone carries all the digits). -/
theorem newDecimalFromFloat_toFloat (d : Decimal) (hp : d.precision ≤ 18)
    (hfr : |d.fraction| < 10 ^ d.precision)
    (hs : (0 ≤ d.whole ∧ 0 ≤ d.fraction) ∨ (d.whole ≤ 0 ∧ d.fraction ≤ 0))
    (hb : |d.whole| * 10 ^ d.precision + |d.fraction| ≤ 10 ^ 15)
    (hp15 : 14 < d.precision → |d.whole| * 10 ^ d.precision + |d.fraction| ≤ 4 * 10 ^ 14) :
    NewDecimalFromFloat (ToFloat d) d.precision = ⟨d.whole, d.fraction, d.precision, 44, 46⟩ := by
  obtain ⟨h1, h2, h3, h4, h5, h6⟩ := toFloat_inv d hp hfr hs hb
  obtain ⟨t1, t2, -⟩ := tdiv_of_parts d.whole d.fraction (10 ^ d.precision)
    (by push_cast; exact hfr) hs
  push_cast at t1 t2
  have hbq : |(d.whole : ℚ)| * (10 : ℚ) ^ d.precision + |(d.fraction : ℚ)| ≤ 10 ^ 15 := by
    have : ((|d.whole| * 10 ^ d.precision + |d.fraction| : ℤ) : ℚ) ≤ ((10 ^ 15 : ℤ) : ℚ) := by
      exact_mod_cast hb
    push_cast at this
    exact this
  have hfrq : |(d.fraction : ℚ)| ≤ (10 : ℚ) ^ d.precision := by
    have : ((|d.fraction| : ℤ) : ℚ) ≤ ((10 ^ d.precision : ℤ) : ℚ) := by
      exact_mod_cast hfr.le
    push_cast at this
    exact this
  have hW0 : 0 ≤ |(d.whole : ℚ)| * (10 : ℚ) ^ d.precision := by positivity
  have hf0 := abs_nonneg (d.fraction : ℚ)
  have hAq : |((d.whole * 10 ^ d.precision + d.fraction : ℤ) : ℚ)|
      ≤ |(d.whole : ℚ)| * (10 : ℚ) ^ d.precision + |(d.fraction : ℚ)| := by
    push_cast
    have := abs_add ((d.whole : ℚ) * (10 : ℚ) ^ d.precision) (d.fraction : ℚ)
    rw [abs_mul, abs_of_pos (by positivity : (0 : ℚ) < (10 : ℚ) ^ d.precision)] at this
    exact this
  obtain ⟨Bf, hBf1, hBf2, hBf3⟩ : ∃ Bf : ℚ, ((10 : ℚ) ^ d.precision ≤ Bf
        ∨ |((d.whole * 10 ^ d.precision + d.fraction : ℤ) : ℚ)| + 1 ≤ Bf)
      ∧ |(d.whole : ℚ)| * (10 : ℚ) ^ d.precision + 3 * |(d.fraction : ℚ)| + 5 * Bf
          ≤ 33 * 10 ^ 14
      ∧ |(d.whole : ℚ)| * (10 : ℚ) ^ d.precision + 3 * |(d.fraction : ℚ)| ≤ 12 * 10 ^ 14 := by
    by_cases hc : d.precision ≤ 14
    · have hT14 : (10 : ℚ) ^ d.precision ≤ 10 ^ 14 := pow_le_pow_right₀ (by norm_num) hc
      exact ⟨10 ^ 14, Or.inl hT14, by linarith, by linarith⟩
    · have h15 := hp15 (by omega)
      have h15q : |(d.whole : ℚ)| * (10 : ℚ) ^ d.precision + |(d.fraction : ℚ)|
          ≤ 4 * 10 ^ 14 := by
        have : ((|d.whole| * 10 ^ d.precision + |d.fraction| : ℤ) : ℚ)
            ≤ ((4 * 10 ^ 14 : ℤ) : ℚ) := by exact_mod_cast h15
        push_cast at this
        linarith
      exact ⟨_, Or.inr le_rfl, by linarith, by linarith⟩
  have hBf0 : 0 ≤ Bf := by
    rcases hBf1 with h | h
    · have : (0 : ℚ) < (10 : ℚ) ^ d.precision := by positivity
      linarith
    · have := abs_nonneg ((d.whole * 10 ^ d.precision + d.fraction : ℤ) : ℚ)
      linarith
  rw [newDecimalFromFloat_eq (ToFloat d) d.precision (d.whole * 10 ^ d.precision + d.fraction)
    _ Bf h1 hp (le_trans h6 (by norm_num)) h2 (by linarith) hBf1 (by linarith) h3 h4 h5, t1, t2]

/-! ### `ToString` -/

/-- Rounding to the nearest natural number finds a natural number that is
less than one half away. -/
theorem roundHalfEven_eq (n d K : ℕ) (hd : 0 < d) (h : |(n : ℚ) / d - K| < 1 / 2) :
    roundHalfEven n d = K := by
  have hdq : (0 : ℚ) < (d : ℚ) := by exact_mod_cast hd
  have hdm := Nat.div_add_mod n d
  have hr := Nat.mod_lt n hd
  unfold roundHalfEven
  simp only []
  generalize n / d = q at hdm
  generalize n % d = r at hdm hr
  have hnq : (n : ℚ) / d = q + (r : ℚ) / d := by
    have : (n : ℚ) = d * q + r := by exact_mod_cast hdm.symm
    rw [this]; field_simp; ring
  rw [hnq] at h
  obtain ⟨h1, h2⟩ := abs_lt.mp h
  have hr0 : (0 : ℚ) ≤ (r : ℚ) / d := div_nonneg (Nat.cast_nonneg _) hdq.le
  have hr1 : (r : ℚ) / d < 1 := by rw [div_lt_one hdq]; exact_mod_cast hr
  have hK : K = q ∨ K = q + 1 := by
    have c1 : ((K : ℕ) : ℚ) < ((q + 2 : ℕ) : ℚ) := by push_cast; linarith
    have c2 : ((q : ℕ) : ℚ) < ((K + 1 : ℕ) : ℚ) := by push_cast; linarith
    have c3 : K < q + 2 := by exact_mod_cast c1
    have c4 : q < K + 1 := by exact_mod_cast c2
    omega
  rcases hK with hK | hK
  · have h3 : (r : ℚ) / d < 1 / 2 := by rw [hK] at h2; linarith
    have h4 : 2 * (r : ℚ) < d := by
      rw [div_lt_iff₀ hdq] at h3; linarith
    have h5 : 2 * r < d := by exact_mod_cast h4
    rw [if_neg (by omega), hK]
  · have h3 : 1 / 2 < (r : ℚ) / d := by rw [hK] at h1; push_cast at h1; linarith
    have h4 : (d : ℚ) < 2 * r := by
      rw [lt_div_iff₀ hdq] at h3; linarith
    have h5 : d < 2 * r := by exact_mod_cast h4
    rw [if_pos (Or.inl h5), hK]

/-- The rational that `formatFixed` rounds: the magnitude of the float in
units of `10^-prec`. -/
theorem formatFixed_quotient (prec m : ℕ) (e : ℤ) :
    ((m * 2 ^ e.toNat * 10 ^ prec : ℕ) : ℚ) / ((2 ^ (-e).toNat : ℕ) : ℚ)
      = (m : ℚ) * (2 : ℚ) ^ e * (10 : ℚ) ^ prec := by
  have h := scaled_val (m * 10 ^ prec) e
  have e1 : m * 2 ^ e.toNat * 10 ^ prec = m * 10 ^ prec * 2 ^ e.toNat := Nat.mul_right_comm _ _ _
  rw [e1, h]
  push_cast
  ring

/-- The digits of a number below `10^p`, padded with zeros, are `p` digits. -/
theorem padZeros_length (p n : ℕ) (hp : 0 < p) (hn : n < 10 ^ p) :
    (padZeros p (natDigits n)).length = p := by
  have h : (natDigits n).length ≤ p :=
    Nat.toDigitsCore_length 10 (by norm_num) (n + 1) n p hn hp
  simp only [padZeros, List.length_append, List.length_replicate]
  omega

/-- What `ToString` renders for a Decimal within the invariants and of
magnitude up to `10^15` in units of `10^-precision`: a `-` when whole or
fraction is negative, the digits of `|whole|`, and, unless the precision is
zero, the point and the digits of `|fraction|` padded with zeros to the
precision. -/
theorem toString_spec (d : Decimal) (hp : d.precision ≤ 18)
    (hfr : |d.fraction| < 10 ^ d.precision)
    (hs : (0 ≤ d.whole ∧ 0 ≤ d.fraction) ∨ (d.whole ≤ 0 ∧ d.fraction ≤ 0))
    (hb : |d.whole| * 10 ^ d.precision + |d.fraction| ≤ 10 ^ 15) :
    ToString d =
      (if d.whole < 0 ∨ d.fraction < 0 then ['-'] else [])
        ++ natDigits d.whole.natAbs
        ++ (if d.precision = 0 then []
            else '.' :: padZeros d.precision (natDigits d.fraction.natAbs)) := by
  obtain ⟨h1, h2', h3, h4, -, -⟩ := toFloat_inv d hp hfr hs hb
  have h2 : |toRat (ToFloat d) * (10 : ℚ) ^ d.precision
      - ((d.whole * 10 ^ d.precision + d.fraction : ℤ) : ℚ)| ≤ 3 / 8 := by
    refine le_trans h2' ?_
    have hbq : |(d.whole : ℚ)| * (10 : ℚ) ^ d.precision + |(d.fraction : ℚ)| ≤ 10 ^ 15 := by
      have : ((|d.whole| * 10 ^ d.precision + |d.fraction| : ℤ) : ℚ) ≤ ((10 ^ 15 : ℤ) : ℚ) := by
        exact_mod_cast hb
      push_cast at this
      exact this
    have hW0 : 0 ≤ |(d.whole : ℚ)| * (10 : ℚ) ^ d.precision := by positivity
    linarith
  clear h2'
  obtain ⟨-, -, t3⟩ := tdiv_of_parts d.whole d.fraction (10 ^ d.precision)
    (by push_cast; exact hfr) hs
  have hz := toFloat_zero d hp
  have hTS : ToString d = sprintfF d.precision (ToFloat d) := rfl
  rw [hTS]
  obtain ⟨W, fr, p, dp, ts⟩ := d
  simp only [] at hp hfr hs hb h1 h2 h3 h4 t3 hz ⊢
  push_cast at t3
  generalize ToFloat ⟨W, fr, p, dp, ts⟩ = y at h1 h2 h3 h4 hz
  obtain ⟨s, m, e, rfl, -, -, -⟩ := (isFinite_iff y).mp h1
  have hTn : 0 < 10 ^ p := by positivity
  have hTq : (0 : ℚ) < (10 : ℚ) ^ p := by positivity
  have hfn : fr.natAbs < 10 ^ p := by zify; exact hfr
  obtain ⟨A, hA⟩ : ∃ A : ℤ, A = W * 10 ^ p + fr := ⟨_, rfl⟩
  rw [← hA] at h2 h3 h4 t3
  -- the rounded magnitude
  have hN : roundHalfEven (m * 2 ^ e.toNat * 10 ^ p) (2 ^ (-e).toNat) = A.natAbs := by
    apply roundHalfEven_eq _ _ _ (by positivity)
    rw [formatFixed_quotient, natAbs_cast_abs]
    have hmag : (m : ℚ) * (2 : ℚ) ^ e = |toRat (fin s m e)| := by
      simp only [toRat]
      rw [abs_sgn_mul, abs_of_nonneg (mul_nonneg (Nat.cast_nonneg m) (two_zpow_pos e).le)]
    rw [hmag]
    have hlt : |toRat (fin s m e) * (10 : ℚ) ^ p - (A : ℚ)| < 1 / 2 :=
      lt_of_le_of_lt h2 (by norm_num)
    rcases le_total 0 A with hA0 | hA0
    · have hAq0 : (0 : ℚ) ≤ (A : ℚ) := by exact_mod_cast hA0
      rw [abs_of_nonneg (h3 hA0), abs_of_nonneg hAq0]
      exact hlt
    · have hAq0 : (A : ℚ) ≤ 0 := by exact_mod_cast hA0
      rw [abs_of_nonpos (h4 hA0), abs_of_nonpos hAq0]
      have e1 : -toRat (fin s m e) * (10 : ℚ) ^ p - -(A : ℚ)
          = -(toRat (fin s m e) * (10 : ℚ) ^ p - A) := by ring
      rw [e1, abs_neg]
      exact hlt
  -- the sign
  have hneg : (W < 0 ∨ fr < 0) ↔ A < 0 := by
    have hTi : (0 : ℤ) < 10 ^ p := by positivity
    constructor
    · intro h
      rcases hs with ⟨a1, a2⟩ | ⟨a1, a2⟩
      · omega
      · have : W * 10 ^ p ≤ 0 := mul_nonpos_of_nonpos_of_nonneg a1 hTi.le
        rcases h with h | h
        · have : W * 10 ^ p < 0 := mul_neg_of_neg_of_pos h hTi
          omega
        · omega
    · intro h
      by_contra hc
      push_neg at hc
      have : 0 ≤ W * 10 ^ p := mul_nonneg hc.1 hTi.le
      omega
  have hsign : s = decide (A < 0) := by
    obtain ⟨s1, s2⟩ := sign_bit s m e
    obtain ⟨b1, b2⟩ := abs_le.mp h2
    rcases lt_trichotomy A 0 with hA0 | hA0 | hA0
    · have hq : (A : ℚ) ≤ -1 := by exact_mod_cast (show A ≤ -1 by omega)
      have hy : toRat (fin s m e) * (10 : ℚ) ^ p < 0 := by
        have : (1 : ℚ) / 2 ^ 12 < 1 := by norm_num
        linarith
      have hy' : toRat (fin s m e) < 0 := by
        by_contra hc
        have := mul_nonneg (not_lt.mp hc) hTq.le
        linarith
      rw [s1 hy']
      simp [hA0]
    · have hW0 : W = 0 ∧ fr = 0 := by
        have h0 : A.natAbs = 0 := by rw [hA0]; rfl
        rw [t3] at h0
        have h5 : fr.natAbs = 0 := by omega
        have h6 : W.natAbs * 10 ^ p = 0 := by omega
        have h7 : W.natAbs = 0 := by
          rcases Nat.mul_eq_zero.mp h6 with h | h
          · exact h
          · omega
        exact ⟨Int.natAbs_eq_zero.mp h7, Int.natAbs_eq_zero.mp h5⟩
      have := hz hW0.1 hW0.2
      have hs0 : s = false := by injection this
      rw [hs0]
      simp [hA0]
    · have hq : (1 : ℚ) ≤ (A : ℚ) := by exact_mod_cast (show 1 ≤ A by omega)
      have hy : 0 < toRat (fin s m e) * (10 : ℚ) ^ p := by
        have : (1 : ℚ) / 2 ^ 12 < 1 := by norm_num
        linarith
      have hy' : 0 < toRat (fin s m e) := by
        by_contra hc
        have := mul_nonpos_of_nonpos_of_nonneg (not_lt.mp hc) hTq.le
        linarith
      rw [s2 hy']
      simp [not_lt.mpr hA0.le]
  have hdiv : (W.natAbs * 10 ^ p + fr.natAbs) / 10 ^ p = W.natAbs := by
    rw [Nat.add_comm, Nat.add_mul_div_right _ _ hTn, Nat.div_eq_of_lt hfn, Nat.zero_add]
  have hmod : (W.natAbs * 10 ^ p + fr.natAbs) % 10 ^ p = fr.natAbs := by
    rw [Nat.add_comm, Nat.add_mul_mod_self_right, Nat.mod_eq_of_lt hfn]
  have hfmt : sprintfF p (fin s m e) = formatFixed p s m e := by
    unfold sprintfF
    rw [if_neg (by omega)]
  rw [hfmt]
  unfold formatFixed
  simp only [hN, t3, hdiv, hmod, hsign]
  by_cases hA0 : A < 0
  · simp [hA0, hneg.mpr hA0]
  · have : ¬ (W < 0 ∨ fr < 0) := fun h => hA0 (hneg.mp h)
    simp [hA0, this]

/-! ### The signs of whole and fraction -/

/-- `roundRat` gives a binary64 or the infinity of its sign. -/
theorem roundRat_valid (s : Bool) (n d : Nat) (hd : 0 < d) :
    isFinite (roundRat s n d) = true ∨ roundRat s n d = inf s := by
  by_cases hn : n = 0
  · left
    simp [roundRat, hn, isFinite]
  · have hn0 : 0 < n := Nat.pos_of_ne_zero hn
    obtain ⟨hu1, -, hu3⟩ := ulpExp_spec n d hn0 hd
    have hkey := scaled_div n d (ulpExp n d)
    unfold roundRat
    rw [if_neg hn]
    simp only []
    generalize ulpExp n d = e at hu1 hu3 hkey
    have hDpos : 0 < d * 2 ^ e.toNat := by positivity
    generalize d * 2 ^ e.toNat = D at hkey hDpos
    generalize n * 2 ^ (-e).toNat = N at hkey
    have h2e : (0 : ℚ) < (2 : ℚ) ^ e := two_zpow_pos e
    have hxlt : (N : ℚ) / D < 2 ^ 53 := by
      rw [hkey, zpow_neg, ← div_eq_mul_inv, div_lt_iff₀ h2e]
      exact hu1
    have hqlt : N / D < 2 ^ 53 := by
      have h1 : ((N / D : ℕ) : ℚ) ≤ (N : ℚ) / D := Nat.cast_div_le
      have : ((N / D : ℕ) : ℚ) < ((2 ^ 53 : ℕ) : ℚ) := by push_cast; linarith
      exact_mod_cast this
    generalize N / D = q at hqlt
    generalize N % D = r
    split_ifs with h1 h2 h3 h4 h5 h6
    · right; rfl
    · left
      simp only [isFinite, Bool.and_eq_true, decide_eq_true_eq]
      omega
    · right; rfl
    · left
      simp only [isFinite, Bool.and_eq_true, decide_eq_true_eq]
      omega
    · right; rfl
    · left
      simp only [isFinite, Bool.and_eq_true, decide_eq_true_eq]
      omega
    · right; rfl
    · left
      simp only [isFinite, Bool.and_eq_true, decide_eq_true_eq]
      omega

/-- `roundScaled` gives a binary64 or an infinity. -/
theorem roundScaled_valid (s : Bool) (n : Nat) (e : ℤ) :
    isFinite (roundScaled s n e) = true ∨ ∃ t, roundScaled s n e = inf t := by
  rcases roundRat_valid s (n * 2 ^ e.toNat) (2 ^ (-e).toNat) (by positivity) with h | h
  · exact Or.inl h
  · exact Or.inr ⟨s, h⟩

/-- Go `x + y` gives a binary64, an infinity or NaN, whatever the operands. -/
theorem add_valid (x y : F64) :
    isFinite (add x y) = true ∨ add x y = nan ∨ ∃ t, add x y = inf t := by
  rcases x with _ | s | ⟨s, m, e⟩ <;> rcases y with _ | t | ⟨t, n, g⟩
  all_goals try (right; left; rfl)
  · simp only [add]
    split_ifs
    · right; right; exact ⟨_, rfl⟩
    · right; left; rfl
  · right; right; exact ⟨_, rfl⟩
  · right; right; exact ⟨_, rfl⟩
  · simp only [add]
    split_ifs
    · left; simp [isFinite]
    · rcases roundScaled_valid (decide (sig s m * 2 ^ (e - min e g).toNat
          + sig t n * 2 ^ (g - min e g).toNat < 0))
        (sig s m * 2 ^ (e - min e g).toNat + sig t n * 2 ^ (g - min e g).toNat).natAbs
        (min e g) with h | h
      · exact Or.inl h
      · exact Or.inr (Or.inr h)

/-- Go `x - y` gives a binary64, an infinity or NaN. -/
theorem sub_valid (x y : F64) :
    isFinite (sub x y) = true ∨ sub x y = nan ∨ ∃ t, sub x y = inf t :=
  add_valid x (neg y)

/-- Go `x * y` gives a binary64, an infinity or NaN. -/
theorem mul_valid (x y : F64) :
    isFinite (mul x y) = true ∨ mul x y = nan ∨ ∃ t, mul x y = inf t := by
  rcases x with _ | s | ⟨s, m, e⟩ <;> rcases y with _ | t | ⟨t, n, g⟩
  all_goals try (right; left; rfl)
  · right; right; exact ⟨_, rfl⟩
  · simp only [mul]
    split_ifs
    · right; left; rfl
    · right; right; exact ⟨_, rfl⟩
  · simp only [mul]
    split_ifs
    · right; left; rfl
    · right; right; exact ⟨_, rfl⟩
  · rcases roundScaled_valid (xor s t) (m * n) (e + g) with h | h
    · exact Or.inl h
    · exact Or.inr (Or.inr h)

/-- Go `x / y` gives a binary64, an infinity or NaN. -/
theorem div_valid (x y : F64) :
    isFinite (div x y) = true ∨ div x y = nan ∨ ∃ t, div x y = inf t := by
  rcases x with _ | s | ⟨s, m, e⟩ <;> rcases y with _ | t | ⟨t, n, g⟩
  all_goals try (right; left; rfl)
  · right; right; exact ⟨_, rfl⟩
  · left; simp [div, isFinite]
  · simp only [div]
    by_cases hn : n = 0
    · rw [if_pos hn]
      split_ifs
      · right; left; rfl
      · right; right; exact ⟨_, rfl⟩
    · rw [if_neg hn]
      rcases roundRat_valid (xor s t) (m * 2 ^ (e - min e g).toNat) (n * 2 ^ (g - min e g).toNat)
        (Nat.mul_pos (Nat.pos_of_ne_zero hn) (by positivity)) with h | h
      · exact Or.inl h
      · exact Or.inr (Or.inr ⟨_, h⟩)

/-- Go `int64(x)` for a float that is an integer: the integer when it fits,
`-2^63` otherwise. -/
theorem toInt64_of_int (w : F64) (hw : isFinite w = true) (Z : ℤ) (hZ : toRat w = Z) :
    toInt64 w = if -2 ^ 63 ≤ Z ∧ Z < 2 ^ 63 then Z else -2 ^ 63 := by
  obtain ⟨s, m, e, rfl, -, -, -⟩ := (isFinite_iff w).mp hw
  obtain ⟨h1, h2⟩ := truncInt_spec s m e
  have hT : truncInt s m e = Z := by
    apply trunc_unique _ _ Z h1 h2
    rw [hZ]
    rcases le_total 0 (Z : ℚ) with h | h
    · left; exact ⟨h, le_rfl, by linarith⟩
    · right; exact ⟨h, by linarith, le_rfl⟩
  simp only [toInt64, hT]

/-- A binary64 of magnitude `2^53` or more has no fractional part. -/
theorem modf_big (x : F64) (hx : isFinite x = true) :
    toRat (modf x).2 = 0 ∨ |toRat (modf x).1| < 2 ^ 53 := by
  obtain ⟨s, m, e, rfl, hm, -, -⟩ := (isFinite_iff x).mp hx
  obtain ⟨-, -, Z, hZ, hY, hF, hpos, hneg⟩ := modf_spec (fin s m e) hx
  by_cases he : 0 ≤ e
  · left
    simp [modf, he, toRat]
  · right
    have he' : e ≤ -1 := by omega
    have hx53 : |toRat (fin s m e)| < 2 ^ 53 := by
      simp only [toRat]
      rw [abs_sgn_mul, abs_of_nonneg (mul_nonneg (Nat.cast_nonneg m) (two_zpow_pos e).le)]
      have h1 : (2 : ℚ) ^ e ≤ (2 : ℚ) ^ (0 : ℤ) := zpow_le_zpow_right₀ (by norm_num) (by omega)
      rw [zpow_zero] at h1
      have h2 : (m : ℚ) < 2 ^ 53 := by exact_mod_cast hm
      calc (m : ℚ) * (2 : ℚ) ^ e ≤ (m : ℚ) * 1 :=
            mul_le_mul_of_nonneg_left h1 (Nat.cast_nonneg m)
        _ < 2 ^ 53 := by linarith
    rw [hZ]
    obtain ⟨a1, a2⟩ := abs_lt.mp hx53
    obtain ⟨b1, b2⟩ := abs_lt.mp hF
    rw [abs_lt]
    rcases le_total 0 (toRat (fin s m e)) with h | h
    · obtain ⟨z1, z2⟩ := hpos h
      constructor <;> linarith
    · obtain ⟨z1, z2⟩ := hneg h
      constructor <;> linarith

/-- The magnitude of a rounding. -/
theorem Rnd.magnitude {X r : ℚ} (h : Rnd X r) (B : ℚ) (hB : |X| ≤ B) :
    |r| ≤ B + B / 2 ^ 53 + 1 / 10 ^ 60 := by
  obtain ⟨h1, -, -, -⟩ := h
  rw [u_eq] at h1
  have h2 := eta_small
  have h3 : |X| * (1 / 2 ^ 53) ≤ B * (1 / 2 ^ 53) := mul_le_mul_of_nonneg_right hB (by norm_num)
  obtain ⟨a1, a2⟩ := abs_le.mp h1
  obtain ⟨b1, b2⟩ := abs_le.mp hB
  rw [abs_le]
  constructor <;> linarith

/-- The fraction of `NewDecimalFromFloat` after its rounding to two more
digits, on rationals: the exact product stays below 3 in magnitude. -/
theorem preround_small (P c f0 nf : ℚ) (R : ℤ) (hP1 : 1 ≤ P) (hf0 : |f0| < 1)
    (hnf : Rnd (f0 * P) nf) (hR : |(R : ℚ) - nf| ≤ 1 / 2) (hc0 : 0 < c)
    (hc : |c * P - 1| ≤ 1 / 2 ^ 53) : |(R : ℚ) * c| ≤ 3 := by
  have hP0 : (0 : ℚ) < P := by linarith
  have hX : |f0 * P| ≤ P := by
    rw [abs_mul, abs_of_pos hP0]
    calc |f0| * P ≤ 1 * P := mul_le_mul_of_nonneg_right hf0.le hP0.le
      _ = P := one_mul P
  have hnfb := hnf.magnitude P hX
  have hRb : |(R : ℚ)| ≤ P * (1 + 1 / 2 ^ 53) + (1 / 10 ^ 60 + 1 / 2) := by
    obtain ⟨a1, a2⟩ := abs_le.mp hR
    obtain ⟨b1, b2⟩ := abs_le.mp hnfb
    rw [abs_le]
    constructor <;> linarith
  obtain ⟨c1, c2⟩ := abs_le.mp hc
  have hcle : c ≤ c * P := le_mul_of_one_le_right hc0.le hP1
  rw [abs_mul, abs_of_pos hc0]
  have h1 : |(R : ℚ)| * c ≤ (P * (1 + 1 / 2 ^ 53) + (1 / 10 ^ 60 + 1 / 2)) * c :=
    mul_le_mul_of_nonneg_right hRb hc0.le
  have e : (P * (1 + 1 / 2 ^ 53) + (1 / 10 ^ 60 + 1 / 2)) * c
      = (1 + 1 / 2 ^ 53) * (c * P) + (1 / 10 ^ 60 + 1 / 2) * c := by ring
  rw [e] at h1
  norm_num at h1 c2 ⊢
  linarith

/-- The sign of the stored fraction `int64((f + rounder) * Pow10(p))` for a
fraction `f` below 4 in magnitude: it is not negative when the rounding bias
is positive and `f` is not negative, not positive when the bias is negative
and `f` is not positive, and zero when `f` is zero. -/
theorem fraction_sign (w f : F64) (p : Nat) (hf : isFinite f = true) (hp : p ≤ 18)
    (hb : |toRat f| ≤ 4) :
    ((ltZero w || ltZero f) = false → 0 ≤ toRat f →
        0 ≤ toInt64 (mul (add f (rounder w f p)) (pow10Pos p)))
    ∧ ((ltZero w || ltZero f) = true → toRat f ≤ 0 →
        toInt64 (mul (add f (rounder w f p)) (pow10Pos p)) ≤ 0)
    ∧ (toRat f = 0 → toInt64 (mul (add f (rounder w f p)) (pow10Pos p)) = 0) := by
  obtain ⟨hT1, hT2⟩ := ten_pow_bounds p hp
  obtain ⟨hr1, hr2⟩ := rounder_spec w f p hp
  obtain ⟨hP1, hP2⟩ := pow10Pos_spec p (by omega)
  obtain ⟨hb1, hb2⟩ := abs_le.mp hb
  -- magnitudes, whatever the sign of the bias
  have hrb : |toRat (rounder w f p)| ≤ 1 := by
    have h1 : |toRat (rounder w f p)| ≤ |toRat (rounder w f p) * (10 : ℚ) ^ p| :=
      abs_le_abs_mul _ _ hT1
    have h2 : |toRat (rounder w f p) * (10 : ℚ) ^ p| ≤ 1 := by
      obtain ⟨a1, a2⟩ := abs_le.mp hr2
      rw [abs_le]
      split_ifs at a1 a2 <;> constructor <;> norm_num at a1 a2 ⊢ <;> linarith
    linarith
  obtain ⟨hrb1, hrb2⟩ := abs_le.mp hrb
  have hsum : |toRat f + toRat (rounder w f p)| ≤ 5 := by
    rw [abs_le]; constructor <;> linarith
  obtain ⟨hs1, hs2⟩ := add_rnd f (rounder w f p) hf hr1
    (le_two_pow_1023 _ (le_trans hsum (by norm_num)))
  have hsb := hs2.magnitude 5 hsum
  have hsb6 : |toRat (add f (rounder w f p))| ≤ 6 := le_trans hsb (by norm_num)
  have hprod : |toRat (add f (rounder w f p)) * toRat (pow10Pos p)| ≤ 6 * 10 ^ 18 := by
    rw [hP2, abs_mul, abs_of_pos (by linarith : (0 : ℚ) < (10 : ℚ) ^ p)]
    exact mul_le_mul hsb6 hT2 (by linarith) (by norm_num)
  obtain ⟨hz1, hz2⟩ := mul_rnd (add f (rounder w f p)) (pow10Pos p) hs1 hP1
    (le_two_pow_1023 _ (le_trans hprod (by norm_num)))
  have hzb := hz2.magnitude _ hprod
  have hzb7 : |toRat (mul (add f (rounder w f p)) (pow10Pos p))| ≤ 7 * 10 ^ 18 :=
    le_trans hzb (by norm_num)
  obtain ⟨hz7a, hz7b⟩ := abs_le.mp hzb7
  refine ⟨?_, ?_, ?_⟩
  · intro hflag hf0
    rw [hflag] at hr2
    simp only [Bool.false_eq_true, if_false] at hr2
    have hr0 : 0 ≤ toRat (rounder w f p) := by
      by_contra hc
      have h1 : toRat (rounder w f p) * (10 : ℚ) ^ p ≤ 0 :=
        mul_nonpos_of_nonpos_of_nonneg (not_le.mp hc).le (by linarith)
      obtain ⟨a1, a2⟩ := abs_le.mp hr2
      norm_num at a1
      linarith
    have hs0 := hs2.2.2.1 (add_nonneg hf0 hr0)
    have hz0 := hz2.2.2.1 (mul_nonneg hs0 (by rw [hP2]; linarith))
    generalize mul (add f (rounder w f p)) (pow10Pos p) = z at hz1 hz0 hz7b ⊢
    have hfl0 : 0 ≤ ⌊toRat z⌋ := Int.floor_nonneg.mpr hz0
    have hfl1 : (⌊toRat z⌋ : ℚ) ≤ toRat z := Int.floor_le _
    have hfl2 : toRat z < ⌊toRat z⌋ + 1 := Int.lt_floor_add_one _
    have hfl3 : ⌊toRat z⌋ < 2 ^ 63 := by
      have : ((⌊toRat z⌋ : ℤ) : ℚ) < ((2 ^ 63 : ℤ) : ℚ) := by push_cast; linarith
      exact_mod_cast this
    rw [toInt64_eq z hz1 ⌊toRat z⌋ (by omega) hfl3 (Or.inl ⟨hz0, hfl1, hfl2⟩)]
    exact hfl0
  · intro hflag hf0
    rw [hflag] at hr2
    simp only [if_true] at hr2
    have hr0 : toRat (rounder w f p) ≤ 0 := by
      by_contra hc
      have h1 : 0 ≤ toRat (rounder w f p) * (10 : ℚ) ^ p :=
        mul_nonneg (not_le.mp hc).le (by linarith)
      obtain ⟨a1, a2⟩ := abs_le.mp hr2
      norm_num at a2
      linarith
    have hs0 := hs2.2.2.2 (add_nonpos hf0 hr0)
    have hz0 := hz2.2.2.2 (mul_nonpos_of_nonpos_of_nonneg hs0 (by rw [hP2]; linarith))
    generalize mul (add f (rounder w f p)) (pow10Pos p) = z at hz1 hz0 hz7a ⊢
    have hc0 : ⌈toRat z⌉ ≤ 0 := Int.ceil_le.mpr (by simpa using hz0)
    have hc1 : toRat z ≤ (⌈toRat z⌉ : ℚ) := Int.le_ceil _
    have hc2 : (⌈toRat z⌉ : ℚ) - 1 < toRat z := by
      have := Int.ceil_lt_add_one (toRat z)
      linarith
    have hc3 : -2 ^ 63 ≤ ⌈toRat z⌉ := by
      have : ((-2 ^ 63 : ℤ) : ℚ) ≤ ((⌈toRat z⌉ : ℤ) : ℚ) := by push_cast; linarith
      exact_mod_cast this
    rw [toInt64_eq z hz1 ⌈toRat z⌉ hc3 (by omega) (Or.inr ⟨hz0, hc2, hc1⟩)]
    exact hc0
  · intro hf0
    have h := fraction_spec w f p 0 1 0 hf hp (by norm_num) (by norm_num)
      (by rw [hf0]; norm_num) (by norm_num) (by
      cases h : (ltZero w || ltZero f)
      · left; exact ⟨rfl, by norm_num⟩
      · right; exact ⟨rfl, by norm_num⟩)
    exact h

/-- Whole and stored fraction never get opposite signs, for a finite float
`x` and a fraction `f` that has the sign of the fractional part of `x`. -/
theorem signs_core (x f : F64) (p : Nat) (hx : isFinite x = true) (hf : isFinite f = true)
    (hp : p ≤ 18) (hb : |toRat f| ≤ 4)
    (hfp : 0 ≤ toRat (modf x).2 → 0 ≤ toRat f) (hfn : toRat (modf x).2 ≤ 0 → toRat f ≤ 0) :
    ¬ (0 < toInt64 (modf x).1
        ∧ toInt64 (mul (add f (rounder (modf x).1 f p)) (pow10Pos p)) < 0)
    ∧ ¬ (toInt64 (modf x).1 < 0
        ∧ 0 < toInt64 (mul (add f (rounder (modf x).1 f p)) (pow10Pos p))) := by
  obtain ⟨hw, -, Z, hZ, -, -, hpos, hneg⟩ := modf_spec x hx
  have hbig := modf_big x hx
  have hW := toInt64_of_int (modf x).1 hw Z hZ
  have hlw := ltZero_iff (modf x).1 hw
  have hlf := ltZero_iff f hf
  obtain ⟨F1, F2, F3⟩ := fraction_sign (modf x).1 f p hf hp hb
  rw [hZ] at hbig hlw
  generalize (modf x).1 = w at hW hlw F1 F2 F3 ⊢
  generalize toRat (modf x).2 = f0 at hbig hpos hneg hfp hfn
  generalize toInt64 (mul (add f (rounder w f p)) (pow10Pos p)) = Fr at F1 F2 F3 ⊢
  rw [hW]
  rcases le_total 0 (toRat x) with h | h
  · obtain ⟨z1, z2⟩ := hpos h
    have hZ0 : 0 ≤ Z := by exact_mod_cast z1
    have hf0 := hfp z2
    have hflag : (ltZero w || ltZero f) = false := by
      rw [Bool.or_eq_false_iff]
      constructor
      · by_contra hc
        have := hlw.mp (by simpa using hc)
        linarith
      · by_contra hc
        have := hlf.mp (by simpa using hc)
        linarith
    have hFr := F1 hflag hf0
    constructor
    · rintro ⟨-, h2⟩
      omega
    · rintro ⟨h1, h2⟩
      by_cases hr : -2 ^ 63 ≤ Z ∧ Z < 2 ^ 63
      · rw [if_pos hr] at h1
        omega
      · have hZbig : 2 ^ 63 ≤ Z := by omega
        rcases hbig with hb0 | hb0
        · have hf00 : toRat f = 0 := le_antisymm (hfn hb0.le) (hfp hb0.ge)
          have := F3 hf00
          omega
        · have hZq : ((2 ^ 63 : ℤ) : ℚ) ≤ (Z : ℚ) := by exact_mod_cast hZbig
          push_cast at hZq
          have := (abs_lt.mp hb0).2
          norm_num at hZq this
          linarith
  · obtain ⟨z1, z2⟩ := hneg h
    have hZ0 : Z ≤ 0 := by exact_mod_cast z1
    have hf0 := hfn z2
    have hWle : (if -2 ^ 63 ≤ Z ∧ Z < 2 ^ 63 then Z else -2 ^ 63) ≤ 0 := by
      split_ifs
      · exact hZ0
      · norm_num
    constructor
    · rintro ⟨h1, -⟩
      omega
    · rintro ⟨-, h2⟩
      cases hflag : (ltZero w || ltZero f)
      · have hfl : ltZero f = false := (Bool.or_eq_false_iff.mp hflag).2
        have hnot : ¬ toRat f < 0 := fun hc => by
          have := hlf.mpr hc
          rw [hfl] at this
          exact Bool.false_ne_true this
        have hf00 : toRat f = 0 := le_antisymm hf0 (not_lt.mp hnot)
        have := F3 hf00
        omega
      · have := F2 hflag hf0
        omega

/-- The parts stored by `NewDecimalFromFloat`. -/
theorem newDecimalFromFloat_fields (x : F64) (p : Nat) :
    (NewDecimalFromFloat x p).whole = toInt64 (modf x).1
    ∧ (NewDecimalFromFloat x p).fraction
        = toInt64 (mul (add
            (mul (round (mul (modf x).2 (pow10Pos (wrapUint64 (p + 2)))))
              (pow10Neg (wrapUint64 (p + 2))))
            (rounder (modf x).1
              (mul (round (mul (modf x).2 (pow10Pos (wrapUint64 (p + 2)))))
                (pow10Neg (wrapUint64 (p + 2)))) p)) (pow10Pos p)) :=
  ⟨rfl, rfl⟩

/-- The parts stored by `NewDecimal`. -/
theorem newDecimal_fields (A : ℤ) (p : Nat) :
    (NewDecimal A p).whole = toInt64 (modf (mul (ofInt A) (pow10Neg p))).1
    ∧ (NewDecimal A p).fraction
        = toInt64 (mul (add (modf (mul (ofInt A) (pow10Neg p))).2
            (rounder (modf (mul (ofInt A) (pow10Neg p))).1
              (modf (mul (ofInt A) (pow10Neg p))).2 p)) (pow10Pos p)) :=
  ⟨rfl, rfl⟩

/-- Whole and fraction of `NewDecimalFromFloat` never have opposite signs, for
every float and every precision up to 18. -/
theorem newDecimalFromFloat_signs (x : F64) (p : Nat) (hp : p ≤ 18)
    (hx : isFinite x = true ∨ x = nan ∨ ∃ t, x = inf t) :
    ¬ (0 < (NewDecimalFromFloat x p).whole ∧ (NewDecimalFromFloat x p).fraction < 0)
    ∧ ¬ ((NewDecimalFromFloat x p).whole < 0 ∧ 0 < (NewDecimalFromFloat x p).fraction) := by
  rcases hx with hx | rfl | ⟨t, rfl⟩
  · obtain ⟨e1, e2⟩ := newDecimalFromFloat_fields x p
    rw [e1, e2]
    have hw2 : wrapUint64 ((p : ℤ) + 2) = p + 2 := by
      have := wrapUint64_small (p + 2) (by omega)
      push_cast at this
      exact this
    rw [hw2]
    obtain ⟨hP1, hP2⟩ := pow10Pos_spec (p + 2) (by omega)
    obtain ⟨hc1, hc2, hc3⟩ := pow10Neg_spec (p + 2) (by omega)
    obtain ⟨-, hf0, Z, -, -, hF, -, -⟩ := modf_spec x hx
    have hPge : (1 : ℚ) ≤ (10 : ℚ) ^ (p + 2) := one_le_pow₀ (by norm_num)
    have hPle : (10 : ℚ) ^ (p + 2) ≤ 10 ^ 20 := pow_le_pow_right₀ (by norm_num) (by omega)
    have hP0 : (0 : ℚ) < (10 : ℚ) ^ (p + 2) := by linarith
    obtain ⟨hnf1, hnf2⟩ := mul_rnd (modf x).2 (pow10Pos (p + 2)) hf0 hP1 (by
      apply le_two_pow_1023
      rw [hP2, abs_mul, abs_of_pos hP0]
      calc |toRat (modf x).2| * (10 : ℚ) ^ (p + 2) ≤ 1 * 10 ^ 20 :=
            mul_le_mul hF.le hPle hP0.le (by norm_num)
        _ ≤ 2 ^ 100 := by norm_num)
    rw [hP2] at hnf2
    obtain ⟨hR1, R, hR2, hR3, hR4, hR5⟩ := round_spec _ hnf1
    have hRc := preround_small _ _ _ _ R hPge hF hnf2 hR3 hc2 hc3
    obtain ⟨hg1, hg2⟩ := mul_rnd (round (mul (modf x).2 (pow10Pos (p + 2))))
      (pow10Neg (p + 2)) hR1 hc1 (by
        apply le_two_pow_1023
        rw [hR2]
        exact le_trans hRc (by norm_num))
    rw [hR2] at hg2
    have hgb : |toRat (mul (round (mul (modf x).2 (pow10Pos (p + 2)))) (pow10Neg (p + 2)))| ≤ 4 :=
      le_trans (hg2.magnitude 3 hRc) (by norm_num)
    apply signs_core x _ p hx hg1 hp hgb
    · intro h
      apply hg2.2.2.1
      apply mul_nonneg _ hc2.le
      apply hR4
      exact hnf2.2.2.1 (mul_nonneg h hP0.le)
    · intro h
      apply hg2.2.2.2
      apply mul_nonpos_of_nonpos_of_nonneg _ hc2.le
      apply hR5
      exact hnf2.2.2.2 (mul_nonpos_of_nonpos_of_nonneg h hP0.le)
  · interval_cases p <;> decide!
  · cases t <;> interval_cases p <;> decide!

/-- Whole and fraction of `NewDecimal` never have opposite signs, for every
`int64` amount and every precision up to 18. -/
theorem newDecimal_signs (A : ℤ) (p : Nat) (hp : p ≤ 18) (hA1 : -2 ^ 63 ≤ A) (hA2 : A < 2 ^ 63) :
    ¬ (0 < (NewDecimal A p).whole ∧ (NewDecimal A p).fraction < 0)
    ∧ ¬ ((NewDecimal A p).whole < 0 ∧ 0 < (NewDecimal A p).fraction) := by
  obtain ⟨e1, e2⟩ := newDecimal_fields A p
  rw [e1, e2]
  obtain ⟨hT1, hT2⟩ := ten_pow_bounds p hp
  have hAq : |(A : ℚ)| ≤ 2 ^ 63 := by
    rw [abs_le]
    constructor
    · have : ((-2 ^ 63 : ℤ) : ℚ) ≤ (A : ℚ) := by exact_mod_cast hA1
      push_cast at this
      exact this
    · have : (A : ℚ) ≤ ((2 ^ 63 : ℤ) : ℚ) := by exact_mod_cast hA2.le
      push_cast at this
      exact this
  obtain ⟨ha1, ha2⟩ := roundInt_rnd A 0 (by
    apply le_two_pow_1023
    rw [zpow_zero, mul_one]
    exact le_trans hAq (by norm_num))
  rw [zpow_zero, mul_one] at ha2
  have hab := ha2.magnitude _ hAq
  have hab2 : |toRat (ofInt A)| ≤ 2 ^ 64 := le_trans hab (by norm_num)
  obtain ⟨hc1, hc2, hc3⟩ := pow10Neg_spec p (by omega)
  have hcT : toRat (pow10Neg p) ≤ 2 := by
    have h1 : toRat (pow10Neg p) ≤ toRat (pow10Neg p) * (10 : ℚ) ^ p :=
      le_mul_of_one_le_right hc2.le hT1
    have := (abs_le.mp hc3).2
    norm_num at this
    linarith
  obtain ⟨hy1, -⟩ := mul_rnd (ofInt A) (pow10Neg p) ha1 hc1 (by
    apply le_two_pow_1023
    rw [abs_mul, abs_of_pos hc2]
    calc |toRat (ofInt A)| * toRat (pow10Neg p) ≤ 2 ^ 64 * 2 :=
          mul_le_mul hab2 hcT hc2.le (by norm_num)
      _ ≤ 2 ^ 100 := by norm_num)
  obtain ⟨-, hf0, Z, -, -, hF, -, -⟩ := modf_spec _ hy1
  exact signs_core _ _ p hy1 hf0 hp (le_trans hF.le (by norm_num)) (fun h => h) (fun h => h)

/-! ### Decimal digits -/

/-- The character of a digit below ten. -/
theorem digitChar_spec (k : ℕ) (hk : k < 10) :
    isDigitChar (Nat.digitChar k) = true ∧ (Nat.digitChar k).toNat - 48 = k
      ∧ (0 < k → Nat.digitChar k ≠ '0') := by
  interval_cases k <;> decide

/-- With enough fuel the digit loop of `Nat.toDigits` puts the digits of `n`
in front of the accumulator. -/
theorem toDigitsCore_eq (n : ℕ) :
    ∀ fuel ds, n < fuel → Nat.toDigitsCore 10 fuel n ds = natDigits n ++ ds := by
  induction n using Nat.strong_induction_on with
  | _ n ih =>
    intro fuel ds hfuel
    obtain ⟨f, rfl⟩ : ∃ f, fuel = f + 1 := ⟨fuel - 1, by omega⟩
    unfold natDigits Nat.toDigits
    simp only [Nat.toDigitsCore]
    by_cases h : n / 10 = 0
    · simp [h]
    · simp only [h, if_false]
      have hlt : n / 10 < n := Nat.div_lt_self (by omega) (by norm_num)
      rw [ih (n / 10) hlt f _ (by omega), ih (n / 10) hlt n _ hlt]
      simp

/-- The digits of a number below ten. -/
theorem natDigits_lt (n : ℕ) (h : n < 10) : natDigits n = [Nat.digitChar n] := by
  unfold natDigits Nat.toDigits
  simp only [Nat.toDigitsCore]
  rw [if_pos (Nat.div_eq_of_lt h), Nat.mod_eq_of_lt h]

/-- The digits of a number from ten on. -/
theorem natDigits_ge (n : ℕ) (h : 10 ≤ n) :
    natDigits n = natDigits (n / 10) ++ [Nat.digitChar (n % 10)] := by
  have h0 : ¬ n / 10 = 0 := by
    intro hc
    have := (Nat.div_eq_zero_iff (by norm_num : 0 < 10)).mp hc
    omega
  have hlt : n / 10 < n := Nat.div_lt_self (by omega) (by norm_num)
  conv_lhs => unfold natDigits Nat.toDigits
  simp only [Nat.toDigitsCore]
  rw [if_neg h0, toDigitsCore_eq (n / 10) n _ hlt]

/-- Appending one digit to the digits read so far. -/
theorem digitsValue_concat (xs : List Char) (c : Char) :
    digitsValue (xs ++ [c]) = 10 * digitsValue xs + (c.toNat - 48) := by
  simp [digitsValue, List.foldl_append]

/-- The digits of `n` are decimal digits, read back as `n`, and start with a
digit other than `0` unless `n` is zero. -/
theorem natDigits_props (n : ℕ) :
    (∀ c ∈ natDigits n, isDigitChar c = true) ∧ digitsValue (natDigits n) = n
      ∧ ∃ c t, natDigits n = c :: t ∧ isDigitChar c = true ∧ (0 < n → c ≠ '0')
          ∧ (n < 10 → t = []) := by
  induction n using Nat.strong_induction_on with
  | _ n ih =>
    by_cases h : n < 10
    · obtain ⟨d1, d2, d3⟩ := digitChar_spec n h
      rw [natDigits_lt n h]
      refine ⟨?_, ?_, _, _, rfl, d1, d3, fun _ => rfl⟩
      · intro c hc
        rw [List.mem_singleton] at hc
        rw [hc]; exact d1
      · simp [digitsValue, d2]
    · have h10 : 10 ≤ n := by omega
      have hlt : n / 10 < n := Nat.div_lt_self (by omega) (by norm_num)
      obtain ⟨i1, i2, c, t, i3, i4, i5, -⟩ := ih (n / 10) hlt
      obtain ⟨d1, d2, -⟩ := digitChar_spec (n % 10) (Nat.mod_lt n (by norm_num))
      rw [natDigits_ge n h10]
      refine ⟨?_, ?_, c, t ++ [Nat.digitChar (n % 10)], ?_, i4, ?_, ?_⟩
      · intro x hx
        rcases List.mem_append.mp hx with hx | hx
        · exact i1 x hx
        · rw [List.mem_singleton] at hx
          rw [hx]; exact d1
      · rw [digitsValue_concat, i2, d2]
        omega
      · rw [i3]; rfl
      · intro _
        exact i5 (by omega)
      · intro hc
        omega

/-- Reading digits after digits. -/
theorem digitsValue_append (xs ys : List Char) :
    digitsValue (xs ++ ys) = digitsValue xs * 10 ^ ys.length + digitsValue ys := by
  induction ys using List.reverseRecOn generalizing xs with
  | nil => simp [digitsValue]
  | append_singleton l a ih =>
    rw [← List.append_assoc, digitsValue_concat, ih, digitsValue_concat]
    simp only [List.length_append, List.length_singleton, pow_succ]
    ring

/-- Leading zeros do not change the number read. -/
theorem digitsValue_padZeros (w : ℕ) (ds : List Char) :
    digitsValue (padZeros w ds) = digitsValue ds := by
  have hz : ∀ k : ℕ, digitsValue (List.replicate k '0') = 0 := by
    intro k
    induction k with
    | zero => rfl
    | succ k ih =>
      rw [List.replicate_succ']
      rw [digitsValue_concat, ih]
      rfl
  rw [padZeros, digitsValue_append, hz]
  simp

/-- The leading run of digits of a list that is digits followed by nothing or
by something that does not start with a digit. -/
theorem span_digits (xs rest : List Char) (hx : ∀ c ∈ xs, isDigitChar c = true)
    (hr : rest = [] ∨ ∃ c t, rest = c :: t ∧ isDigitChar c = false) :
    (xs ++ rest).takeWhile isDigitChar = xs ∧ (xs ++ rest).dropWhile isDigitChar = rest := by
  induction xs with
  | nil =>
    rcases hr with rfl | ⟨c, t, rfl, hc⟩
    · exact ⟨rfl, rfl⟩
    · simp [List.takeWhile, List.dropWhile, hc]
  | cons a l ih =>
    have ha := hx a (List.mem_cons_self a l)
    obtain ⟨i1, i2⟩ := ih (fun c hc => hx c (List.mem_cons_of_mem a hc))
    simp only [List.cons_append, List.takeWhile, List.dropWhile, ha]
    exact ⟨congrArg (List.cons a) i1, i2⟩

/-! ### Reading a rendered number back -/

/-- A decimal digit is not JSON white space, not a minus sign and not `n`. -/
theorem digit_not_space (c : Char) (h : isDigitChar c = true) :
    isJSONSpace c = false ∧ c ≠ '-' ∧ c ≠ 'n' := by
  simp only [isDigitChar, Bool.and_eq_true, decide_eq_true_eq] at h
  refine ⟨?_, ?_, ?_⟩
  · simp only [isJSONSpace, Bool.or_eq_false_iff, decide_eq_false_iff_not]
    omega
  · rintro rfl
    simp at h
  · rintro rfl
    simp at h

/-- A nonempty list of digits ends with a digit. -/
theorem digits_last (xs : List Char) (hne : xs ≠ []) (hx : ∀ c ∈ xs, isDigitChar c = true) :
    ∃ init l, xs = init ++ [l] ∧ isDigitChar l = true := by
  refine ⟨xs.dropLast, xs.getLast hne, (List.dropLast_append_getLast hne).symm, ?_⟩
  exact hx _ (List.getLast_mem hne)

/-- Trimming leaves alone an input that neither starts nor ends with white
space. -/
theorem trimJSON_id (s r init : List Char) (c l : Char) (h1 : s = c :: r)
    (h2 : s = init ++ [l]) (hc : isJSONSpace c = false) (hl : isJSONSpace l = false) :
    trimJSON s = s := by
  unfold trimJSON
  have e1 : s.dropWhile isJSONSpace = s := by
    rw [h1]
    simp [List.dropWhile, hc]
  rw [e1, h2]
  simp [List.dropWhile, hl]

/-- The digits of a padded fraction. -/
theorem padZeros_digits (p n : ℕ) : ∀ c ∈ padZeros p (natDigits n), isDigitChar c = true := by
  intro c hc
  rcases List.mem_append.mp hc with h | h
  · rw [List.eq_of_mem_replicate h]
    decide
  · exact (natDigits_props n).1 c h

/-- The JSON number grammar on the rendering of a number: the digits of `w`,
and for a precision other than zero a point and the digits of `f` padded to
the precision, read as `w * 10^p + f` with the decimal exponent `-p`. -/
theorem jsonUnsigned_render (neg : Bool) (w f p : ℕ) (hf : f < 10 ^ p) :
    jsonUnsigned neg (natDigits w ++
        (if p = 0 then [] else '.' :: padZeros p (natDigits f)))
      = some (neg, w * 10 ^ p + f, -(p : ℤ)) := by
  obtain ⟨a1, a2, c, t, a3, a4, a5, a6⟩ := natDigits_props w
  have hcond : ¬ (natDigits w = [] ∨ (1 < (natDigits w).length ∧ (natDigits w).head? = some '0')) := by
    rw [a3]
    rintro (h | ⟨h1, h2⟩)
    · exact List.cons_ne_nil _ _ h
    · simp only [List.head?_cons, Option.some.injEq] at h2
      by_cases hw : w < 10
      · rw [a6 hw] at h1
        simp at h1
      · exact a5 (by omega) h2
  have hex : jsonExponent [] = some 0 := rfl
  by_cases hp : p = 0
  · subst hp
    have hf0 : f = 0 := by simpa using hf
    obtain ⟨s1, s2⟩ := span_digits (natDigits w) [] a1 (Or.inl rfl)
    have hfr : jsonFraction [] = some ([], []) := rfl
    simp only [if_true]
    unfold jsonUnsigned
    simp only []
    rw [s1, s2, if_neg hcond, hfr]
    simp only []
    rw [hex]
    simp only [List.append_nil, a2, hf0]
    simp
  · have hp0 : 0 < p := Nat.pos_of_ne_zero hp
    have hdot : isDigitChar '.' = false := by decide
    obtain ⟨s1, s2⟩ := span_digits (natDigits w) ('.' :: padZeros p (natDigits f)) a1
      (Or.inr ⟨_, _, rfl, hdot⟩)
    obtain ⟨r1, r2⟩ := span_digits (padZeros p (natDigits f)) [] (padZeros_digits p f)
      (Or.inl rfl)
    rw [List.append_nil] at r1 r2
    have hlen := padZeros_length p f hp0 hf
    have hne : padZeros p (natDigits f) ≠ [] := by
      intro h
      rw [h] at hlen
      simp at hlen
      omega
    have hfr : jsonFraction ('.' :: padZeros p (natDigits f))
        = some (padZeros p (natDigits f), []) := by
      simp only [jsonFraction]
      rw [r1, r2, if_neg hne]
    simp only [if_neg hp]
    unfold jsonUnsigned
    simp only []
    rw [s1, s2, if_neg hcond, hfr]
    simp only []
    rw [hex]
    simp only [digitsValue_append, a2, digitsValue_padZeros, (natDigits_props f).2.1, hlen]
    simp

/-- `json.Unmarshal` reads the rendering of a number as the float nearest to
it. -/
theorem unmarshalFloat64_render (neg : Bool) (w f p : ℕ) (hf : f < 10 ^ p) (s : Bool) (m : ℕ)
    (e : ℤ) (hfin : ofRat neg (w * 10 ^ p + f) (10 ^ p) = fin s m e) :
    unmarshalFloat64 ((if neg then ['-'] else []) ++ natDigits w ++
        (if p = 0 then [] else '.' :: padZeros p (natDigits f)))
      = some (ofRat neg (w * 10 ^ p + f) (10 ^ p)) := by
  obtain ⟨a1, -, c, t, a3, a4, -, -⟩ := natDigits_props w
  obtain ⟨c1, c2, c3⟩ := digit_not_space c a4
  -- the body: digits, and maybe a point and digits
  obtain ⟨body, hbody⟩ : ∃ body, body = natDigits w ++
      (if p = 0 then [] else '.' :: padZeros p (natDigits f)) := ⟨_, rfl⟩
  have hrender := jsonUnsigned_render neg w f p hf
  rw [← hbody] at hrender
  have hhead : ∃ r, body = c :: r := by
    rw [hbody, a3]
    exact ⟨_, rfl⟩
  have hlast : ∃ init l, body = init ++ [l] ∧ isDigitChar l = true := by
    by_cases hp : p = 0
    · obtain ⟨i, l, h1, h2⟩ := digits_last (natDigits w) (by rw [a3]; exact List.cons_ne_nil _ _) a1
      refine ⟨i, l, ?_, h2⟩
      rw [hbody, if_pos hp, List.append_nil, h1]
    · have hlen := padZeros_length p f (Nat.pos_of_ne_zero hp) hf
      have hne : padZeros p (natDigits f) ≠ [] := by
        intro h
        rw [h] at hlen
        simp at hlen
        omega
      obtain ⟨i, l, h1, h2⟩ := digits_last _ hne (padZeros_digits p f)
      refine ⟨natDigits w ++ '.' :: i, l, ?_, h2⟩
      rw [hbody, if_neg hp, h1]
      simp
  obtain ⟨r, hr⟩ := hhead
  obtain ⟨init, l, hl1, hl2⟩ := hlast
  obtain ⟨l1, -, -⟩ := digit_not_space l hl2
  rw [List.append_assoc, ← hbody]
  -- the whole input
  obtain ⟨S, hS⟩ : ∃ S, S = (if neg then ['-'] else []) ++ body := ⟨_, rfl⟩
  rw [← hS]
  have hnum : jsonNumber S = some (neg, w * 10 ^ p + f, -(p : ℤ)) := by
    rw [hS]
    cases neg
    · simp only [Bool.false_eq_true, if_false, List.nil_append]
      rw [← hrender, hr]
      unfold jsonNumber
      split
      · rename_i heq
        injection heq with h1 h2
        exact absurd h1 c2
      · rfl
    · simp only [if_true, List.singleton_append]
      rw [← hrender]
      rfl
  have htrim : trimJSON S = S := by
    cases neg
    · simp only [Bool.false_eq_true, if_false, List.nil_append] at hS
      exact trimJSON_id S r init c l (by rw [hS, hr]) (by rw [hS, hl1]) c1 l1
    · simp only [if_true, List.singleton_append] at hS
      exact trimJSON_id S body ('-' :: init) '-' l hS (by rw [hS, hl1]; rfl) (by decide) l1
  have hnull : S ≠ "null".toList := by
    intro h
    rw [h] at hnum
    have : jsonNumber "null".toList = none := by decide
    rw [this] at hnum
    exact Option.noConfusion hnum
  have hval : decimalToFloat (neg, w * 10 ^ p + f, -(p : ℤ))
      = ofRat neg (w * 10 ^ p + f) (10 ^ p) := by
    simp [decimalToFloat]
  unfold unmarshalFloat64
  simp only [htrim, hnull, if_false, hnum, hval, hfin]

/-- Within the invariants the value is negative exactly when whole or fraction
is. -/
theorem parts_neg_iff (W fr : ℤ) (T : ℕ) (hT : 0 < T)
    (hs : (0 ≤ W ∧ 0 ≤ fr) ∨ (W ≤ 0 ∧ fr ≤ 0)) :
    (W < 0 ∨ fr < 0) ↔ W * T + fr < 0 := by
  have hTi : (0 : ℤ) < (T : ℤ) := by exact_mod_cast hT
  constructor
  · intro h
    rcases hs with ⟨a1, a2⟩ | ⟨a1, a2⟩
    · omega
    · have h1 : W * T ≤ 0 := mul_nonpos_of_nonpos_of_nonneg a1 hTi.le
      rcases h with h | h
      · have : W * T < 0 := mul_neg_of_neg_of_pos h hTi
        omega
      · omega
  · intro h
    by_contra hc
    push_neg at hc
    have : 0 ≤ W * T := mul_nonneg hc.1 hTi.le
    omega

/-- `UnmarshalJSON` of the `ToString` rendering gives the receiver back, for a
Decimal within the invariants and of magnitude up to `10^15` in units of
`10^-precision` (up to `4 * 10^14` above precision 14). -/
theorem unmarshalJSON_toString (d : Decimal) (hp : d.precision ≤ 18)
    (hfr : |d.fraction| < 10 ^ d.precision)
    (hs : (0 ≤ d.whole ∧ 0 ≤ d.fraction) ∨ (d.whole ≤ 0 ∧ d.fraction ≤ 0))
    (hb : |d.whole| * 10 ^ d.precision + |d.fraction| ≤ 10 ^ 15)
    (hp15 : 14 < d.precision → |d.whole| * 10 ^ d.precision + |d.fraction| ≤ 4 * 10 ^ 14) :
    UnmarshalJSON d (ToString d) = (d, false) := by
  have hstr := toString_spec d hp hfr hs hb
  obtain ⟨-, -, -, -, -, hA⟩ := toFloat_inv d hp hfr hs hb
  obtain ⟨W, fr, p, dp, ts⟩ := d
  simp only [] at hp hfr hs hb hp15 hstr hA ⊢
  have hTn : 0 < 10 ^ p := by positivity
  obtain ⟨t1, t2, t3⟩ := tdiv_of_parts W fr (10 ^ p) (by push_cast; exact hfr) hs
  have hneg := parts_neg_iff W fr (10 ^ p) hTn hs
  push_cast at t1 t2 t3 hneg
  have hfn : fr.natAbs < 10 ^ p := by zify; exact hfr
  obtain ⟨o1, o2, o3, o4, o5⟩ := ofRat_decimal (W * 10 ^ p + fr) p hp hA
  rw [t3] at o1 o2 o3 o4 o5
  obtain ⟨s, m, e, hfin, -, -, -⟩ := (isFinite_iff _).mp o1
  have hread := unmarshalFloat64_render (decide (W * 10 ^ p + fr < 0)) W.natAbs fr.natAbs p hfn
    s m e hfin
  have hsign : (if decide (W * 10 ^ p + fr < 0) = true then ['-'] else ([] : List Char))
      = (if W < 0 ∨ fr < 0 then ['-'] else []) := by
    by_cases h : W * 10 ^ p + fr < 0
    · rw [if_pos (by simpa using h), if_pos (hneg.mpr h)]
    · rw [if_neg (by simpa using h), if_neg (fun hc => h (hneg.mp hc))]
  rw [hsign, ← hstr] at hread
  have hAle : |W * 10 ^ p + fr| ≤ |W| * 10 ^ p + |fr| := by
    calc |W * 10 ^ p + fr| ≤ |W * 10 ^ p| + |fr| := abs_add _ _
      _ = |W| * 10 ^ p + |fr| := by
        rw [abs_mul, abs_of_pos (by positivity : (0 : ℤ) < 10 ^ p)]
  obtain ⟨Bf, hBf1, hBf2⟩ : ∃ Bf : ℚ, ((10 : ℚ) ^ p ≤ Bf
        ∨ |((W * 10 ^ p + fr : ℤ) : ℚ)| + 1 ≤ Bf) ∧ Bf ≤ 4 * 10 ^ 14 + 1 := by
    by_cases hc : p ≤ 14
    · have hT14 : (10 : ℚ) ^ p ≤ 10 ^ 14 := pow_le_pow_right₀ (by norm_num) hc
      exact ⟨10 ^ 14, Or.inl hT14, by norm_num⟩
    · have h15 := le_trans hAle (hp15 (by omega))
      have h15q : |((W * 10 ^ p + fr : ℤ) : ℚ)| ≤ 4 * 10 ^ 14 := by
        have : ((|W * 10 ^ p + fr| : ℤ) : ℚ) ≤ ((4 * 10 ^ 14 : ℤ) : ℚ) := by
          exact_mod_cast h15
        rw [Int.cast_abs] at this
        push_cast at this ⊢
        linarith
      exact ⟨_, Or.inr le_rfl, by linarith⟩
  have hnd := newDecimalFromFloat_eq _ p (W * 10 ^ p + fr) _ Bf o1 hp
    (le_trans hA (by norm_num)) o2 (by norm_num) hBf1 (by linarith) o3 o4
    (by rw [t3]; exact o5)
  rw [t1, t2] at hnd
  unfold UnmarshalJSON
  rw [hread]
  simp only [hnd]

/-! ### Commutativity of the float operations -/

/-- Go `x + y` on `float64` is commutative. -/
theorem add_swap (x y : F64) : add x y = add y x := by
  rcases x with _ | s | ⟨s, m, e⟩ <;> rcases y with _ | t | ⟨t, n, g⟩
  all_goals try rfl
  · simp only [add]
    by_cases h : s = t
    · rw [if_pos h, if_pos h.symm, h]
    · rw [if_neg h, if_neg (fun hc => h hc.symm)]
  · simp only [add]
    rw [min_comm g e, add_comm (sig t n * 2 ^ (g - min e g).toNat), Bool.and_comm t s]

/-- What `uint(x)` gives depends on the value of a finite `x` only. -/
theorem toUint64_congr (s t : Bool) (m n : Nat) (e g : ℤ)
    (h : toRat (fin s m e) = toRat (fin t n g)) :
    toUint64 (fin s m e) = toUint64 (fin t n g) := by
  obtain ⟨h1, h2⟩ := truncInt_spec s m e
  obtain ⟨h3, h4⟩ := truncInt_spec t n g
  rw [← h] at h3 h4
  have hT : truncInt s m e = truncInt t n g := by
    apply trunc_unique _ _ _ h1 h2
    rcases le_total 0 (toRat (fin s m e)) with h0 | h0
    · left; exact ⟨h0, h3 h0⟩
    · right; exact ⟨h0, h4 h0⟩
  simp only [toUint64, hT]

/-- The value of a finite binary64 from its signed significand at a common
exponent. -/
theorem toRat_common (s : Bool) (m : Nat) (e k : ℤ) (hk : k ≤ e) :
    toRat (fin s m e) = ((sig s m * 2 ^ (e - k).toNat : ℤ) : ℚ) * (2 : ℚ) ^ k := by
  have h1 : (2 : ℚ) ^ (e - k) * (2 : ℚ) ^ k = (2 : ℚ) ^ e := by
    rw [← zpow_add₀ (by norm_num : (2 : ℚ) ≠ 0)]; congr 1; ring
  simp only [toRat]
  push_cast
  rw [sig_cast, two_pow_toNat _ (by omega), mul_assoc (sgn s * (m : ℚ)), h1]
  ring

/-- Go `uint(math.Max(x, y))` does not depend on the order of the arguments. -/
theorem toUint64_max_swap (x y : F64) : toUint64 (F64.max x y) = toUint64 (F64.max y x) := by
  rcases x with _ | s | ⟨s, m, e⟩ <;> rcases y with _ | t | ⟨t, n, g⟩
  · rfl
  · cases t <;> rfl
  · rfl
  · cases s <;> rfl
  · cases s <;> cases t <;> rfl
  · cases s <;> rfl
  · rfl
  · cases t <;> rfl
  · simp only [F64.max]
    by_cases h0 : m = 0 ∧ n = 0
    · have h0' : n = 0 ∧ m = 0 := ⟨h0.2, h0.1⟩
      rw [if_pos h0, if_pos h0', Bool.and_comm]
    · have h0' : ¬ (n = 0 ∧ m = 0) := fun hc => h0 ⟨hc.2, hc.1⟩
      rw [if_neg h0, if_neg h0', min_comm g e]
      have hx := toRat_common s m e (min e g) (min_le_left e g)
      have hy := toRat_common t n g (min e g) (min_le_right e g)
      rcases lt_trichotomy (sig s m * 2 ^ (e - min e g).toNat)
          (sig t n * 2 ^ (g - min e g).toNat) with h | h | h
      · rw [if_pos h, if_neg (by omega)]
      · rw [if_neg (by omega), if_neg (by omega)]
        apply toUint64_congr
        rw [hx, hy, h]
      · rw [if_neg (by omega), if_pos h]

/-- The result precision of the binary operations does not depend on the order
of the operands. -/
theorem maxPrecision_swap (p q : Nat) : maxPrecision p q = maxPrecision q p :=
  toUint64_max_swap _ _

end F64

open F64

/-! ## Claims about the factories -/

/-- C1, counterexample: the amount goes through `float64`, which cannot hold
`2^53 + 1`; 337838338711559.7 (precision 1) comes back one unit higher, and so
does 0.002252067339193053 (precision 18). -/
theorem newDecimal_roundtrip_fails :
    (NewDecimal (2 ^ 53 + 1) 0).ToInt = 2 ^ 53
    ∧ (NewDecimal (2 ^ 53 + 1) 0).ToInt ≠ 2 ^ 53 + 1
    ∧ (NewDecimal 3378383387115597 1).ToInt = 3378383387115598
    ∧ (NewDecimal 2252067339193053 18).ToInt = 2252067339193054 := by
  decide!

/-- C1, amended: for every amount of magnitude at most `10^15` and every
precision up to 18, `NewDecimal(amount, precision).ToInt() == amount`. -/
theorem newDecimal_toInt_roundtrip (amount : ℤ) (precision : Nat)
    (hp : precision ≤ 18) (ha : |amount| ≤ 10 ^ 15) :
    (NewDecimal amount precision).ToInt = amount := by
  obtain ⟨W, hW, hb, -⟩ := newDecimal_spec amount precision hp ha
  rw [hW]
  have hWi : |W * 10 ^ precision| ≤ ((10 ^ 15 + 1 : ℕ) : ℤ) := by
    apply int_abs_le_of_rat
    push_cast
    linarith
  obtain ⟨h1, h2⟩ := abs_le.mp hWi
  obtain ⟨h3, h4⟩ := abs_le.mp ha
  push_cast at h1 h2
  rw [toInt_eq W _ precision 44 46 hp (by rw [abs_le]; constructor <;> omega)
    (by rw [abs_le]; constructor <;> omega)]
  ring

/-- Witness of C1 at `NewDecimal(2456, 2)` and at the amount of the tests,
`NewDecimal(314159265358979, 14)`. -/
theorem newDecimal_toInt_roundtrip_witness :
    ((2 : ℕ) ≤ 18 ∧ |(2456 : ℤ)| ≤ 10 ^ 15) ∧ (NewDecimal 2456 2).ToInt = 2456
    ∧ ((14 : ℕ) ≤ 18 ∧ |(314159265358979 : ℤ)| ≤ 10 ^ 15)
    ∧ (NewDecimal 314159265358979 14).ToInt = 314159265358979 :=
  ⟨⟨by norm_num, by norm_num⟩, newDecimal_toInt_roundtrip 2456 2 (by norm_num) (by norm_num),
    ⟨by norm_num, by norm_num⟩,
    newDecimal_toInt_roundtrip 314159265358979 14 (by norm_num) (by norm_num)⟩

/-- C5 (the code misses ties): 0.265625 is a binary64 and at precision 5 an
exact tie, `26562.5` units, which rounds half away from zero to 26563; the
code stores 26562, because scaling the pre-rounded fraction back by
`Pow10(-7)` lands just below the tie.  The binary64 nearest to 0.00005 lies
above the tie at precision 4 (`0.5000000000000000239…` units, nearest integer
1) and the code stores 0.  The decimal 0.00015 at precision 4 (`1.5` units) is
stored as 1, although the pre-rounding to six digits is there to lift such
values to the tie, as it does for 2.675 at precision 2; an exact tie such as
0.125 at precision 2 is rounded away from zero, as the comment in the code
says. -/
theorem newDecimalFromFloat_tie_rounds_down :
    toRat (ofRat false 265625 1000000) * 10 ^ 5 = 26562 + 1 / 2
    ∧ roundHalfAway (toRat (ofRat false 265625 1000000) * 10 ^ 5) = 26563
    ∧ NewDecimalFromFloat (ofRat false 265625 1000000) 5 = ⟨0, 26562, 5, 44, 46⟩
    ∧ (1 : ℚ) / 2 < toRat (ofRat false 5 100000) * 10 ^ 4
    ∧ roundHalfAway (toRat (ofRat false 5 100000) * 10 ^ 4) = 1
    ∧ NewDecimalFromFloat (ofRat false 5 100000) 4 = ⟨0, 0, 4, 44, 46⟩
    ∧ roundHalfAway ((15 : ℚ) / 100000 * 10 ^ 4) = 2
    ∧ NewDecimalFromFloat (ofRat false 15 100000) 4 = ⟨0, 1, 4, 44, 46⟩
    ∧ NewDecimalFromFloat (ofRat false 2675 1000) 2 = ⟨2, 68, 2, 44, 46⟩
    ∧ NewDecimalFromFloat (ofRat false 125 1000) 2 = ⟨0, 13, 2, 44, 46⟩ := by
  decide!

/-! ## Claims about the stored representation -/

/-- C2 (the code breaks the invariant): rounding up to the next whole number
is not carried into `whole`, so the stored fraction reaches `10^precision`.
`NewDecimalFromFloat(0.999, 2)` stores whole 0 and fraction 100; so does the
product of 0.81 and 1.23 at precision 2; and `NewDecimal(100000000000, 11)`
stores whole 0 and fraction `10^11`. -/
theorem fraction_reaches_pow10 :
    (NewDecimalFromFloat (ofRat false 999 1000) 2).GetWhole = 0
    ∧ (NewDecimalFromFloat (ofRat false 999 1000) 2).GetFraction = 10 ^ 2
    ∧ (Multiply (NewDecimalFromFloat (ofRat false 81 100) 2)
        (NewDecimalFromFloat (ofRat false 123 100) 2)).GetFraction = 10 ^ 2
    ∧ (NewDecimal 100000000000 11).GetWhole = 0
    ∧ (NewDecimal 100000000000 11).GetFraction = 10 ^ 11 := by
  decide!

/-- C3 (the code misses a case): `NewDecimal(-18, 2)` stores whole 0 and
fraction -18, its value -0.18 is negative, and `IsNegative` returns false. -/
theorem isNegative_misses_zero_whole :
    NewDecimal (-18) 2 = ⟨0, -18, 2, 44, 46⟩
    ∧ value (NewDecimal (-18) 2) < 0
    ∧ IsNegative (NewDecimal (-18) 2) = false := by
  decide!

/-- C4 (the code misplaces the separators): the example of the function's own
comment, 23345.99 with thousand separator `,` and decimal point `.`, is
rendered as `2,3345.99` and not as `23,345.99`: the separators are put at the
byte offsets 1, 5, 9, … whatever the length of the first group.  The example
of the claim, whose first group has one digit, is rendered as the claim says. -/
theorem toStringFormatted_misgroups :
    ToStringFormatted (SetThousandSeparator (SetDecimalPoint (NewDecimal 2334599 2) 46) 44)
      = "2,3345.99".toList
    ∧ ToStringFormatted (SetThousandSeparator (SetDecimalPoint (NewDecimal 2334599 2) 46) 44)
      ≠ "23,345.99".toList
    ∧ ToStringFormatted (NewDecimal 38948737383 4) = "3.894.873,7383".toList := by
  decide!

/-! ## Claims about `Split` -/

/-- C6, counterexample: 2205907088498.781 split in one part comes back as
2205907088498.780; and the error of the running sum grows with the number of
parts: 1922550604813.11 split in 100 parts gives 19225506048.25 and 99 times
19225506048.13, which add up to 1922550604813.12. -/
theorem split_sum_not_exact :
    (NewDecimal 2205907088498781 3).ToInt = 2205907088498781
    ∧ Split (NewDecimal 2205907088498781 3) 1 = some [⟨2205907088498, 780, 3, 44, 46⟩]
    ∧ (([⟨2205907088498, 780, 3, 44, 46⟩] : List Decimal).map ToInt).sum
        = 2205907088498780
    ∧ ToInt ⟨1922550604813, 11, 2, 44, 46⟩ = 192255060481311
    ∧ Split ⟨1922550604813, 11, 2, 44, 46⟩ 100
        = some (⟨19225506048, 25, 2, 44, 46⟩ :: List.replicate 99 ⟨19225506048, 13, 2, 44, 46⟩)
    ∧ ((⟨19225506048, 25, 2, 44, 46⟩
          :: List.replicate 99 (⟨19225506048, 13, 2, 44, 46⟩ : Decimal)).map ToInt).sum
        = 192255060481312 := by
  decide!

/-- C6, amended: for every Decimal of precision at most 18 and every number
of parts `n > 0` within the allocation limit, with
`(n + 5) × (|whole| × 10^precision + |fraction| + 1) ≤ 4 × 10^15` (and the
magnitude `|whole| × 10^precision + |fraction|` at most `4 × 10^14` above
precision 14), `Split(n)` returns `n` parts of the same precision whose
`ToInt()` values add up to `ToInt()` of the Decimal. -/
theorem split_sum_exact (d : Decimal) (n : Nat) (hn : 0 < n) (hn2 : n ≤ maxSliceLen)
    (hp : d.precision ≤ 18)
    (hb : ((n : ℤ) + 5) * (|d.whole| * 10 ^ d.precision + |d.fraction| + 1) ≤ 4 * 10 ^ 15)
    (hp15 : 14 < d.precision → |d.whole| * 10 ^ d.precision + |d.fraction| ≤ 4 * 10 ^ 14) :
    ∃ parts, Split d n = some parts ∧ parts.length = n
      ∧ (parts.map ToInt).sum = ToInt d
      ∧ ∀ part ∈ parts, part.precision = d.precision := by
  have hbq : ((n : ℚ) + 5)
      * (|(d.whole : ℚ)| * (10 : ℚ) ^ d.precision + |(d.fraction : ℚ)| + 1) ≤ 4 * 10 ^ 15 := by
    have h1 : ((((n : ℤ) + 5) * (|d.whole| * 10 ^ d.precision + |d.fraction| + 1) : ℤ) : ℚ)
        ≤ ((4 * 10 ^ 15 : ℤ) : ℚ) := by exact_mod_cast hb
    push_cast at h1
    linarith
  have hp15q : 14 < d.precision →
      |(d.whole : ℚ)| * (10 : ℚ) ^ d.precision + |(d.fraction : ℚ)| ≤ 4 * 10 ^ 14 := by
    intro h
    have h1 : ((|d.whole| * 10 ^ d.precision + |d.fraction| : ℤ) : ℚ)
        ≤ ((4 * 10 ^ 14 : ℤ) : ℚ) := by exact_mod_cast hp15 h
    push_cast at h1
    linarith
  rw [maxSliceLen_eq] at hn2
  obtain ⟨part0, part, hs, hsum, hp0, hp1⟩ := split_spec d n hn hn2 hp hbq hp15q
  have hn1 : (1 : ℤ) ≤ (n : ℤ) := by exact_mod_cast hn
  have hW0 : (0 : ℤ) ≤ |d.whole| * 10 ^ d.precision :=
    mul_nonneg (abs_nonneg _) (by positivity)
  have hf0 := abs_nonneg d.fraction
  have hsmall : |d.whole| * 10 ^ d.precision + |d.fraction| + 1 ≤ 4 * 10 ^ 15 := by
    have : 1 * (|d.whole| * 10 ^ d.precision + |d.fraction| + 1)
        ≤ ((n : ℤ) + 5) * (|d.whole| * 10 ^ d.precision + |d.fraction| + 1) :=
      mul_le_mul_of_nonneg_right (by linarith) (by linarith)
    linarith
  have hto : ToInt d = d.whole * 10 ^ d.precision + d.fraction := by
    obtain ⟨W, fr, p, dp, ts⟩ := d
    simp only [] at hp hsmall hW0 hf0 ⊢
    apply toInt_eq W fr p dp ts hp
    · rw [abs_mul, abs_of_pos (by positivity : (0 : ℤ) < 10 ^ p)]
      linarith
    · linarith
  refine ⟨_, hs, by simp; omega, ?_, ?_⟩
  · rw [hto, ← hsum]
    simp only [List.map_cons, List.sum_cons, List.map_replicate, List.sum_replicate]
    have : ((n - 1 : ℕ) : ℤ) = (n : ℤ) - 1 := by omega
    rw [nsmul_eq_mul, this]
  · intro x hx
    rcases List.mem_cons.mp hx with h | h
    · rw [h]; exact hp0
    · rw [(List.mem_replicate.mp h).2]; exact hp1

/-- Witness of C6 at 10.00 split in 3. -/
theorem split_sum_exact_witness :
    ∃ parts, Split ⟨10, 0, 2, 44, 46⟩ 3 = some parts ∧ parts.length = 3
      ∧ (parts.map ToInt).sum = ToInt ⟨10, 0, 2, 44, 46⟩
      ∧ ∀ part ∈ parts, part.precision = 2 :=
  split_sum_exact ⟨10, 0, 2, 44, 46⟩ 3 (by decide) (by decide) (by decide) (by decide)
    (by decide)

/-- C7 (the code loses the truncated quotient to float error): 1.2 split in 3
gives 0.6, 0.3, 0.3, because `1.2 / 3 * 10` is `3.9999999999999996` in
binary64 and truncates to 3; the truncated quotient of the claim is 0.4.  The
example of the test, 10.00 split in 3, gives 3.34, 3.33, 3.33. -/
theorem split_quotient_off_by_one :
    NewDecimalFromFloat (ofRat false 12 10) 1 = ⟨1, 2, 1, 44, 46⟩
    ∧ Split (NewDecimalFromFloat (ofRat false 12 10) 1) 3
      = some [⟨0, 6, 1, 44, 46⟩, ⟨0, 3, 1, 44, 46⟩, ⟨0, 3, 1, 44, 46⟩]
    ∧ Split (NewDecimalFromFloat (ofRat false 10 1) 2) 3
      = some [⟨3, 34, 2, 44, 46⟩, ⟨3, 33, 2, 44, 46⟩, ⟨3, 33, 2, 44, 46⟩] := by
  decide!

/-- C8, counterexample: a positive number of parts beyond the allocation limit
of `make([]Decimal, n)` does not return normally, the call panics; so for
`2^43 + 1` and for `2^62` parts. -/
theorem split_panics_beyond_limit :
    0 < 2 ^ 43 + 1 ∧ Split ⟨10, 0, 2, 44, 46⟩ (2 ^ 43 + 1) = none
    ∧ Split ⟨10, 0, 2, 44, 46⟩ (2 ^ 62) = none := by
  decide!

/-- C8, amended: `Split(n)` fails exactly when `n = 0` (the access to
`parts[0]` is out of range on the empty slice) or `n` is beyond the allocation
limit `maxSliceLen = 2^43` (`make` panics); for every `n` from 1 to the limit
it returns `n` parts. -/
theorem split_fails_on_zero_and_beyond_limit (d : Decimal) (n : Nat) :
    (Split d n = none ↔ (n = 0 ∨ maxSliceLen < n))
    ∧ (0 < n ∧ n ≤ maxSliceLen → ∃ parts, Split d n = some parts ∧ parts.length = n)
    ∧ maxSliceLen = 2 ^ 43 := by
  have hok : 0 < n ∧ n ≤ maxSliceLen → ∃ parts, Split d n = some parts ∧ parts.length = n := by
    rintro ⟨hn, hl⟩
    obtain ⟨k, rfl⟩ : ∃ k, n = k + 1 := ⟨n - 1, by omega⟩
    unfold Split
    rw [if_neg (by omega)]
    exact ⟨_, rfl, by simp⟩
  refine ⟨⟨?_, ?_⟩, hok, maxSliceLen_eq⟩
  · intro h
    by_contra hc
    rw [not_or, not_lt] at hc
    obtain ⟨parts, hp, -⟩ := hok ⟨Nat.pos_of_ne_zero hc.1, hc.2⟩
    rw [h] at hp
    exact Option.noConfusion hp
  · rintro (h | h)
    · subst h
      rfl
    · unfold Split
      rw [if_pos h]

/-- Witness of C8 at the decimal 10.00 split in 3. -/
theorem split_fails_on_zero_and_beyond_limit_witness :
    (0 < 3 ∧ 3 ≤ maxSliceLen)
    ∧ ∃ parts, Split ⟨10, 0, 2, 44, 46⟩ 3 = some parts ∧ parts.length = 3 :=
  ⟨by decide, (split_fails_on_zero_and_beyond_limit ⟨10, 0, 2, 44, 46⟩ 3).2.1 (by decide)⟩

/-! ## Claims about the binary operations -/

/-- C9, counterexample: 13693110777149.73 + 21510745852168.92 gives
35203856629318.66, one unit too many; and `2^53 + 1` (precision 0) gives `2^53`. -/
theorem add_not_exact :
    (NewDecimal 1369311077714973 2).ToInt = 1369311077714973
    ∧ (NewDecimal 2151074585216892 2).ToInt = 2151074585216892
    ∧ (Add (NewDecimal 1369311077714973 2) (NewDecimal 2151074585216892 2)).ToInt
        = 1369311077714973 + 2151074585216892 + 1
    ∧ (Add ⟨2 ^ 53, 0, 0, 44, 46⟩ ⟨1, 0, 0, 44, 46⟩).ToInt = 2 ^ 53 := by
  decide!

/-- C9, amended: for Decimals of precision at most 18 whose fractions do not
exceed `10^precision` in magnitude, `Add` is exact,
`a.Add(b).ToInt() == a.ToInt() × 10^(m−p) + b.ToInt() × 10^(m−q)` with
`m = max(p, q)`, when the magnitudes of the two operands scaled to `m` digits
add up to at most `10^15` (at most `4 × 10^14` when `m` is above 14). -/
theorem add_exact (a b : Decimal) (hp : a.precision ≤ 18) (hq : b.precision ≤ 18)
    (haf : |a.fraction| ≤ 10 ^ a.precision) (hbf : |b.fraction| ≤ 10 ^ b.precision)
    (hS : (|a.whole| * 10 ^ a.precision + |a.fraction|)
          * 10 ^ (Max.max a.precision b.precision - a.precision)
        + (|b.whole| * 10 ^ b.precision + |b.fraction|)
          * 10 ^ (Max.max a.precision b.precision - b.precision) ≤ 10 ^ 15)
    (h15 : 14 < Max.max a.precision b.precision →
      (|a.whole| * 10 ^ a.precision + |a.fraction|)
          * 10 ^ (Max.max a.precision b.precision - a.precision)
        + (|b.whole| * 10 ^ b.precision + |b.fraction|)
          * 10 ^ (Max.max a.precision b.precision - b.precision) ≤ 4 * 10 ^ 14) :
    (Add a b).ToInt
      = a.ToInt * 10 ^ (Max.max a.precision b.precision - a.precision)
        + b.ToInt * 10 ^ (Max.max a.precision b.precision - b.precision) := by
  obtain ⟨Wa, fa, p, dpa, tsa⟩ := a
  obtain ⟨Wb, fb, q, dpb, tsb⟩ := b
  simp only [] at hp hq haf hbf hS h15 ⊢
  generalize hm : Max.max p q = m at hS h15 ⊢
  have hpm : p ≤ m := by rw [← hm]; exact le_max_left _ _
  have hqm : q ≤ m := by rw [← hm]; exact le_max_right _ _
  have hm18 : m ≤ 18 := by rw [← hm]; exact max_le hp hq
  -- the hypotheses on rationals, in units of `10^-m`
  have hTa : (10 : ℚ) ^ m = (10 : ℚ) ^ p * (10 : ℚ) ^ (m - p) := by
    rw [← pow_add]; congr 1; omega
  have hTb : (10 : ℚ) ^ m = (10 : ℚ) ^ q * (10 : ℚ) ^ (m - q) := by
    rw [← pow_add]; congr 1; omega
  have e1 : |(Wa : ℚ)| * (10 : ℚ) ^ m = |(Wa : ℚ)| * (10 : ℚ) ^ p * (10 : ℚ) ^ (m - p) := by
    rw [hTa]; ring
  have e2 : |(Wb : ℚ)| * (10 : ℚ) ^ m = |(Wb : ℚ)| * (10 : ℚ) ^ q * (10 : ℚ) ^ (m - q) := by
    rw [hTb]; ring
  have hSq : |(Wa : ℚ)| * (10 : ℚ) ^ m + |(fa : ℚ)| * (10 : ℚ) ^ (m - p)
      + (|(Wb : ℚ)| * (10 : ℚ) ^ m + |(fb : ℚ)| * (10 : ℚ) ^ (m - q)) ≤ 10 ^ 15 := by
    have h1 : (((|Wa| * 10 ^ p + |fa|) * 10 ^ (m - p)
        + (|Wb| * 10 ^ q + |fb|) * 10 ^ (m - q) : ℤ) : ℚ) ≤ ((10 ^ 15 : ℤ) : ℚ) := by
      exact_mod_cast hS
    push_cast at h1
    rw [e1, e2]
    linarith
  have h15q : 14 < m → |(Wa : ℚ)| * (10 : ℚ) ^ m + |(fa : ℚ)| * (10 : ℚ) ^ (m - p)
      + (|(Wb : ℚ)| * (10 : ℚ) ^ m + |(fb : ℚ)| * (10 : ℚ) ^ (m - q)) ≤ 4 * 10 ^ 14 := by
    intro h
    have h1 : (((|Wa| * 10 ^ p + |fa|) * 10 ^ (m - p)
        + (|Wb| * 10 ^ q + |fb|) * 10 ^ (m - q) : ℤ) : ℚ) ≤ ((4 * 10 ^ 14 : ℤ) : ℚ) := by
      exact_mod_cast h15 h
    push_cast at h1
    rw [e1, e2]
    linarith
  have hfaq : |(fa : ℚ)| * (10 : ℚ) ^ (m - p) ≤ (10 : ℚ) ^ m := by
    have h1 : ((|fa| : ℤ) : ℚ) ≤ ((10 ^ p : ℤ) : ℚ) := by exact_mod_cast haf
    push_cast at h1
    rw [hTa]
    exact mul_le_mul_of_nonneg_right h1 (by positivity)
  have hfbq : |(fb : ℚ)| * (10 : ℚ) ^ (m - q) ≤ (10 : ℚ) ^ m := by
    have h1 : ((|fb| : ℤ) : ℚ) ≤ ((10 ^ q : ℤ) : ℚ) := by exact_mod_cast hbf
    push_cast at h1
    rw [hTb]
    exact mul_le_mul_of_nonneg_right h1 (by positivity)
  have hWa0 : 0 ≤ |(Wa : ℚ)| * (10 : ℚ) ^ m := by positivity
  have hWb0 : 0 ≤ |(Wb : ℚ)| * (10 : ℚ) ^ m := by positivity
  have hfa0 : 0 ≤ |(fa : ℚ)| * (10 : ℚ) ^ (m - p) := by positivity
  have hfb0 : 0 ≤ |(fb : ℚ)| * (10 : ℚ) ^ (m - q) := by positivity
  have hT0 : (0 : ℚ) < (10 : ℚ) ^ m := by positivity
  -- the bound of the fraction of the sum: `10^m` up to 14 digits, the magnitude above
  obtain ⟨Bfr, hB1, hB2⟩ : ∃ Bfr : ℚ, ((10 : ℚ) ^ m ≤ Bfr
        ∨ (|(Wa : ℚ)| * (10 : ℚ) ^ m + |(Wb : ℚ)| * (10 : ℚ) ^ m)
          + (|(fa : ℚ)| * (10 : ℚ) ^ (m - p) + |(fb : ℚ)| * (10 : ℚ) ^ (m - q)) + 1 ≤ Bfr)
      ∧ 2 * (|(Wa : ℚ)| * (10 : ℚ) ^ m + |(Wb : ℚ)| * (10 : ℚ) ^ m)
          + 4 * (|(fa : ℚ)| * (10 : ℚ) ^ (m - p) + |(fb : ℚ)| * (10 : ℚ) ^ (m - q))
          + 5 * Bfr ≤ 37 * 10 ^ 14 := by
    by_cases hc : m ≤ 14
    · have hT14 : (10 : ℚ) ^ m ≤ 10 ^ 14 := pow_le_pow_right₀ (by norm_num) hc
      exact ⟨10 ^ 14, Or.inl hT14, by linarith⟩
    · have := h15q (by omega)
      exact ⟨_, Or.inr le_rfl, by linarith⟩
  have hadd := add_spec ⟨Wa, fa, p, dpa, tsa⟩ ⟨Wb, fb, q, dpb, tsb⟩ _ _ Bfr hp hq
    (by simp only [hm]; exact le_rfl) (by simp only [hm]; exact le_rfl)
    (by simp only [hm]; exact hB1) (by linarith)
  simp only [hm] at hadd
  obtain ⟨h1, -⟩ := hadd
  have hto : ∀ (W fr : ℤ) (r k dp ts : Nat), r ≤ 18 → r ≤ m →
      |(W : ℚ)| * (10 : ℚ) ^ m ≤ 10 ^ 15 → |(fr : ℚ)| * (10 : ℚ) ^ k ≤ 10 ^ 15 →
      ToInt ⟨W, fr, r, dp, ts⟩ = W * 10 ^ r + fr := by
    intro W fr r k dp ts hr hrm hW hf
    have hk : (1 : ℚ) ≤ (10 : ℚ) ^ k := one_le_pow₀ (by norm_num)
    have hmr : (10 : ℚ) ^ r ≤ (10 : ℚ) ^ m := pow_le_pow_right₀ (by norm_num) hrm
    have hf' : |(fr : ℚ)| ≤ 10 ^ 15 := by
      have : |(fr : ℚ)| * 1 ≤ |(fr : ℚ)| * (10 : ℚ) ^ k :=
        mul_le_mul_of_nonneg_left hk (abs_nonneg _)
      linarith
    have hW' : |(W : ℚ)| * (10 : ℚ) ^ r ≤ 10 ^ 15 := by
      have : |(W : ℚ)| * (10 : ℚ) ^ r ≤ |(W : ℚ)| * (10 : ℚ) ^ m :=
        mul_le_mul_of_nonneg_left hmr (abs_nonneg _)
      linarith
    have hWi : |W * 10 ^ r| ≤ ((2 ^ 61 : ℕ) : ℤ) := by
      apply int_abs_le_of_rat
      push_cast
      rw [abs_mul, abs_of_pos (by positivity : (0 : ℚ) < (10 : ℚ) ^ r)]
      linarith
    have hfi : |fr| ≤ ((2 ^ 61 : ℕ) : ℤ) := by
      apply int_abs_le_of_rat
      push_cast
      linarith
    exact toInt_eq W fr r dp ts hr (by simpa using hWi) (by simpa using hfi)
  rw [h1, hto Wa fa p (m - p) dpa tsa hp hpm (by linarith) (by linarith),
    hto Wb fb q (m - q) dpb tsb hq hqm (by linarith) (by linarith)]

/-- Witness of C9 at 12.34 (precision 2) plus 35.0000 (precision 4). -/
theorem add_exact_witness :
    (Add ⟨12, 34, 2, 44, 46⟩ ⟨35, 0, 4, 44, 46⟩).ToInt
      = (ToInt ⟨12, 34, 2, 44, 46⟩) * 10 ^ (Max.max 2 4 - 2)
        + (ToInt ⟨35, 0, 4, 44, 46⟩) * 10 ^ (Max.max 2 4 - 4) :=
  add_exact ⟨12, 34, 2, 44, 46⟩ ⟨35, 0, 4, 44, 46⟩ (by norm_num) (by norm_num)
    (by decide) (by decide) (by decide) (by decide)

/-- C10, counterexample: the result precision is computed in `float64`, so a
precision of `2^53 + 1` comes back as `2^53`. -/
theorem precision_max_fails_beyond_2_pow_53 :
    (Add (NewDecimal 0 (2 ^ 53 + 1)) (NewDecimal 0 0)).precision = 2 ^ 53
    ∧ (NewDecimal 0 (2 ^ 53 + 1)).precision = 2 ^ 53 + 1
    ∧ ¬ ((Add (NewDecimal 0 (2 ^ 53 + 1)) (NewDecimal 0 0)).precision
          = Max.max (NewDecimal 0 (2 ^ 53 + 1)).precision (NewDecimal 0 0).precision) := by
  decide!

/-- C10, amended: when both precisions are at most `2^53`, the precision of
`Add`, `Subtract`, `Multiply` and `Divide` is the larger of the two. -/
theorem precision_of_binary_operations (a b : Decimal)
    (ha : a.precision ≤ 2 ^ 53) (hb : b.precision ≤ 2 ^ 53) :
    (Add a b).precision = Max.max a.precision b.precision
    ∧ (Subtract a b).precision = Max.max a.precision b.precision
    ∧ (Multiply a b).precision = Max.max a.precision b.precision
    ∧ (Divide a b).precision = Max.max a.precision b.precision := by
  have h := maxPrecision_eq a.precision b.precision ha hb
  exact ⟨h, h, h, h⟩

/-- Witness of C10 at 12.34 (precision 2) and 35.0000 (precision 4). -/
theorem precision_of_binary_operations_witness :
    ((2 : ℕ) ≤ 2 ^ 53 ∧ (4 : ℕ) ≤ 2 ^ 53)
    ∧ (Add ⟨12, 34, 2, 44, 46⟩ ⟨35, 0, 4, 44, 46⟩).precision = Max.max 2 4 :=
  ⟨⟨by norm_num, by norm_num⟩,
    (precision_of_binary_operations ⟨12, 34, 2, 44, 46⟩ ⟨35, 0, 4, 44, 46⟩
      (by norm_num) (by norm_num)).1⟩

/-! ## Claims about the float-operand variants -/

/-- C11, counterexample: `MultiplyFloat` and `DivideByFloat` do not wrap the
float operand.  On 15.50 and 17.399 `MultiplyFloat` gives 269.68 (the value the
package's own test expects) while `Multiply` by the wrapped operand 17.40 gives
269.70; on 10.00 and 0.125 `DivideByFloat` gives 80.00 while `Divide` by the
wrapped operand 0.13 gives 76.92. -/
theorem multiplyFloat_does_not_wrap :
    MultiplyFloat ⟨15, 50, 2, 44, 46⟩ (ofRat false 17399 1000) = ⟨269, 68, 2, 44, 46⟩
    ∧ Multiply ⟨15, 50, 2, 44, 46⟩ (NewDecimalFromFloat (ofRat false 17399 1000) 2)
        = ⟨269, 70, 2, 44, 46⟩
    ∧ DivideByFloat ⟨10, 0, 2, 44, 46⟩ (ofRat false 125 1000) = ⟨80, 0, 2, 44, 46⟩
    ∧ Divide ⟨10, 0, 2, 44, 46⟩ (NewDecimalFromFloat (ofRat false 125 1000) 2)
        = ⟨76, 92, 2, 44, 46⟩ := by
  decide!

/-- C11, amended: `AddFloat` and `SubtractFloat` wrap the operand into a
Decimal of the receiver's precision and delegate; `MultiplyFloat` and
`DivideByFloat` apply the float operation to `d.ToFloat()` and the operand as
it is and build the result at the receiver's precision, which is what
`Multiply` and `Divide` do with any Decimal `e` of at most that precision whose
`ToFloat()` is the operand. -/
theorem float_operand_variants (d e : Decimal) (f : F64)
    (hd : d.precision ≤ 2 ^ 53) (he : e.precision ≤ d.precision) :
    AddFloat d f = Add d (NewDecimalFromFloat f d.precision)
    ∧ SubtractFloat d f = Subtract d (NewDecimalFromFloat f d.precision)
    ∧ MultiplyFloat d f = NewDecimalFromFloat (mul (ToFloat d) f) d.precision
    ∧ DivideByFloat d f = NewDecimalFromFloat (div (ToFloat d) f) d.precision
    ∧ MultiplyFloat d (ToFloat e) = Multiply d e
    ∧ DivideByFloat d (ToFloat e) = Divide d e := by
  have h : maxPrecision d.precision e.precision = d.precision := by
    rw [maxPrecision_eq d.precision e.precision hd (le_trans he hd)]
    exact max_eq_left he
  refine ⟨rfl, rfl, rfl, rfl, ?_, ?_⟩
  · simp only [MultiplyFloat, Multiply, h]
  · simp only [DivideByFloat, Divide, h]

/-- Witness of C11 at 15.50, the operand 17.399 and the Decimal 2.5 (precision 1). -/
theorem float_operand_variants_witness :
    ((2 : ℕ) ≤ 2 ^ 53 ∧ (1 : ℕ) ≤ 2)
    ∧ MultiplyFloat ⟨15, 50, 2, 44, 46⟩ (ofRat false 17399 1000)
        = NewDecimalFromFloat (mul (ToFloat ⟨15, 50, 2, 44, 46⟩) (ofRat false 17399 1000)) 2
    ∧ MultiplyFloat ⟨15, 50, 2, 44, 46⟩ (ToFloat ⟨2, 5, 1, 44, 46⟩)
        = Multiply ⟨15, 50, 2, 44, 46⟩ ⟨2, 5, 1, 44, 46⟩ :=
  ⟨⟨by norm_num, by norm_num⟩,
    (float_operand_variants ⟨15, 50, 2, 44, 46⟩ ⟨2, 5, 1, 44, 46⟩ (ofRat false 17399 1000)
      (by norm_num) (by norm_num)).2.2.1,
    (float_operand_variants ⟨15, 50, 2, 44, 46⟩ ⟨2, 5, 1, 44, 46⟩ (ofRat false 17399 1000)
      (by norm_num) (by norm_num)).2.2.2.2.1⟩

/-! ## Claims about the renderings -/

/-- C12: for a negative Decimal `ToStringFormatted` neither groups the whole
part nor prints the sign once.  -1234567.89 (whole -1234567, fraction -89) is
rendered `-1234567,-89` where the claim requires `-1.234.567,89`, and -0.18
(whole 0, fraction -18) is rendered `0,-18` where the claim requires `-0,18`. -/
theorem toStringFormatted_negative :
    NewDecimal (-123456789) 2 = ⟨-1234567, -89, 2, 44, 46⟩
    ∧ ToStringFormatted (NewDecimal (-123456789) 2) = "-1234567,-89".toList
    ∧ ToStringFormatted (NewDecimal (-123456789) 2) ≠ "-1.234.567,89".toList
    ∧ NewDecimal (-18) 2 = ⟨0, -18, 2, 44, 46⟩
    ∧ ToStringFormatted (NewDecimal (-18) 2) = "0,-18".toList
    ∧ ToStringFormatted (NewDecimal (-18) 2) ≠ "-0,18".toList := by
  decide!

/-! ## Claims about the setters -/

/-- C20: `SetDecimalPoint` changes the decimal point only and
`SetThousandSeparator` the thousand separator only; `ToInt`, `ToFloat`,
`ToString`, `IsZero` and `IsNegative` give the same results on the receiver
after the call as before. -/
theorem setters_change_only_their_field (d : Decimal) (c : Nat) :
    (SetDecimalPoint d c = ⟨d.whole, d.fraction, d.precision, c, d.thousandSeparator⟩
      ∧ ToInt (SetDecimalPoint d c) = ToInt d
      ∧ ToFloat (SetDecimalPoint d c) = ToFloat d
      ∧ ToString (SetDecimalPoint d c) = ToString d
      ∧ IsZero (SetDecimalPoint d c) = IsZero d
      ∧ IsNegative (SetDecimalPoint d c) = IsNegative d)
    ∧ (SetThousandSeparator d c = ⟨d.whole, d.fraction, d.precision, d.decimalPoint, c⟩
      ∧ ToInt (SetThousandSeparator d c) = ToInt d
      ∧ ToFloat (SetThousandSeparator d c) = ToFloat d
      ∧ ToString (SetThousandSeparator d c) = ToString d
      ∧ IsZero (SetThousandSeparator d c) = IsZero d
      ∧ IsNegative (SetThousandSeparator d c) = IsNegative d) :=
  ⟨⟨rfl, rfl, rfl, rfl, rfl, rfl⟩, ⟨rfl, rfl, rfl, rfl, rfl, rfl⟩⟩

/-! ## Claims about `UnmarshalJSON` -/

/-- C18, counterexample: `null` is not a JSON number, yet `UnmarshalJSON`
accepts it (and sets the receiver to zero); `1e999` is a JSON number, yet
`UnmarshalJSON` fails on it. -/
theorem unmarshalJSON_null_accepted_overflow_refused :
    jsonNumber (trimJSON "null".toList) = none
    ∧ UnmarshalJSON ⟨148, 50, 2, 44, 46⟩ "null".toList = (⟨0, 0, 2, 44, 46⟩, false)
    ∧ jsonNumber (trimJSON "1e999".toList) = some (false, 1, 999)
    ∧ UnmarshalJSON ⟨148, 50, 2, 44, 46⟩ "1e999".toList = (⟨148, 50, 2, 44, 46⟩, true) := by
  decide!

/-- C18, amended: `UnmarshalJSON` fails exactly when the input, JSON white
space at both ends aside, is neither `null` nor a JSON number that fits a
`float64` (it is not a JSON number, or it is one whose nearest `float64` is an
infinity); on failure the receiver keeps all five fields.  The inputs `35.23x`
and `35 32000` fail. -/
theorem unmarshalJSON_fails_iff (d : Decimal) (data : List Char) :
    ((UnmarshalJSON d data).2 = true ↔
      trimJSON data ≠ "null".toList
        ∧ (jsonNumber (trimJSON data) = none
            ∨ ∃ v, jsonNumber (trimJSON data) = some v ∧ decimalToFloat v = inf v.1))
    ∧ ((UnmarshalJSON d data).2 = true → (UnmarshalJSON d data).1 = d)
    ∧ UnmarshalJSON d "35.23x".toList = (d, true)
    ∧ UnmarshalJSON d "35 32000".toList = (d, true) := by
  have key : (UnmarshalJSON d data).2 = true ↔ unmarshalFloat64 data = none := by
    unfold UnmarshalJSON
    cases unmarshalFloat64 data <;> simp
  refine ⟨key.trans (unmarshalFloat64_none_iff data), ?_, ?_, ?_⟩
  · intro h
    have h2 := key.mp h
    simp only [UnmarshalJSON, h2]
  · have h : unmarshalFloat64 "35.23x".toList = none := by decide!
    simp only [UnmarshalJSON, h]
  · have h : unmarshalFloat64 "35 32000".toList = none := by decide!
    simp only [UnmarshalJSON, h]

/-- C19, counterexample: `1e400` is a valid JSON number, yet `UnmarshalJSON`
returns an error for it and leaves the receiver as it was. -/
theorem unmarshalJSON_refuses_1e400 :
    jsonNumber (trimJSON "1e400".toList) = some (false, 1, 400)
    ∧ UnmarshalJSON ⟨7, 25, 2, 44, 46⟩ "1e400".toList = (⟨7, 25, 2, 44, 46⟩, true) := by
  decide!

/-- C19, amended: for every receiver and every input that is, JSON white space
at both ends aside, a JSON number whose nearest `float64` is finite,
`UnmarshalJSON` returns no error, sets whole and fraction to those of
`NewDecimalFromFloat` of that `float64` at the precision the receiver had, and
keeps precision, decimal point and thousand separator. -/
theorem unmarshalJSON_stores_number (d : Decimal) (data : List Char)
    (v : Bool × Nat × Int) (m : Nat) (e : Int)
    (hv : jsonNumber (trimJSON data) = some v) (hf : decimalToFloat v = fin v.1 m e) :
    UnmarshalJSON d data =
      (⟨(NewDecimalFromFloat (decimalToFloat v) d.precision).whole,
        (NewDecimalFromFloat (decimalToFloat v) d.precision).fraction,
        d.precision, d.decimalPoint, d.thousandSeparator⟩, false) := by
  have h := unmarshalFloat64_number data v m e hv hf
  simp only [UnmarshalJSON, h, hf]

/-- Witness of C19: `148.495049` into a receiver of precision 2 gives whole 148
and fraction 50, rendered `148.50`. -/
theorem unmarshalJSON_stores_number_witness :
    (jsonNumber (trimJSON "148.495049".toList) = some (false, 148495049, -6)
      ∧ decimalToFloat (false, 148495049, -6) = fin false 5224705057365340 (-45))
    ∧ UnmarshalJSON ⟨0, 0, 2, 59, 32⟩ "148.495049".toList = (⟨148, 50, 2, 59, 32⟩, false)
    ∧ ToString (UnmarshalJSON ⟨0, 0, 2, 59, 32⟩ "148.495049".toList).1 = "148.50".toList :=
  ⟨⟨by decide!, by decide!⟩,
    (unmarshalJSON_stores_number ⟨0, 0, 2, 59, 32⟩ "148.495049".toList
      (false, 148495049, -6) 5224705057365340 (-45) (by decide!) (by decide!)).trans
      (by decide!),
    by decide!⟩

/-! ## Claims about the two factories, continued -/

/-- C15, counterexample: beyond the float64 mantissa the stored parts are not
the quotient and remainder of the integer division: for 3393196392894167 at
precision 1 the quotient is 339319639289416 and the remainder 7, and
`NewDecimal` stores the fraction 8; for 2252067339193053 at precision 18 it
stores the fraction 2252067339193054.  (At precision 11 some multiples of
`10^11` are not carried into whole: `NewDecimal(100000000000, 11)` stores
whole 0 and fraction `10^11`.) -/
theorem newDecimal_not_quotient_remainder :
    NewDecimal 3393196392894167 1 = ⟨339319639289416, 8, 1, 44, 46⟩
    ∧ (3393196392894167 : ℤ).tdiv (10 ^ 1) = 339319639289416
    ∧ (3393196392894167 : ℤ) - 339319639289416 * 10 ^ 1 = 7
    ∧ NewDecimal 2252067339193053 18 = ⟨0, 2252067339193054, 18, 44, 46⟩
    ∧ NewDecimal 100000000000 11 = ⟨0, 100000000000, 11, 44, 46⟩
    ∧ (100000000000 : ℤ).tdiv (10 ^ 11) = 1 := by
  decide!

/-- C15, amended: for every amount with `|amount| ≤ 10^15` and every precision
`p ≤ 18`, `NewDecimal(amount, p)` stores whole = `amount / 10^p` truncated
toward zero and fraction = `amount − whole × 10^p`, the remainder with the
sign of `amount`, with precision `p` and the default separators; this at every
precision but 11, at precision 11 for every amount that is not a multiple of
`10^11`, and for the multiples whenever the stored fraction stays below
`10^11` in magnitude. -/
theorem newDecimal_stores_quotient_remainder (amount : ℤ) (p : Nat) (hp : p ≤ 18)
    (hA : |amount| ≤ 10 ^ 15)
    (h11 : p ≠ 11 ∨ ¬ ((10 : ℤ) ^ 11 ∣ amount)
      ∨ |(NewDecimal amount p).fraction| < 10 ^ 11) :
    (NewDecimal amount p).whole = amount.tdiv (10 ^ p)
    ∧ (NewDecimal amount p).fraction = amount - (NewDecimal amount p).whole * 10 ^ p
    ∧ (NewDecimal amount p).fraction = amount.tmod (10 ^ p)
    ∧ (NewDecimal amount p).precision = p
    ∧ (NewDecimal amount p).decimalPoint = DEFAULT_DECIMAL_POINT
    ∧ (NewDecimal amount p).thousandSeparator = DEFAULT_THOUSAND_SEPARATOR := by
  rw [newDecimal_eq amount p hp hA h11]
  refine ⟨rfl, ?_, rfl, rfl, rfl, rfl⟩
  simp only []
  rw [Int.tmod_def]
  ring

/-- Witness of C15: `NewDecimal(38948737383, 4)` has whole 3894873 and fraction
7383, `NewDecimal(18, 2)` has whole 0 and fraction 18; the amount of the tests,
314159265358979 at precision 14, has whole 3 and fraction 14159265358979; and
`3 × 10^11` at precision 11 has whole 3 and fraction 0. -/
theorem newDecimal_stores_quotient_remainder_witness :
    ((4 : ℕ) ≤ 18 ∧ |(38948737383 : ℤ)| ≤ 10 ^ 15)
    ∧ (NewDecimal 38948737383 4).whole = 3894873
    ∧ (NewDecimal 38948737383 4).fraction = 7383
    ∧ NewDecimal 18 2 = ⟨0, 18, 2, 44, 46⟩
    ∧ (NewDecimal 314159265358979 14).whole = 3
    ∧ (NewDecimal 314159265358979 14).fraction = 14159265358979
    ∧ |(NewDecimal 300000000000 11).fraction| < 10 ^ 11
    ∧ (NewDecimal 300000000000 11).whole = 3 :=
  ⟨⟨by norm_num, by decide⟩,
    (newDecimal_stores_quotient_remainder 38948737383 4 (by norm_num) (by decide)
      (Or.inl (by norm_num))).1.trans (by decide),
    (newDecimal_stores_quotient_remainder 38948737383 4 (by norm_num) (by decide)
      (Or.inl (by norm_num))).2.2.1.trans (by decide),
    by decide!,
    (newDecimal_stores_quotient_remainder 314159265358979 14 (by norm_num) (by decide)
      (Or.inl (by norm_num))).1.trans (by decide),
    (newDecimal_stores_quotient_remainder 314159265358979 14 (by norm_num) (by decide)
      (Or.inl (by norm_num))).2.2.1.trans (by decide),
    by decide!,
    (newDecimal_stores_quotient_remainder 300000000000 11 (by norm_num) (by decide)
      (Or.inr (Or.inr (by decide!)))).1.trans (by decide)⟩

/-- C17, counterexample: beyond the float64 mantissa the two factories differ:
for 3393196392894167 at precision 1 `NewDecimal` stores the fraction 8 and
`NewDecimalFromFloat(339319639289416.7, 1)` the fraction 7; for
1250008197312036 at precision 16 `NewDecimal` stores the amount and
`NewDecimalFromFloat(0.1250008197312036, 16)` one unit more.  (They also
differ on `10^11` at precision 11, where `NewDecimal` stores whole 0 and
fraction `10^11` and `NewDecimalFromFloat(1.0, 11)` stores whole 1 and
fraction 0.) -/
theorem factories_disagree :
    NewDecimal 3393196392894167 1 = ⟨339319639289416, 8, 1, 44, 46⟩
    ∧ NewDecimalFromFloat (ofRat false 3393196392894167 (10 ^ 1)) 1
        = ⟨339319639289416, 7, 1, 44, 46⟩
    ∧ NewDecimal 1250008197312036 16 = ⟨0, 1250008197312036, 16, 44, 46⟩
    ∧ NewDecimalFromFloat (ofRat false 1250008197312036 (10 ^ 16)) 16
        = ⟨0, 1250008197312037, 16, 44, 46⟩
    ∧ NewDecimal 100000000000 11 = ⟨0, 100000000000, 11, 44, 46⟩
    ∧ NewDecimalFromFloat (ofRat false 100000000000 (10 ^ 11)) 11 = ⟨1, 0, 11, 44, 46⟩ := by
  decide!

/-- C17, amended: for every amount with `|amount| ≤ 10^15` (`4 × 10^14` above
precision 14) and every precision `p ≤ 18`, `NewDecimalFromFloat` at the
float64 product `float64(amount) * math.Pow10(-p)` returns the Decimal that
`NewDecimal(amount, p)` returns; and so does `NewDecimalFromFloat` at the
float64 nearest to `amount × 10^-p` (what the decimal literal denotes), at
every precision but 11, at precision 11 for every amount that is not a
multiple of `10^11`, and for the multiples whenever the fraction stored by
`NewDecimal` stays below `10^11` in magnitude. -/
theorem factories_agree (amount : ℤ) (p : Nat) (hp : p ≤ 18)
    (hA : |amount| ≤ 10 ^ 15) (h15 : 14 < p → |amount| ≤ 4 * 10 ^ 14) :
    NewDecimalFromFloat (mul (ofInt amount) (pow10Neg p)) p = NewDecimal amount p
    ∧ (p ≠ 11 ∨ ¬ ((10 : ℤ) ^ 11 ∣ amount) ∨ |(NewDecimal amount p).fraction| < 10 ^ 11 →
        NewDecimalFromFloat (ofRat (decide (amount < 0)) amount.natAbs (10 ^ p)) p
          = NewDecimal amount p) := by
  have hAq : |(amount : ℚ)| ≤ 10 ^ 15 := by
    have : ((|amount| : ℤ) : ℚ) ≤ ((10 ^ 15 : ℤ) : ℚ) := by exact_mod_cast hA
    rw [Int.cast_abs] at this
    simpa using this
  obtain ⟨Bf, hBf1, hBf2⟩ : ∃ Bf : ℚ, ((10 : ℚ) ^ p ≤ Bf ∨ |(amount : ℚ)| + 1 ≤ Bf)
      ∧ Bf ≤ 4 * 10 ^ 14 + 1 := by
    by_cases hc : p ≤ 14
    · have hT14 : (10 : ℚ) ^ p ≤ 10 ^ 14 := pow_le_pow_right₀ (by norm_num) hc
      exact ⟨10 ^ 14, Or.inl hT14, by norm_num⟩
    · have h := h15 (by omega)
      have hq : |(amount : ℚ)| ≤ 4 * 10 ^ 14 := by
        have : ((|amount| : ℤ) : ℚ) ≤ ((4 * 10 ^ 14 : ℤ) : ℚ) := by exact_mod_cast h
        rw [Int.cast_abs] at this
        push_cast at this
        linarith
      exact ⟨_, Or.inr le_rfl, by linarith⟩
  constructor
  · obtain ⟨g1, g2, -, -, -⟩ := mul_decimal amount p hp hA
    obtain ⟨W, hW, -, hWm, -⟩ := newDecimal_spec amount p hp hA
    obtain ⟨V, hV, -, hVm, -⟩ := newDecimalFromFloat_spec (mul (ofInt amount) (pow10Neg p)) p
      amount _ Bf g1 hp (le_trans hA (by norm_num)) g2 hBf1 (by linarith)
    have hVW : V = W := by
      have : (V : ℚ) = (W : ℚ) := by rw [← hVm, hWm]
      exact_mod_cast this
    rw [hV, hW, hVW]
  · intro h11
    rw [newDecimal_eq amount p hp hA h11]
    obtain ⟨h1, h2, h3, h4, h5⟩ := ofRat_decimal amount p hp hA
    exact newDecimalFromFloat_eq _ p amount _ Bf h1 hp (le_trans hA (by norm_num)) h2
      (by norm_num) hBf1 (by linarith) h3 h4 h5

/-- Witness of C17: `NewDecimal(12357, 3)` and `NewDecimalFromFloat(12.357, 3)`
both give whole 12 and fraction 357; and `NewDecimalFromFloat` at
3.14159265358979 and precision 14 gives what `NewDecimal(314159265358979, 14)`
gives, the pair of the tests. -/
theorem factories_agree_witness :
    ((3 : ℕ) ≤ 18 ∧ |(12357 : ℤ)| ≤ 10 ^ 15)
    ∧ NewDecimalFromFloat (ofRat false 12357 (10 ^ 3)) 3 = NewDecimal 12357 3
    ∧ NewDecimal 12357 3 = ⟨12, 357, 3, 44, 46⟩
    ∧ NewDecimalFromFloat (ofRat false 314159265358979 (10 ^ 14)) 14
        = NewDecimal 314159265358979 14 :=
  ⟨⟨by norm_num, by decide⟩,
    (factories_agree 12357 3 (by norm_num) (by decide) (by norm_num)).2
      (Or.inl (by norm_num)),
    by decide!,
    (factories_agree 314159265358979 14 (by norm_num) (by decide) (by norm_num)).2
      (Or.inl (by norm_num))⟩

/-! ## Claims about `ToString` -/

/-- C13, counterexample: beyond the float64 mantissa `ToString` does not print
the stored digits: whole 537390676 and fraction 1956945 at precision 7 are
rendered `537390676.1956944`, and whole 0 and fraction 3125461926833901 at
precision 17 are rendered `0.03125461926833902`. -/
theorem toString_loses_digits :
    ToString ⟨537390676, 1956945, 7, 44, 46⟩ = "537390676.1956944".toList
    ∧ ToString ⟨537390676, 1956945, 7, 44, 46⟩ ≠ "537390676.1956945".toList
    ∧ ToString ⟨0, 3125461926833901, 17, 44, 46⟩ = "0.03125461926833902".toList := by
  decide!

/-- C13, amended: for every Decimal within the invariants (the fraction below
`10^precision` in magnitude and not of the sign opposite to whole) with
precision from 1 to 18 and `|whole| × 10^precision + |fraction| ≤ 10^15`,
`ToString` returns a leading `-` exactly when whole or fraction is negative,
the decimal digits of `|whole|`, a `.`, and `|fraction|` padded with zeros on
the left to exactly `precision` digits; the separators play no part. -/
theorem toString_format (d : Decimal) (hp1 : 1 ≤ d.precision) (hp : d.precision ≤ 18)
    (hfr : |d.fraction| < 10 ^ d.precision)
    (hs : (0 ≤ d.whole ∧ 0 ≤ d.fraction) ∨ (d.whole ≤ 0 ∧ d.fraction ≤ 0))
    (hb : |d.whole| * 10 ^ d.precision + |d.fraction| ≤ 10 ^ 15) :
    ToString d =
      (if d.whole < 0 ∨ d.fraction < 0 then ['-'] else [])
        ++ natDigits d.whole.natAbs
        ++ '.' :: padZeros d.precision (natDigits d.fraction.natAbs)
    ∧ (padZeros d.precision (natDigits d.fraction.natAbs)).length = d.precision
    ∧ ∀ c t : Nat, ToString ⟨d.whole, d.fraction, d.precision, c, t⟩ = ToString d := by
  refine ⟨?_, ?_, fun _ _ => rfl⟩
  · have h0 : ¬ d.precision = 0 := by omega
    rw [toString_spec d hp hfr hs hb, if_neg h0]
  · apply padZeros_length _ _ (by omega)
    zify
    exact hfr

/-- Witness of C13: whole 0 and fraction -18 at precision 2 are rendered
`-0.18`, `NewDecimal(0, 2)` is rendered `0.00`, and whole 3 and fraction
14159265358979 at precision 14, the amount of the tests, are rendered
`3.14159265358979`. -/
theorem toString_format_witness :
    ((1 : ℕ) ≤ 2 ∧ (2 : ℕ) ≤ 18 ∧ |(-18 : ℤ)| < 10 ^ 2
      ∧ (((0 : ℤ) ≤ 0 ∧ (0 : ℤ) ≤ -18) ∨ ((0 : ℤ) ≤ 0 ∧ (-18 : ℤ) ≤ 0))
      ∧ |(0 : ℤ)| * 10 ^ 2 + |(-18 : ℤ)| ≤ 10 ^ 15)
    ∧ ToString ⟨0, -18, 2, 44, 46⟩ = "-0.18".toList
    ∧ ToString (NewDecimal 0 2) = "0.00".toList
    ∧ ToString ⟨3, 14159265358979, 14, 44, 46⟩ = "3.14159265358979".toList :=
  ⟨⟨by norm_num, by norm_num, by decide, Or.inr ⟨le_rfl, by norm_num⟩, by decide⟩,
    (toString_format ⟨0, -18, 2, 44, 46⟩ (by norm_num) (by norm_num) (by decide)
      (Or.inr ⟨le_rfl, by norm_num⟩) (by decide)).1.trans (by decide),
    by decide!,
    (toString_format ⟨3, 14159265358979, 14, 44, 46⟩ (by norm_num) (by norm_num) (by decide)
      (Or.inl ⟨by norm_num, by norm_num⟩) (by decide)).1.trans (by decide)⟩

/-! ## Claims about the signs of whole and fraction -/

/-- C14, counterexample: at precision 19 the fraction does not fit an `int64`.
`NewDecimalFromFloat(1.95, 19)` has whole 1 and the fraction `0.95 × 10^19`
converted to `int64`, which is `-2^63` on amd64; so has the sum of 1.95
(precision 2) and of a zero of precision 19. -/
theorem signs_opposite_at_precision_19 :
    NewDecimalFromFloat (ofRat false 195 100) 19 = ⟨1, -9223372036854775808, 19, 44, 46⟩
    ∧ Add ⟨1, 95, 2, 44, 46⟩ ⟨0, 0, 19, 44, 46⟩ = ⟨1, -9223372036854775808, 19, 44, 46⟩
    ∧ (0 < (NewDecimalFromFloat (ofRat false 195 100) 19).whole
        ∧ (NewDecimalFromFloat (ofRat false 195 100) 19).fraction < 0) := by
  decide!

/-- C14, amended: with precisions up to 18, whole and fraction never have
opposite signs (never whole > 0 with fraction < 0, nor whole < 0 with
fraction > 0): in the Decimal returned by `NewDecimal` for every `int64`
amount, in the one returned by `NewDecimalFromFloat` for every `float64`
(infinities and NaN included), and in the results of `Add`, `Subtract`,
`Multiply` and `Divide` for all operands. -/
theorem signs_never_opposite (amount : ℤ) (x : F64) (a b : Decimal) (p : Nat)
    (hp : p ≤ 18) (hA1 : -2 ^ 63 ≤ amount) (hA2 : amount < 2 ^ 63)
    (hx : isFinite x = true ∨ x = nan ∨ ∃ t, x = inf t)
    (ha : a.precision ≤ 18) (hb : b.precision ≤ 18) :
    (¬ (0 < (NewDecimal amount p).whole ∧ (NewDecimal amount p).fraction < 0)
      ∧ ¬ ((NewDecimal amount p).whole < 0 ∧ 0 < (NewDecimal amount p).fraction))
    ∧ (¬ (0 < (NewDecimalFromFloat x p).whole ∧ (NewDecimalFromFloat x p).fraction < 0)
      ∧ ¬ ((NewDecimalFromFloat x p).whole < 0 ∧ 0 < (NewDecimalFromFloat x p).fraction))
    ∧ (¬ (0 < (Add a b).whole ∧ (Add a b).fraction < 0)
      ∧ ¬ ((Add a b).whole < 0 ∧ 0 < (Add a b).fraction))
    ∧ (¬ (0 < (Subtract a b).whole ∧ (Subtract a b).fraction < 0)
      ∧ ¬ ((Subtract a b).whole < 0 ∧ 0 < (Subtract a b).fraction))
    ∧ (¬ (0 < (Multiply a b).whole ∧ (Multiply a b).fraction < 0)
      ∧ ¬ ((Multiply a b).whole < 0 ∧ 0 < (Multiply a b).fraction))
    ∧ (¬ (0 < (Divide a b).whole ∧ (Divide a b).fraction < 0)
      ∧ ¬ ((Divide a b).whole < 0 ∧ 0 < (Divide a b).fraction)) := by
  have hm : maxPrecision a.precision b.precision ≤ 18 := by
    rw [maxPrecision_eq a.precision b.precision (by omega) (by omega)]
    exact max_le ha hb
  exact ⟨newDecimal_signs amount p hp hA1 hA2, newDecimalFromFloat_signs x p hp hx,
    newDecimalFromFloat_signs _ _ hm (add_valid _ _),
    newDecimalFromFloat_signs _ _ hm (sub_valid _ _),
    newDecimalFromFloat_signs _ _ hm (mul_valid _ _),
    newDecimalFromFloat_signs _ _ hm (div_valid _ _)⟩

/-- Witness of C14 at the amount -18, the float -0.25, and the Decimals 12.34
and -0.5, all at precisions up to 18. -/
theorem signs_never_opposite_witness :
    ((2 : ℕ) ≤ 18 ∧ -(2 : ℤ) ^ 63 ≤ -18 ∧ (-18 : ℤ) < 2 ^ 63
      ∧ isFinite (ofRat true 1 4) = true)
    ∧ ¬ (0 < (NewDecimal (-18) 2).whole ∧ (NewDecimal (-18) 2).fraction < 0)
    ∧ ¬ ((Subtract ⟨12, 34, 2, 44, 46⟩ ⟨0, -5, 1, 44, 46⟩).whole < 0
        ∧ 0 < (Subtract ⟨12, 34, 2, 44, 46⟩ ⟨0, -5, 1, 44, 46⟩).fraction) :=
  ⟨⟨by norm_num, by norm_num, by norm_num, by decide!⟩,
    (signs_never_opposite (-18) (ofRat true 1 4) ⟨12, 34, 2, 44, 46⟩ ⟨0, -5, 1, 44, 46⟩ 2
      (by norm_num) (by norm_num) (by norm_num) (Or.inl (by decide!))
      (by norm_num) (by norm_num)).1.1,
    (signs_never_opposite (-18) (ofRat true 1 4) ⟨12, 34, 2, 44, 46⟩ ⟨0, -5, 1, 44, 46⟩ 2
      (by norm_num) (by norm_num) (by norm_num) (Or.inl (by decide!))
      (by norm_num) (by norm_num)).2.2.2.1.2⟩

/-! ## Claims about the round trip through a float -/

/-- C16, counterexample: beyond the float64 mantissa the round trip through
`ToFloat` loses the last digit: whole 537390676 and fraction 1956945 at
precision 7 come back with fraction 1956944, and so does the round trip
through the string that `ToString` renders; whole 0 and fraction
-1250099520783672 at precision 16 come back with fraction
-1250099520783673. -/
theorem float_roundtrip_loses_digits :
    NewDecimalFromFloat (ToFloat ⟨537390676, 1956945, 7, 44, 46⟩) 7
      = ⟨537390676, 1956944, 7, 44, 46⟩
    ∧ UnmarshalJSON ⟨537390676, 1956945, 7, 44, 46⟩
        (ToString ⟨537390676, 1956945, 7, 44, 46⟩)
      = (⟨537390676, 1956944, 7, 44, 46⟩, false)
    ∧ NewDecimalFromFloat (ToFloat ⟨0, -1250099520783672, 16, 44, 46⟩) 16
      = ⟨0, -1250099520783673, 16, 44, 46⟩ := by
  decide!

/-- C16, amended: for every Decimal within the invariants (the fraction below
`10^precision` in magnitude and not of the sign opposite to whole) with
precision up to 18 and `|whole| × 10^precision + |fraction| ≤ 10^15`
(`4 × 10^14` above precision 14), `NewDecimalFromFloat` of `d.ToFloat()` at the precision of `d` has the whole
and the fraction of `d`, and so has the Decimal read back from the `ToString`
rendering: `d.UnmarshalJSON(d.ToString())`, which parses the string as a
float and calls `NewDecimalFromFloat` at the precision of `d`, returns no
error and leaves `d` as it is. -/
theorem float_roundtrip (d : Decimal) (hp : d.precision ≤ 18)
    (hfr : |d.fraction| < 10 ^ d.precision)
    (hs : (0 ≤ d.whole ∧ 0 ≤ d.fraction) ∨ (d.whole ≤ 0 ∧ d.fraction ≤ 0))
    (hb : |d.whole| * 10 ^ d.precision + |d.fraction| ≤ 10 ^ 15)
    (hp15 : 14 < d.precision →
      |d.whole| * 10 ^ d.precision + |d.fraction| ≤ 4 * 10 ^ 14) :
    (NewDecimalFromFloat (ToFloat d) d.precision).whole = d.whole
    ∧ (NewDecimalFromFloat (ToFloat d) d.precision).fraction = d.fraction
    ∧ UnmarshalJSON d (ToString d) = (d, false) := by
  have h := newDecimalFromFloat_toFloat d hp hfr hs hb hp15
  refine ⟨?_, ?_, unmarshalJSON_toString d hp hfr hs hb hp15⟩
  · rw [h]
  · rw [h]

/-- Witness of C16 at -24.56 (whole -24, fraction -56, precision 2) and at the
amount of the tests, whole 3 and fraction 14159265358979 at precision 14. -/
theorem float_roundtrip_witness :
    ((2 : ℕ) ≤ 18 ∧ |(-56 : ℤ)| < 10 ^ 2
      ∧ (((0 : ℤ) ≤ -24 ∧ (0 : ℤ) ≤ -56) ∨ ((-24 : ℤ) ≤ 0 ∧ (-56 : ℤ) ≤ 0))
      ∧ |(-24 : ℤ)| * 10 ^ 2 + |(-56 : ℤ)| ≤ 10 ^ 15)
    ∧ ToString ⟨-24, -56, 2, 44, 46⟩ = "-24.56".toList
    ∧ UnmarshalJSON ⟨-24, -56, 2, 44, 46⟩ (ToString ⟨-24, -56, 2, 44, 46⟩)
        = (⟨-24, -56, 2, 44, 46⟩, false)
    ∧ (NewDecimalFromFloat (ToFloat ⟨3, 14159265358979, 14, 44, 46⟩) 14).fraction
        = 14159265358979
    ∧ UnmarshalJSON ⟨3, 14159265358979, 14, 44, 46⟩
        (ToString ⟨3, 14159265358979, 14, 44, 46⟩)
        = (⟨3, 14159265358979, 14, 44, 46⟩, false) :=
  ⟨⟨by norm_num, by decide, Or.inr ⟨by norm_num, by norm_num⟩, by decide⟩,
    by decide!,
    (float_roundtrip ⟨-24, -56, 2, 44, 46⟩ (by norm_num) (by decide)
      (Or.inr ⟨by norm_num, by norm_num⟩) (by decide) (by norm_num)).2.2,
    (float_roundtrip ⟨3, 14159265358979, 14, 44, 46⟩ (by norm_num) (by decide)
      (Or.inl ⟨by norm_num, by norm_num⟩) (by decide) (by norm_num)).2.1,
    (float_roundtrip ⟨3, 14159265358979, 14, 44, 46⟩ (by norm_num) (by decide)
      (Or.inl ⟨by norm_num, by norm_num⟩) (by decide) (by norm_num)).2.2⟩

/-! ## Claims about `Add`, `IsZero` and the display attributes of results -/

/-- C21: `Add` is commutative: `a.Add(b)` and `b.Add(a)` are the same Decimal,
with the same whole, fraction, precision and separators, for every pair of
Decimals. -/
theorem add_commutative (a b : Decimal) : Add a b = Add b a := by
  unfold Add
  simp only []
  rw [add_swap (ToFloat a) (ToFloat b), maxPrecision_swap a.precision b.precision]

/-- C22: for every Decimal with `|fraction| < 10^precision`, `IsZero` is true
exactly when `whole × 10^precision + fraction = 0`, that is, exactly when the
value `whole + fraction × 10^-precision` is zero. -/
theorem isZero_iff_value_zero (d : Decimal) (h : |d.fraction| < 10 ^ d.precision) :
    (IsZero d = true ↔ d.whole * 10 ^ d.precision + d.fraction = 0)
    ∧ (IsZero d = true ↔ value d = 0) := by
  obtain ⟨W, fr, p, dp, ts⟩ := d
  simp only [] at h ⊢
  have hT : (0 : ℤ) < 10 ^ p := by positivity
  have key : (IsZero ⟨W, fr, p, dp, ts⟩ = true ↔ W * 10 ^ p + fr = 0) := by
    simp only [IsZero, Bool.and_eq_true, beq_iff_eq]
    constructor
    · rintro ⟨rfl, rfl⟩
      simp
    · intro h0
      have hfr : fr = -(W * 10 ^ p) := by linarith
      have hW : W = 0 := by
        by_contra hne
        have h1 : (1 : ℤ) ≤ |W| := Int.one_le_abs hne
        have h2 : |fr| = |W| * 10 ^ p := by
          rw [hfr, abs_neg, abs_mul, abs_of_pos hT]
        have h3 : 1 * 10 ^ p ≤ |W| * 10 ^ p := mul_le_mul_of_nonneg_right h1 hT.le
        linarith
      refine ⟨hW, ?_⟩
      rw [hfr, hW]
      simp
  refine ⟨key, key.trans ?_⟩
  simp only [value]
  have hTq : (10 : ℚ) ^ p ≠ 0 := by positivity
  constructor
  · intro h0
    have : ((W * 10 ^ p + fr : ℤ) : ℚ) = 0 := by rw [h0]; simp
    push_cast at this
    field_simp
    linarith
  · intro h0
    field_simp at h0
    have : ((W * 10 ^ p + fr : ℤ) : ℚ) = ((0 : ℤ) : ℚ) := by
      push_cast
      linarith
    exact_mod_cast this

/-- Witness of C22: `NewDecimal(0, 2).IsZero()` is true and
`NewDecimal(2456, 2).IsZero()` is false. -/
theorem isZero_iff_value_zero_witness :
    (|(0 : ℤ)| < 10 ^ 2 ∧ |(56 : ℤ)| < 10 ^ 2)
    ∧ NewDecimal 0 2 = ⟨0, 0, 2, 44, 46⟩ ∧ IsZero ⟨0, 0, 2, 44, 46⟩ = true
    ∧ NewDecimal 2456 2 = ⟨24, 56, 2, 44, 46⟩ ∧ ¬ IsZero ⟨24, 56, 2, 44, 46⟩ = true :=
  ⟨⟨by decide, by decide⟩, by decide!,
    (isZero_iff_value_zero ⟨0, 0, 2, 44, 46⟩ (by decide)).1.mpr (by decide),
    by decide!,
    fun h => absurd ((isZero_iff_value_zero ⟨24, 56, 2, 44, 46⟩ (by decide)).1.mp h)
      (by decide)⟩

/-- C23: the results of `Add`, `Subtract`, `Multiply`, `Divide`, of their Int
and Float variants, and every part that `Split` returns carry the default
separators, decimal point `,` and thousand separator `.`, whatever separators
the operands carry.  The Split part is stated over the parts the call
returns: whenever `a.Split(n)` returns parts, there are `n` of them and each
carries the defaults; and it does return them for every `n` from 1 to the
allocation limit.  The operations take their operands by value, so the
operands are as they were after the call: the operations are functions of the
operands. -/
theorem results_have_default_separators (a b : Decimal) (i : ℤ) (f : F64) (n : Nat) :
    (byteToString DEFAULT_DECIMAL_POINT = [','] ∧ byteToString DEFAULT_THOUSAND_SEPARATOR = ['.'])
    ∧ (∀ r ∈ [Add a b, Subtract a b, Multiply a b, Divide a b,
          AddInt a i, SubtractInt a i, MultiplyByInt a i, DivideByInt a i,
          AddFloat a f, SubtractFloat a f, MultiplyFloat a f, DivideByFloat a f],
        r.decimalPoint = DEFAULT_DECIMAL_POINT
          ∧ r.thousandSeparator = DEFAULT_THOUSAND_SEPARATOR)
    ∧ (∀ parts, Split a n = some parts →
        parts.length = n
          ∧ ∀ part ∈ parts, part.decimalPoint = DEFAULT_DECIMAL_POINT
              ∧ part.thousandSeparator = DEFAULT_THOUSAND_SEPARATOR)
    ∧ (0 < n ∧ n ≤ maxSliceLen → ∃ parts, Split a n = some parts) := by
  refine ⟨⟨by decide, by decide⟩, ?_, ?_, ?_⟩
  · intro r hr
    simp only [List.mem_cons, List.mem_singleton, List.not_mem_nil, or_false] at hr
    rcases hr with rfl | rfl | rfl | rfl | rfl | rfl | rfl | rfl | rfl | rfl | rfl | rfl <;>
      exact ⟨rfl, rfl⟩
  · intro parts hparts
    unfold Split at hparts
    split at hparts
    · exact absurd hparts (by simp)
    · cases n with
      | zero => exact absurd hparts (by simp [List.replicate])
      | succ k =>
        simp only [List.replicate_succ, Option.some.injEq] at hparts
        subst hparts
        refine ⟨by simp, ?_⟩
        intro part hpart
        rcases List.mem_cons.mp hpart with rfl | hrest
        · exact ⟨rfl, rfl⟩
        · rw [List.eq_of_mem_replicate hrest]
          exact ⟨rfl, rfl⟩
  · rintro ⟨h0, h1⟩
    unfold Split
    rw [if_neg (by omega)]
    cases n with
    | zero => omega
    | succ k => exact ⟨_, rfl⟩

/-- Witness of C23: `NewDecimal(1000, 2).Split(3)` returns three parts, each
with the default separators, also when the operand carries other
separators. -/
theorem results_have_default_separators_witness :
    (∃ parts, Split ⟨10, 0, 2, 46, 44⟩ 3 = some parts)
    ∧ Split ⟨10, 0, 2, 46, 44⟩ 3
        = some [⟨3, 34, 2, 44, 46⟩, ⟨3, 33, 2, 44, 46⟩, ⟨3, 33, 2, 44, 46⟩]
    ∧ ∀ part ∈ [(⟨3, 34, 2, 44, 46⟩ : Decimal), ⟨3, 33, 2, 44, 46⟩, ⟨3, 33, 2, 44, 46⟩],
        part.decimalPoint = DEFAULT_DECIMAL_POINT
          ∧ part.thousandSeparator = DEFAULT_THOUSAND_SEPARATOR :=
  ⟨(results_have_default_separators ⟨10, 0, 2, 46, 44⟩ ⟨0, 0, 0, 44, 46⟩ 0 (ofInt 0) 3).2.2.2
      ⟨by decide, by decide⟩,
    by decide!,
    ((results_have_default_separators ⟨10, 0, 2, 46, 44⟩ ⟨0, 0, 0, 44, 46⟩ 0 (ofInt 0) 3).2.2.1
      _ (by decide!)).2⟩

end Decimal
